import Mathlib

/-! # selfqr: a shallow embedding of the raster compositor

The Go package `selfqr` decorates the bitmap of a QR symbol: `CodePoint` draws the
modules, `BullEye` the three finder patterns, `Logo` a centred image, and `Result`
scales, borders and serialises the canvas.

Conventions of the embedding.

* Go `int` is `Int` (all quantities stay far below `2^63`); Go `/` and `%` on `int`
  are `Int.tdiv` and `Int.tmod` (truncation towards zero); `uint(i)` is `i mod 2^64`.
* `float64` values are exact rationals (`ℚ`); `int(f)` and `uint(f)` truncate. Where a
  product is not exact in binary floating point (for example `(1 - 0.8) * 10 / 2`), the
  truncation in the code can differ by one from the truncation here.
* A `color.Color` value is the `color.RGBA` value it converts to (alpha-premultiplied,
  8 bits a channel) together with a flag that says whether its dynamic type is
  `color.RGBA` itself (`Color`); a pixel of an image is a `color.RGBA`.
* Every image is an `*image.RGBA`: a bounds rectangle and a pixel function.
* The collaborators outside the package (`resize.Resize`, `png.Encode`, the QR
  encoder) are described by their documented behaviour on bounds; the pixel values a
  resampler invents, and the bytes a codec writes, are parameters (`Externals`).
* A run-time panic (nil dereference, division by zero, failed type assertion) is
  `none`.
-/

namespace Selfqr

/-! ## Colours, points, rectangles -/

/-- Value of `color.RGBA`. The zero value is fully transparent. -/
structure RGBA where
  R : Nat
  G : Nat
  B : Nat
  A : Nat
deriving DecidableEq, Repr

/-- The zero colour `color.RGBA{}`. -/
def RGBA.zero : RGBA := ⟨0, 0, 0, 0⟩

/-- A value of the interface `color.Color`: `rgba` is the value of
`color.RGBAModel.Convert`, which is what `image.RGBA.Set` stores (the colour itself when
it is a `color.RGBA`), and `isRGBA` says whether the dynamic type is `color.RGBA`, which
is what the type assertion `c.(color.RGBA)` tests. -/
structure Color where
  rgba : RGBA
  isRGBA : Bool
deriving DecidableEq, Repr

/-- Value of `image.Point`. -/
structure Point where
  X : Int
  Y : Int
deriving DecidableEq, Repr

/-- Value of `image.Pt`. -/
def Pt (x y : Int) : Point := ⟨x, y⟩

/-- Value of `Point.Sub`. -/
def Point.Sub (p q : Point) : Point := ⟨p.X - q.X, p.Y - q.Y⟩

/-- Value of `image.Rectangle`: contains the points with `Min ≤ p < Max`. -/
structure Rectangle where
  Min : Point
  Max : Point
deriving DecidableEq, Repr

/-- Value of `image.Rect`: the corners are put in order. -/
def Rect (x0 y0 x1 y1 : Int) : Rectangle :=
  let (x0, x1) := if x0 > x1 then (x1, x0) else (x0, x1)
  let (y0, y1) := if y0 > y1 then (y1, y0) else (y0, y1)
  ⟨⟨x0, y0⟩, ⟨x1, y1⟩⟩

/-- Value of `Rectangle.Add`: translation. -/
def Rectangle.Add (r : Rectangle) (p : Point) : Rectangle :=
  ⟨⟨r.Min.X + p.X, r.Min.Y + p.Y⟩, ⟨r.Max.X + p.X, r.Max.Y + p.Y⟩⟩

/-- Value of `Rectangle.Empty`. -/
def Rectangle.Empty (r : Rectangle) : Bool :=
  decide (r.Min.X ≥ r.Max.X) || decide (r.Min.Y ≥ r.Max.Y)

/-- Value of `Rectangle.Dx`. -/
def Rectangle.Dx (r : Rectangle) : Int := r.Max.X - r.Min.X

/-- Value of `Rectangle.Dy`. -/
def Rectangle.Dy (r : Rectangle) : Int := r.Max.Y - r.Min.Y

/-- The zero rectangle `image.ZR`. -/
def ZR : Rectangle := ⟨⟨0, 0⟩, ⟨0, 0⟩⟩

/-- Value of `Rectangle.Intersect`: the largest rectangle inside both, `ZR` when
there is none. -/
def Rectangle.Intersect (r s : Rectangle) : Rectangle :=
  let t : Rectangle :=
    ⟨⟨if r.Min.X < s.Min.X then s.Min.X else r.Min.X,
      if r.Min.Y < s.Min.Y then s.Min.Y else r.Min.Y⟩,
     ⟨if r.Max.X > s.Max.X then s.Max.X else r.Max.X,
      if r.Max.Y > s.Max.Y then s.Max.Y else r.Max.Y⟩⟩
  if t.Empty then ZR else t

/-- Value of `Point.In`. -/
def Point.In (p : Point) (r : Rectangle) : Bool :=
  decide (r.Min.X ≤ p.X) && decide (p.X < r.Max.X) &&
  decide (r.Min.Y ≤ p.Y) && decide (p.Y < r.Max.Y)

/-! ## Images -/

/-- An `*image.RGBA`: its bounds and its pixels. -/
structure Image where
  Rect : Rectangle
  px : Int → Int → RGBA

/-- Value of `image.NewRGBA`: every pixel is the zero colour. -/
def NewRGBA (r : Rectangle) : Image := ⟨r, fun _ _ => RGBA.zero⟩

/-- Value of `Image.Bounds`. -/
def Image.Bounds (m : Image) : Rectangle := m.Rect

/-- Value of `RGBA.At`: the zero colour outside the bounds. -/
def Image.At (m : Image) (x y : Int) : RGBA :=
  if (Pt x y).In m.Rect then m.px x y else RGBA.zero

/-- Value of `RGBA.Set`: a write outside the bounds is ignored. -/
def Image.Set (m : Image) (x y : Int) (c : RGBA) : Image :=
  if (Pt x y).In m.Rect then
    { m with px := fun u v => if u = x ∧ v = y then c else m.px u v }
  else m

/-- One channel of the `draw.Over` operator on 8-bit premultiplied values, as
`image/draw` computes it: `uint8((d*a/m + s*0x101) >> 8)` with `m = 0xffff` and
`a = (m - sa*0x101) * 0x101`. -/
def overChannel (s sa d : Nat) : Nat :=
  ((d * ((65535 - sa * 257) * 257) / 65535 + s * 257) / 256) % 256

/-- The `draw.Over` operator: `s` composited over `d`. -/
def over (s d : RGBA) : RGBA :=
  ⟨overChannel s.R s.A d.R, overChannel s.G s.A d.G,
   overChannel s.B s.A d.B, overChannel s.A s.A d.A⟩

/-- The clipping step of `draw.Draw`: the destination rectangle is cut to the
destination bounds and to the translated source bounds, and the source point moves
with it. -/
def clip (dst : Rectangle) (r : Rectangle) (src : Rectangle) (sp : Point) :
    Rectangle × Point :=
  let orig := r.Min
  let r1 := r.Intersect dst
  let r2 := r1.Intersect (src.Add (orig.Sub sp))
  let dx := r2.Min.X - orig.X
  let dy := r2.Min.Y - orig.Y
  (r2, ⟨sp.X + dx, sp.Y + dy⟩)

/-- Value of `draw.Draw(dst, r, src, sp, draw.Over)`: after clipping, every pixel of
`r` receives the source pixel aligned with it, composited over what was there. -/
def Draw (dst : Image) (r : Rectangle) (src : Image) (sp : Point) : Image :=
  let c := clip dst.Rect r src.Rect sp
  if c.1.Empty then dst
  else
    { dst with
      px := fun x y =>
        if (Pt x y).In c.1 then
          over (src.At (c.2.X + (x - c.1.Min.X)) (c.2.Y + (y - c.1.Min.Y))) (dst.px x y)
        else dst.px x y }

/-- A counted loop `for i := 0; i < n; i++`. -/
def loopN {σ : Type} (n : Int) (body : Int → σ → σ) (s : σ) : σ :=
  (List.range n.toNat).foldl (fun acc (i : Nat) => body (i : Int) acc) s

/-! ## Numeric conversions -/

/-- Conversion `uint(i)` of an `int`. -/
def toUint (i : Int) : Nat := (i % 2 ^ 64).toNat

/-- Conversion `int(f)` of a float: truncation towards zero. -/
def truncToInt (q : ℚ) : Int := if 0 ≤ q then ⌊q⌋ else ⌈q⌉

/-- Conversion `uint(f)` of a float. -/
def truncToUint (q : ℚ) : Nat := toUint (truncToInt q)

/-- Value of `math.Round`: nearest integer, halves away from zero. -/
def mathRound (q : ℚ) : ℚ := if 0 ≤ q then (⌊q + 1 / 2⌋ : Int) else -(⌊-q + 1 / 2⌋ : Int)

/-! ## The resampler -/

/-- The interpolation functions the package passes to `resize.Resize`. -/
inductive InterpolationFunction where
  | Bilinear
  | Lanczos3
deriving DecidableEq, Repr

/-- The failures a session can carry. -/
inductive Failure where
  | lowFaultTolerance
  | encoder (code : Nat)
  | serialization (code : Nat)
deriving DecidableEq, Repr

/-- The QR error-correction levels of the encoder, in increasing order. -/
inductive RecoveryLevel where
  | Low
  | Medium
  | High
  | Highest
deriving DecidableEq, Repr

/-- The integer behind a `RecoveryLevel`. -/
def RecoveryLevel.toInt : RecoveryLevel → Int
  | .Low => 0
  | .Medium => 1
  | .High => 2
  | .Highest => 3

/-- The encoder's symbol: its modules (without quiet zone), its level and the
`DisableBorder` switch. -/
structure QRCode where
  modules : List (List Bool)
  Level : RecoveryLevel
  DisableBorder : Bool

/-- Value of `QRCode.Bitmap` when the symbol is built: the modules, inside a quiet zone
of four modules on every side unless `DisableBorder` is set. (The encoder builds the
symbol once and keeps it; a session on which `Result` ran before it had a canvas keeps
that first symbol, a call order the methods' comments do not intend and the embedding
does not follow.) -/
def QRCode.Bitmap (q : QRCode) : List (List Bool) :=
  if q.DisableBorder then q.modules
  else
    let n := q.modules.length + 8
    let blank := List.replicate n false
    let pad := List.replicate 4 false
    List.replicate 4 blank ++ q.modules.map (fun row => pad ++ row ++ pad) ++
      List.replicate 4 blank

/-- The collaborators outside the package: the pixel values a resampler computes for
a resized image, the PNG encoder, and the QR encoder with its own PNG renderer. -/
structure Externals where
  resample : InterpolationFunction → Nat → Nat → Image → Int → Int → RGBA
  pngEncode : Image → List Nat × Option Failure
  qrNew : String → RecoveryLevel → Option QRCode × Option Failure
  qrPNG : QRCode → Int → List Nat × Option Failure

/-- Value of `resize.Resize`. A requested width or height of `0` is derived from the
other one by the aspect ratio (and both `0` keep the source size); when the requested
size is the size of the source, or the source has no pixels, the source itself is
returned; otherwise the result is a new image with bounds `(0,0)-(width,height)`. -/
def Resize (E : Externals) (width height : Nat) (img : Image)
    (interp : InterpolationFunction) : Image :=
  let oldW : ℚ := img.Bounds.Dx
  let oldH : ℚ := img.Bounds.Dy
  let scaleX : ℚ :=
    if width = 0 then (if height = 0 then 1 else oldH / height) else oldW / width
  let scaleY : ℚ :=
    if width = 0 then (if height = 0 then 1 else oldH / height)
    else (if height = 0 then scaleX else oldH / height)
  let w : Nat := if width = 0 then truncToUint (7 / 10 + oldW / scaleX) else width
  let h : Nat := if height = 0 then truncToUint (7 / 10 + oldH / scaleY) else height
  if (w : Int) = img.Bounds.Dx ∧ (h : Int) = img.Bounds.Dy then img
  else if img.Bounds.Dx ≤ 0 ∨ img.Bounds.Dy ≤ 0 then img
  else ⟨Rect 0 0 w h, E.resample interp w h img⟩

/-! ## basic_image.go: the shape generators -/

/-- The function `rectangle`: a `w × h` stamp, with corners of radius `r` rounded. -/
def rectangle (col : RGBA) (w h r : Int) : Image :=
  let img := NewRGBA (Rect 0 0 w h)
  let img := loopN h (fun y img => loopN w (fun x img =>
    if (x ≥ r ∨ y ≥ r) ∧ (x ≤ w - r ∨ y ≤ h - r) ∧ (x ≥ r ∨ y ≤ h - r) ∧
        (x ≤ w - r ∨ y ≥ r) then img.Set x y col
    else img) img) img
  if r > 0 then
    loopN (r * 2) (fun xx img => loopN (r * 2) (fun yy img =>
      if (xx - r) * (xx - r) + (yy - r) * (yy - r) ≤ r * r then
        (((img.Set xx yy col).Set ((w - 2 * r) + xx) yy col).Set xx ((h - 2 * r) + yy) col).Set
          ((w - 2 * r) + xx) ((h - 2 * r) + yy) col
      else img) img) img
  else img

/-- The function `circular`: a disk of radius `r` in a `2r × 2r` stamp. -/
def circular (col : RGBA) (r : Int) : Image :=
  let img := NewRGBA (Rect 0 0 (2 * r) (2 * r))
  loopN (r * 2) (fun xx img => loopN (r * 2) (fun yy img =>
    if (xx - r) * (xx - r) + (yy - r) * (yy - r) ≤ r * r then img.Set xx yy col
    else img) img) img

/-- The raster `isosceles` builds before stretching it: `h` wide, `h/2` high. -/
def isoscelesRaw (col : RGBA) (h : Int) (top : Bool) : Image :=
  let img := NewRGBA (Rect 0 0 h (h.tdiv 2))
  loopN h (fun y img => loopN h (fun x img =>
    if top then
      (if y ≤ h.tdiv 2 ∧ x > h.tdiv 2 - y ∧ x < h.tdiv 2 + y then img.Set x y col else img)
    else
      (if y > h.tdiv 2 ∧ x > h.tdiv 2 - (h - y) ∧ x < h.tdiv 2 + (h - y) then
        img.Set x (y - h.tdiv 2) col
      else img)) img) img

/-- The function `isosceles`: the raw raster stretched to `h × h`. -/
def isosceles (E : Externals) (col : RGBA) (h : Int) (top : Bool) : Image :=
  Resize E (toUint h) (toUint h) (isoscelesRaw col h top) .Lanczos3

/-- The function `rhombus`: a diamond in an `h × h` stamp. -/
def rhombus (col : RGBA) (h : Int) : Image :=
  let img := NewRGBA (Rect 0 0 h h)
  loopN h (fun y img => loopN h (fun x img =>
    if y > h.tdiv 2 then
      (if x > h.tdiv 2 - (h - y) ∧ x < h.tdiv 2 + (h - y) then img.Set x y col else img)
    else
      (if x > h.tdiv 2 - y ∧ x < h.tdiv 2 + y then img.Set x y col else img)) img) img

/-! ## selfqr.go: the session -/

/-- The session `PersonaQrCode`; a nil pointer or interface is `none`. -/
structure PersonaQrCode where
  qr : Option QRCode
  img : Option Image
  size : Int
  foreground : Option Color
  background : Option Color
  foreImage : Option Image
  bullEyeForeImageColor : Bool
  thick : Int
  Error : Option Failure

/-- The styles of `BullEye`. -/
inductive BullEyeStyle where
  | BesRectangle
  | BesRoundedRectangle
  | BesCircular
  | BesRhombus
deriving DecidableEq, Repr

/-- The styles of `CodePoint`. -/
inductive CodePointStyle where
  | CpsRectangle
  | CpsRoundedRectangle
  | CpsCircular
  | CpsRhombus
  | CpsIsoscelesTop
  | CpsIsoscelesBottom
deriving DecidableEq, Repr

/-- The constructor `New`: the encoder's symbol and failure go into the session. -/
def New (E : Externals) (text : String) (size : Int) (level : RecoveryLevel) :
    PersonaQrCode :=
  { qr := (E.qrNew text level).1, img := none, size := size, foreground := none,
    background := none, foreImage := none, bullEyeForeImageColor := false, thick := 0,
    Error := (E.qrNew text level).2 }

/-- The setter `Background`. -/
def Background (p : PersonaQrCode) (col : Color) : PersonaQrCode :=
  { p with background := some col }

/-- The setter `Foreground`. -/
def Foreground (p : PersonaQrCode) (col : Color) : PersonaQrCode :=
  { p with foreground := some col }

/-- The setter `ForeImage`: the image is resampled to the session size first. -/
def ForeImage (E : Externals) (p : PersonaQrCode) (img : Image) (bullEye : Bool) :
    PersonaQrCode :=
  let img :=
    if p.size ≠ img.Bounds.Max.X ∨ p.size ≠ img.Bounds.Max.Y then
      Resize E (toUint p.size) (toUint p.size) img .Bilinear
    else img
  { p with foreImage := some img, bullEyeForeImageColor := bullEye }

/-- The method `hasDefault`: a missing canvas, foreground or background is created; the
default colours are `color.RGBA` values. -/
def hasDefault (p : PersonaQrCode) : PersonaQrCode :=
  { p with
    img := some (p.img.getD (NewRGBA (Rect 0 0 p.size p.size)))
    foreground := some (p.foreground.getD ⟨⟨0, 0, 0, 255⟩, true⟩)
    background := some (p.background.getD ⟨⟨255, 255, 255, 255⟩, true⟩) }

/-- The loops `for y < ny { for x < nx { img.Set(x, y, col) } }`, where `col` is the
`color.RGBA` that `Set` stores for the colour and `none` stands for a nil colour; setting
a nil colour panics as soon as the body runs. -/
def fillLoop (img : Image) (ny nx : Int) (col : Option RGBA) : Option Image :=
  match col with
  | some c => some (loopN ny (fun y img => loopN nx (fun x img => img.Set x y c) img) img)
  | none => if 0 < ny ∧ 0 < nx then none else some img

/-- Lines 137-142 of `CodePoint`: the fill ratio is capped at 1, and raised to 0.1
when it is not positive. -/
def clampRatio (r : ℚ) : ℚ :=
  let r := if r > 1 then 1 else r
  if r ≤ 0 then 1 / 10 else r

/-- Line 147 of `CodePoint`: `int(math.Round(float64(size / n)))`. -/
def pitch (size n : Int) : Int := truncToInt (mathRound ((size.tdiv n : Int) : ℚ))

/-- Line 163 of `CodePoint`: the test that keeps the generic loop out of the finder
corners (`rowLen` is `len(rows)`, `n` is `len(bitmap)`). -/
def finderCorner (y x rowLen n : Int) : Bool :=
  (decide (y < 7) && decide (x < 7)) || (decide (y < 7) && decide (x > rowLen - 8)) ||
    (decide (y > n - 8) && decide (x < 7))

/-- Lines 160-195 of `CodePoint`: the loops over the bitmap, running `draw x y` for
every module that is on and passes the corner test. -/
def moduleLoop {σ : Type} (bitmap : List (List Bool)) (draw : Int → Int → σ → σ)
    (s : σ) : σ :=
  bitmap.enum.foldl (fun acc yr =>
    yr.2.enum.foldl (fun acc xb =>
      if xb.2 then
        (if !(finderCorner yr.1 xb.1 yr.2.length bitmap.length) then draw xb.1 yr.1 acc
         else acc)
      else acc) acc) s

/-- Lines 173-186 of `CodePoint`: the stamp of a style, generated at twice the pitch. -/
def stamp (E : Externals) (s : CodePointStyle) (foreground : RGBA) (thick : Int) : Image :=
  match s with
  | .CpsRectangle => rectangle foreground (2 * thick) (2 * thick) 0
  | .CpsRoundedRectangle => rectangle foreground (2 * thick) (2 * thick) (thick.tdiv 2)
  | .CpsCircular => circular foreground (2 * thick)
  | .CpsRhombus => rhombus foreground (2 * thick)
  | .CpsIsoscelesTop => isosceles E foreground (2 * thick) true
  | .CpsIsoscelesBottom => isosceles E foreground (2 * thick) false

/-- Lines 188-190 of `CodePoint`: the compositing call for module `(x, y)`. -/
def drawStamp (E : Externals) (s : CodePointStyle) (r : ℚ) (thick : Int)
    (foreground : RGBA) (x y : Int) (canvas : Image) : Image :=
  Draw canvas canvas.Bounds
    (Resize E (truncToUint (r * thick)) (truncToUint (r * thick))
      (stamp E s foreground thick) .Bilinear)
    (Pt (-(x * thick) - truncToInt ((1 - r) * thick / 2))
        (-(y * thick) - truncToInt ((1 - r) * thick / 2)))

/-- Lines 165-190 of `CodePoint`: colour lookup, stamp and compositing of one module. -/
def drawModule (E : Externals) (s : CodePointStyle) (r : ℚ) (thick : Int)
    (foreImage : Option Image) (foreground : RGBA) (x y : Int) (canvas : Image) : Image :=
  let fg := match foreImage with
    | some f => f.At (x * thick) (y * thick)
    | none => foreground
  drawStamp E s r thick fg x y canvas

/-- The method `CodePoint`. -/
def CodePoint (E : Externals) (p : PersonaQrCode) (s : CodePointStyle) (r : ℚ) :
    Option PersonaQrCode := do
  let p := hasDefault p
  let r := clampRatio r
  let qr ← p.qr
  let qr := { qr with DisableBorder := true }
  let bitmap := qr.Bitmap
  if bitmap.length = 0 then none
  else
    let thick := pitch p.size bitmap.length
    let img ← p.img
    let img :=
      if p.size.tmod bitmap.length ≠ 0 then
        NewRGBA (Rect 0 0 (bitmap.length * thick - 1) (bitmap.length * thick - 1))
      else img
    let bg ← p.background
    let fg ← p.foreground
    let img := loopN img.Bounds.Max.Y (fun y img =>
      loopN img.Bounds.Max.X (fun x img => img.Set x y bg.rgba) img) img
    let img := moduleLoop bitmap (drawModule E s r thick p.foreImage fg.rgba) img
    some { p with qr := some qr, thick := thick, img := some img }

/-- Lines 203-207 of `BullEye`: the canvas points at which the three patches go. -/
def bullEyeOrigins (canvas : Image) (thick : Int) : List (Int × Int) :=
  [(0, 0), (0, canvas.Bounds.Max.Y - 7 * thick), (canvas.Bounds.Max.Y - 7 * thick, 0)]

/-- The shape of a `BullEye` style in colour `col`, as lines 226-239 and 260-269
request it. -/
def bullEyeShape (s : BullEyeStyle) (col : RGBA) (size : Int) : Image :=
  match s with
  | .BesRectangle => rectangle col size size 0
  | .BesRoundedRectangle => rectangle col size size (truncToInt ((size : ℚ) * (1 / 10)))
  | .BesCircular => circular col (size.tdiv 2)
  | .BesRhombus => rhombus col (size.tdiv 2)

/-- Lines 249-258 of `BullEye`: every pixel that is exactly solid white becomes
transparent. -/
def clearWhite (img : Image) : Image :=
  loopN img.Bounds.Max.Y (fun y img => loopN img.Bounds.Max.X (fun x img =>
    if (img.At x y).R = 255 ∧ (img.At x y).G = 255 ∧ (img.At x y).B = 255 ∧
        (img.At x y).A = 255 then img.Set x y RGBA.zero
    else img) img) img

/-- Lines 209-274 of `BullEye`: one `size × size` patch, made of the outside shape,
the cover at 5/7 and the inner shape at 3/7. -/
def bullEyePatch (E : Externals) (size : Int) (foreground pBackground : RGBA)
    (os is : BullEyeStyle) : Image :=
  let img := NewRGBA (Rect 0 0 size size)
  let background : RGBA := if pBackground.A = 0 then ⟨255, 255, 255, 255⟩ else pBackground
  let uniform := size.tdiv 7
  let outside := bullEyeShape os foreground size
  let cover := bullEyeShape os background size
  let img := Draw img img.Bounds (Resize E (toUint size) (toUint size) outside .Bilinear)
    (Pt 0 0)
  let oSize := uniform * (7 - 2)
  let oOffset := (size - oSize).tdiv 2
  let img := Draw img (img.Bounds.Add (Pt oOffset oOffset))
    (Resize E (toUint oSize) (toUint oSize) cover .Bilinear) (Pt 0 0)
  let img := if pBackground.A = 0 then clearWhite img else img
  let inner := bullEyeShape is foreground size
  let iSize := uniform * 3
  let iOffset := (size - iSize).tdiv 2
  Draw img (img.Bounds.Add (Pt iOffset iOffset))
    (Resize E (toUint iSize) (toUint iSize) inner .Lanczos3) (Pt 0 0)

/-- Lines 275-276 of `BullEye`: the patch, resampled to `7 * thick`, composited at
`xy`. -/
def drawPatch (E : Externals) (thick : Int) (patch : Image) (xy : Int × Int)
    (canvas : Image) : Image :=
  Draw canvas canvas.Bounds
    (Resize E (toUint (7 * thick)) (toUint (7 * thick)) patch .Bilinear)
    (Pt (-xy.1) (-xy.2))

/-- Lines 212-217 of `BullEye`: the colour of the patch that goes to `xy`, read from
the foreground image when the session asks for it, the foreground colour `fg`
otherwise. -/
def bullEyeForeground (p : PersonaQrCode) (fg : RGBA) (xy : Int × Int) : RGBA :=
  match p.foreImage with
  | some f => if p.bullEyeForeImageColor then f.At xy.1 xy.2 else fg
  | none => fg

/-- The method `BullEye`. Each of the three iterations evaluates the unchecked type
assertion `p.background.(color.RGBA)` (lines 219 and 249), which panics when the
background colour has another dynamic type. -/
def BullEye (E : Externals) (p : PersonaQrCode) (os is : BullEyeStyle) :
    Option PersonaQrCode := do
  let p := hasDefault p
  let canvas ← p.img
  let fg ← p.foreground
  let bg ← p.background
  let canvas ← (bullEyeOrigins canvas p.thick).foldlM (fun canvas xy =>
    if bg.isRGBA then
      some (drawPatch E p.thick
        (bullEyePatch E p.size (bullEyeForeground p fg.rgba xy) bg.rgba os is) xy canvas)
    else none) canvas
  some { p with img := some canvas }

/-- Lines 288-302 of `Logo`: the logo on a canvas of its own, inside a border of the
background colour when `border` is set. -/
def logoCanvas (E : Externals) (background : Option RGBA) (img : Image) (border : Bool) :
    Option Image := do
  let canvas := NewRGBA (Rect 0 0 img.Bounds.Max.X img.Bounds.Max.Y)
  if border then
    let canvas ← fillLoop canvas img.Bounds.Max.X img.Bounds.Max.Y background
    some (Draw canvas
      (canvas.Bounds.Add (Pt
        ((img.Bounds.Max.X - truncToInt ((img.Bounds.Max.X : ℚ) * (4 / 5))).tdiv 2)
        ((img.Bounds.Max.Y - truncToInt ((img.Bounds.Max.Y : ℚ) * (4 / 5))).tdiv 2)))
      (Resize E (truncToUint ((img.Bounds.Max.X : ℚ) * (4 / 5)))
        (truncToUint ((img.Bounds.Max.Y : ℚ) * (4 / 5))) img .Lanczos3) (Pt 0 0))
  else
    some (Draw canvas canvas.Bounds img (Pt 0 0))

/-- Line 304 of `Logo`: the side of the logo footprint, `int(float64(thick) * 8)`. -/
def logoSize (thick : Int) : Int := truncToInt ((thick : ℚ) * 8)

/-- Line 306 of `Logo`: the offset of the logo footprint on both axes. -/
def logoOffset (size thick : Int) : Int := (size - logoSize thick).tdiv 2

/-- The method `Logo`. -/
def Logo (E : Externals) (p : PersonaQrCode) (img : Image) (border : Bool) :
    Option PersonaQrCode := do
  let qr ← p.qr
  if qr.Level.toInt ≤ RecoveryLevel.Medium.toInt then
    some { p with Error := some Failure.lowFaultTolerance }
  else
    let padded ← logoCanvas E (p.background.map Color.rgba) img border
    let canvas ← p.img
    let size := logoSize p.thick
    let offset := Pt (logoOffset p.size p.thick) (logoOffset p.size p.thick)
    some { p with
      img := some (Draw canvas (canvas.Bounds.Add offset)
        (Resize E (toUint size) (toUint size) padded .Lanczos3) (Pt 0 0)) }

/-- Lines 79-84 of `Result`: the canvas brought to the session size. -/
def resultScale (E : Externals) (size : Int) (canvas : Image) : Image :=
  let fresh := NewRGBA (Rect 0 0 size size)
  Draw fresh fresh.Bounds (Resize E (toUint size) (toUint size) canvas .Lanczos3) (Pt 0 0)

/-- Lines 86-97 of `Result`: a canvas of the background colour with the content
inset by `thick`. -/
def resultBorder (E : Externals) (size thick : Int) (background : Option RGBA)
    (canvas : Image) : Option Image := do
  let fresh ← fillLoop (NewRGBA (Rect 0 0 size size)) size size background
  some (Draw fresh (fresh.Bounds.Add (Pt thick thick))
    (Resize E (toUint (canvas.Bounds.Max.X - thick * 2))
      (toUint (canvas.Bounds.Max.Y - thick * 2)) canvas .Lanczos3) (Pt 0 0))

/-- The method `Result`: the session afterwards, the bytes and the failure returned. -/
def Result (E : Externals) (p : PersonaQrCode) (border : Bool) :
    Option (PersonaQrCode × List Nat × Option Failure) :=
  match p.Error with
  | some e => some (p, [], some e)
  | none =>
    match p.img with
    | none =>
      match p.qr with
      | none => none
      | some qr =>
        let qr := { qr with DisableBorder := !border }
        some ({ p with qr := some qr }, E.qrPNG qr p.size)
    | some canvas =>
      match p.qr with
      | none => none
      | some qr =>
        let canvas :=
          if p.size ≠ qr.Bitmap.length * p.thick - 1 then resultScale E p.size canvas
          else canvas
        let bordered :=
          if border then resultBorder E p.size p.thick (p.background.map Color.rgba) canvas
          else some canvas
        match bordered with
        | none => none
        | some canvas =>
          some ({ p with img := some canvas, Error := (E.pngEncode canvas).2 },
            E.pngEncode canvas)

/-- The modules for which the loops of `CodePoint` run the compositing call, as
`(x, y)` pairs, the last one drawn first. -/
def drawnModules (bitmap : List (List Bool)) : List (Int × Int) :=
  moduleLoop bitmap (fun x y acc => (x, y) :: acc) []

/-- A 21 x 21 bitmap with every module on, used to instantiate statements. -/
def sampleBitmap : List (List Bool) := List.replicate 21 (List.replicate 21 true)

/-- A resampler that returns transparent pixels, a PNG encoder that writes the pixel
count and never fails, and a QR encoder that returns `sampleBitmap`: collaborators
used to instantiate statements. -/
def sampleExternals : Externals :=
  { resample := fun _ _ _ _ _ _ => RGBA.zero
    pngEncode := fun m => ([(m.Bounds.Dx * m.Bounds.Dy).toNat], none)
    qrNew := fun _ level => (some ⟨sampleBitmap, level, false⟩, none)
    qrPNG := fun _ size => ([size.toNat], none) }

/-- A fresh session of the given size and level over `sampleBitmap`, as `New` returns
it. -/
def sampleSession (size : Int) (level : RecoveryLevel) : PersonaQrCode :=
  { qr := some ⟨sampleBitmap, level, false⟩, img := none, size := size, foreground := none,
    background := none, foreImage := none, bullEyeForeImageColor := false, thick := 0,
    Error := none }

/-- A canvas of side `n` at the origin, every pixel solid white. -/
def whiteCanvas (n : Int) : Image := ⟨Rect 0 0 n n, fun _ _ => ⟨255, 255, 255, 255⟩⟩

/-- Image `b` is image `a` with the pixels of `T` that lie inside the bounds set to
`col`, and every other pixel as it was: what a sequence of `Set` calls with one colour
does. -/
def Paints (col : RGBA) (T : Int → Int → Prop) (a b : Image) : Prop :=
  b.Rect = a.Rect ∧
    ∀ u v, ((T u v ∧ (Pt u v).In a.Rect = true) → b.px u v = col) ∧
      (¬ (T u v ∧ (Pt u v).In a.Rect = true) → b.px u v = a.px u v)

/-! ## selfqr.go: the footprints inside a bull's-eye patch -/

/-- Line 225 of `BullEye`: `uniform := p.size / 7`. -/
def uniform (size : Int) : Int := size.tdiv 7

/-- Line 244 of `BullEye`: `oSize := uniform * (7 - 2)`, the side of the cover. -/
def oSize (size : Int) : Int := uniform size * (7 - 2)

/-- Line 245 of `BullEye`: `oOffset := (p.size - oSize) / 2`, the offset of the cover. -/
def oOffset (size : Int) : Int := (size - oSize size).tdiv 2

/-- Line 271 of `BullEye`: `iSize := uniform * 3`, the side of the inner blob. -/
def iSize (size : Int) : Int := uniform size * 3

/-- Line 272 of `BullEye`: `iOffset := (p.size - iSize) / 2`, the offset of the inner
blob. -/
def iOffset (size : Int) : Int := (size - iSize size).tdiv 2

/-- A logo 10 wide and 5 high at the origin, every pixel solid black, used to
instantiate statements. -/
def wideLogo : Image := ⟨⟨⟨0, 0⟩, ⟨10, 5⟩⟩, fun _ _ => ⟨0, 0, 0, 255⟩⟩

/-- Image `b` is image `a` with image `src` composited over it by `draw.Over`, pixel
`(0, 0)` of `src` going to pixel `(x0, y0)`: the bounds are those of `a`, a pixel of `a`
that a pixel of `src` lands on is that pixel of `src` over the old one, and every other
pixel is as it was. -/
def Composited (src : Image) (x0 y0 : Int) (a b : Image) : Prop :=
  b.Rect = a.Rect ∧
    ∀ px py, b.At px py =
      if (Pt px py).In a.Rect = true ∧ (Pt (px - x0) (py - y0)).In src.Rect = true then
        over (src.At (px - x0) (py - y0)) (a.At px py)
      else a.At px py

/-- The sample collaborators with a nearest-neighbour resampler: pixel `(x, y)` of a
`w x h` result is the source pixel at `(x * Dx / w, y * Dy / h)` from the top-left
corner of the source. Used to instantiate statements. -/
def nearestExternals : Externals :=
  { sampleExternals with
    resample := fun _ w h img x y =>
      img.At (img.Rect.Min.X + (x * img.Bounds.Dx).tdiv w)
        (img.Rect.Min.Y + (y * img.Bounds.Dy).tdiv h) }

/-! # Theorems -/

/-! ## The sample session -/

/-- The sample session is the session `New` returns with the sample collaborators. -/
theorem sampleSession_eq_New (text : String) (size : Int) (level : RecoveryLevel) :
    sampleSession size level = New sampleExternals text size level := rfl

/-! ## Numeric conversions: lemmas -/

theorem truncToInt_intCast (z : Int) : truncToInt (z : ℚ) = z := by
  unfold truncToInt
  split <;> simp

theorem mathRound_intCast (z : Int) : mathRound (z : ℚ) = (z : ℚ) := by
  unfold mathRound
  split
  · have : ⌊(z : ℚ) + 1 / 2⌋ = z := by
      rw [Int.floor_eq_iff]; constructor <;> norm_num
    rw [this]
  · have : ⌊-(z : ℚ) + 1 / 2⌋ = -z := by
      rw [Int.floor_eq_iff]; constructor <;> push_cast <;> norm_num
    rw [this]; push_cast; ring

theorem truncToInt_of_nonneg {q : ℚ} (h : 0 ≤ q) : truncToInt q = ⌊q⌋ := by
  unfold truncToInt; rw [if_pos h]

theorem toUint_of_nonneg_lt {i : Int} (h0 : 0 ≤ i) (h1 : i < 2 ^ 64) : toUint i = i.toNat := by
  unfold toUint; rw [Int.emod_eq_of_lt h0 h1]

theorem floor_seven_tenths_add (z : Int) : ⌊(7 / 10 : ℚ) + (z : ℚ)⌋ = z := by
  rw [Int.floor_eq_iff]
  constructor
  · linarith
  · linarith

/-! ## Rectangles, images and `draw.Draw` -/

theorem In_iff (x y : Int) (r : Rectangle) :
    (Pt x y).In r = true ↔ r.Min.X ≤ x ∧ x < r.Max.X ∧ r.Min.Y ≤ y ∧ y < r.Max.Y := by
  simp [Point.In, Pt, and_assoc]

theorem Empty_iff (r : Rectangle) :
    r.Empty = true ↔ (r.Max.X ≤ r.Min.X ∨ r.Max.Y ≤ r.Min.Y) := by
  simp [Rectangle.Empty]

theorem In_Intersect (x y : Int) (r s : Rectangle) :
    (Pt x y).In (r.Intersect s) = true ↔ ((Pt x y).In r = true ∧ (Pt x y).In s = true) := by
  unfold Rectangle.Intersect
  simp only []
  split_ifs <;> (simp only [In_iff, Empty_iff, ZR] at *; omega)

theorem In_clip (x y : Int) (dst r src : Rectangle) (sp : Point) :
    (Pt x y).In (clip dst r src sp).1 = true ↔
      ((Pt x y).In r = true ∧ (Pt x y).In dst = true ∧
        (Pt (x - r.Min.X + sp.X) (y - r.Min.Y + sp.Y)).In src = true) := by
  unfold clip
  simp only [In_Intersect]
  simp only [In_iff, Rectangle.Add, Point.Sub]
  constructor
  · rintro ⟨⟨h1, h2⟩, h3⟩; exact ⟨h1, h2, by omega⟩
  · rintro ⟨h1, h2, h3⟩; exact ⟨⟨h1, h2⟩, by omega⟩

theorem not_In_of_Empty (x y : Int) (r : Rectangle) (h : r.Empty = true) :
    (Pt x y).In r = false := by
  rw [Empty_iff] at h
  cases hin : (Pt x y).In r
  · rfl
  · rw [In_iff] at hin; omega

theorem Rect_of_nonneg {a b : Int} (ha : 0 ≤ a) (hb : 0 ≤ b) :
    Rect 0 0 a b = ⟨⟨0, 0⟩, ⟨a, b⟩⟩ := by
  unfold Rect
  have h1 : ¬ (0 : Int) > a := by omega
  have h2 : ¬ (0 : Int) > b := by omega
  simp [h1, h2]

theorem Set_Rect (m : Image) (x y : Int) (c : RGBA) : (m.Set x y c).Rect = m.Rect := by
  unfold Image.Set; split <;> rfl

theorem Set_px (m : Image) (x y : Int) (c : RGBA) (u v : Int) :
    (m.Set x y c).px u v = if u = x ∧ v = y ∧ (Pt x y).In m.Rect then c else m.px u v := by
  unfold Image.Set
  by_cases h : (Pt x y).In m.Rect = true
  · simp only [h, if_true, and_true]
  · simp only [h, if_false, and_false]
    simp

theorem Image.ext_px (a b : Image) (hr : a.Rect = b.Rect) (hp : ∀ u v, a.px u v = b.px u v) :
    a = b := by
  cases a with
  | mk ra pa =>
    cases b with
    | mk rb pb =>
      simp only at hr hp
      subst hr
      congr
      funext u v
      exact hp u v

theorem Draw_Rect (dst : Image) (r : Rectangle) (src : Image) (sp : Point) :
    (Draw dst r src sp).Rect = dst.Rect := by
  unfold Draw; simp only []; split <;> rfl

/-- The pixels of `draw.Draw`: inside the clipped rectangle the aligned source pixel
over the old one, elsewhere the old one. -/
theorem Draw_px (dst : Image) (r : Rectangle) (src : Image) (sp : Point) (x y : Int) :
    (Draw dst r src sp).px x y =
      if (Pt x y).In (clip dst.Rect r src.Rect sp).1 then
        over (src.At (x - r.Min.X + sp.X) (y - r.Min.Y + sp.Y)) (dst.px x y)
      else dst.px x y := by
  unfold Draw
  simp only []
  by_cases hE : (clip dst.Rect r src.Rect sp).1.Empty = true
  · rw [if_pos hE, not_In_of_Empty x y _ hE]; simp
  · rw [if_neg hE]
    by_cases hin : (Pt x y).In (clip dst.Rect r src.Rect sp).1 = true
    · simp only [hin, if_true]
      congr 2
      · simp only [clip]; ring
      · simp only [clip]; ring
    · simp only [hin, if_false]
      simp

theorem Draw_At (dst : Image) (r : Rectangle) (src : Image) (sp : Point) (x y : Int) :
    (Draw dst r src sp).At x y =
      if (Pt x y).In (clip dst.Rect r src.Rect sp).1 then
        over (src.At (x - r.Min.X + sp.X) (y - r.Min.Y + sp.Y)) (dst.At x y)
      else dst.At x y := by
  show (if (Pt x y).In (Draw dst r src sp).Rect then (Draw dst r src sp).px x y
    else RGBA.zero) = _
  rw [Draw_Rect, Draw_px]
  by_cases h : (Pt x y).In (clip dst.Rect r src.Rect sp).1 = true
  · have h2 := ((In_clip x y _ _ _ _).mp h).2.1
    have h3 : dst.At x y = dst.px x y := by unfold Image.At; rw [if_pos h2]
    rw [if_pos h2, if_pos h, if_pos h, h3]
  · rw [if_neg h, if_neg h]; rfl

/-- Frame property of `draw.Draw`: a pixel whose aligned source point lies outside the
source bounds keeps its value. -/
theorem Draw_At_of_not_src (dst : Image) (r : Rectangle) (src : Image) (sp : Point)
    (x y : Int) (h : (Pt (x - r.Min.X + sp.X) (y - r.Min.Y + sp.Y)).In src.Rect = false) :
    (Draw dst r src sp).At x y = dst.At x y := by
  rw [Draw_At]
  have : ¬ (Pt x y).In (clip dst.Rect r src.Rect sp).1 = true := by
    intro hc
    rw [In_clip] at hc
    rw [hc.2.2] at h
    exact Bool.noConfusion h
  simp [this]

theorem overChannel_zero_dst (s sa : Nat) : overChannel s sa 0 = (s * 257 / 256) % 256 := by
  unfold overChannel
  simp

theorem overChannel_idem (s sa ta : Nat) :
    overChannel (overChannel s sa 0) ta 0 = overChannel s sa 0 := by
  rw [overChannel_zero_dst, overChannel_zero_dst]
  have hv : s * 257 / 256 % 256 < 256 := Nat.mod_lt _ (by decide)
  generalize s * 257 / 256 % 256 = v at hv
  have h1 : v * 257 / 256 = v := by omega
  rw [h1, Nat.mod_eq_of_lt hv]

/-- Compositing over a transparent pixel twice is compositing once. -/
theorem over_zero_idem (x : RGBA) : over (over x RGBA.zero) RGBA.zero = over x RGBA.zero := by
  simp only [over, RGBA.zero, overChannel_idem]

theorem over_zero_zero : over RGBA.zero RGBA.zero = RGBA.zero := by decide

/-! ## Counted loops -/

theorem loopN_induction {σ : Type} (P : σ → Prop) (n : Int) (body : Int → σ → σ) (s : σ)
    (h0 : P s) (hstep : ∀ i st, P st → P (body i st)) : P (loopN n body s) := by
  unfold loopN
  generalize List.range n.toNat = l
  induction l generalizing s with
  | nil => exact h0
  | cons a l ih => exact ih _ (hstep _ _ h0)

theorem loopN_Set_Rect (R : Rectangle) (n : Int) (body : Int → Image → Image) (s : Image)
    (h0 : s.Rect = R) (hstep : ∀ i st, st.Rect = R → (body i st).Rect = R) :
    (loopN n body s).Rect = R :=
  loopN_induction (fun m => m.Rect = R) n body s h0 hstep

theorem loopN_natCast_succ {σ : Type} (n : Nat) (body : Int → σ → σ) (s : σ) :
    loopN ((n + 1 : Nat) : Int) body s = body n (loopN (n : Int) body s) := by
  unfold loopN
  simp only [Int.toNat_ofNat]
  rw [List.range_succ, List.foldl_append]
  rfl

theorem loopN_zero {σ : Type} (body : Int → σ → σ) (s : σ) :
    loopN ((0 : Nat) : Int) body s = s := rfl

theorem loopN_toNat {σ : Type} (n : Int) (body : Int → σ → σ) (s : σ) :
    loopN n body s = loopN ((n.toNat : Nat) : Int) body s := by
  unfold loopN
  simp only [Int.toNat_ofNat]

theorem loopN_congr_inv {σ : Type} (P : σ → Prop) (n : Int) (f g : Int → σ → σ) (s : σ)
    (h0 : P s) (hP : ∀ i st, P st → P (f i st)) (hfg : ∀ i st, P st → f i st = g i st) :
    loopN n f s = loopN n g s ∧ P (loopN n f s) := by
  rw [loopN_toNat n f, loopN_toNat n g]
  induction n.toNat with
  | zero => exact ⟨rfl, h0⟩
  | succ k ih =>
    rw [loopN_natCast_succ, loopN_natCast_succ]
    refine ⟨?_, hP _ _ ih.2⟩
    rw [← ih.1]
    exact hfg _ _ ih.2

/-- One row of a fill: `for x < n { img.Set(x, y, c) }`. -/
theorem setRow_px (img : Image) (y : Int) (c : RGBA) (n : Int) :
    (loopN n (fun x img => img.Set x y c) img).Rect = img.Rect ∧
      ∀ u v, (loopN n (fun x img => img.Set x y c) img).px u v =
        if v = y ∧ 0 ≤ u ∧ u < n ∧ (Pt u v).In img.Rect then c else img.px u v := by
  rw [loopN_toNat]
  have key : ∀ k : Nat,
      (loopN (k : Int) (fun x img => img.Set x y c) img).Rect = img.Rect ∧
      ∀ u v, (loopN (k : Int) (fun x img => img.Set x y c) img).px u v =
        if v = y ∧ 0 ≤ u ∧ u < (k : Int) ∧ (Pt u v).In img.Rect then c else img.px u v := by
    intro k
    induction k with
    | zero =>
      refine ⟨rfl, ?_⟩
      intro u v
      rw [loopN_zero]
      have : ¬ (v = y ∧ 0 ≤ u ∧ u < ((0 : Nat) : Int) ∧ (Pt u v).In img.Rect = true) := by
        simp only [Nat.cast_zero]; omega
      rw [if_neg this]
    | succ k ih =>
      rw [loopN_natCast_succ]
      refine ⟨by rw [Set_Rect, ih.1], ?_⟩
      intro u v
      rw [Set_px, ih.1, ih.2]
      by_cases hu : u = (k : Int) ∧ v = y ∧ (Pt (k : Int) y).In img.Rect = true
      · rw [if_pos hu]
        obtain ⟨rfl, rfl, hin⟩ := hu
        rw [if_pos ⟨rfl, by omega, by push_cast; omega, hin⟩]
      · rw [if_neg hu]
        by_cases h2 : v = y ∧ 0 ≤ u ∧ u < (k : Int) ∧ (Pt u v).In img.Rect = true
        · rw [if_pos h2, if_pos ⟨h2.1, h2.2.1, by push_cast; omega, h2.2.2.2⟩]
        · rw [if_neg h2, if_neg]
          rintro ⟨h3, h4, h5, h6⟩
          push_cast at h5
          by_cases h7 : u = (k : Int)
          · subst h7; subst h3; exact hu ⟨rfl, rfl, h6⟩
          · exact h2 ⟨h3, h4, by omega, h6⟩
  obtain ⟨h1, h2⟩ := key n.toNat
  refine ⟨h1, ?_⟩
  intro u v
  rw [h2]
  by_cases h : v = y ∧ 0 ≤ u ∧ u < n ∧ (Pt u v).In img.Rect = true
  · rw [if_pos h, if_pos ⟨h.1, h.2.1, by omega, h.2.2.2⟩]
  · rw [if_neg h, if_neg]
    rintro ⟨h3, h4, h5, h6⟩
    exact h ⟨h3, h4, by omega, h6⟩

/-- A fill with fixed bounds: `for y < ny { for x < nx { img.Set(x, y, c) } }`. -/
theorem fillRows_px (img : Image) (c : RGBA) (ny nx : Int) :
    (loopN ny (fun y img => loopN nx (fun x img => img.Set x y c) img) img).Rect = img.Rect ∧
      ∀ u v, (loopN ny (fun y img => loopN nx (fun x img => img.Set x y c) img) img).px u v =
        if 0 ≤ v ∧ v < ny ∧ 0 ≤ u ∧ u < nx ∧ (Pt u v).In img.Rect then c else img.px u v := by
  rw [loopN_toNat]
  have key : ∀ k : Nat,
      (loopN (k : Int) (fun y img => loopN nx (fun x img => img.Set x y c) img) img).Rect =
        img.Rect ∧
      ∀ u v, (loopN (k : Int) (fun y img =>
          loopN nx (fun x img => img.Set x y c) img) img).px u v =
        if 0 ≤ v ∧ v < (k : Int) ∧ 0 ≤ u ∧ u < nx ∧ (Pt u v).In img.Rect then c
        else img.px u v := by
    intro k
    induction k with
    | zero =>
      refine ⟨rfl, ?_⟩
      intro u v
      rw [loopN_zero]
      have : ¬ (0 ≤ v ∧ v < ((0 : Nat) : Int) ∧ 0 ≤ u ∧ u < nx ∧
          (Pt u v).In img.Rect = true) := by
        simp only [Nat.cast_zero]; omega
      rw [if_neg this]
    | succ k ih =>
      rw [loopN_natCast_succ]
      obtain ⟨r1, r2⟩ := setRow_px
        (loopN (k : Int) (fun y img => loopN nx (fun x img => img.Set x y c) img) img)
        (k : Int) c nx
      refine ⟨by rw [r1, ih.1], ?_⟩
      intro u v
      rw [r2, ih.1, ih.2]
      by_cases hu : v = (k : Int) ∧ 0 ≤ u ∧ u < nx ∧ (Pt u v).In img.Rect = true
      · rw [if_pos hu, if_pos ⟨by omega, by push_cast; omega, hu.2.1, hu.2.2.1, hu.2.2.2⟩]
      · rw [if_neg hu]
        by_cases h2 : 0 ≤ v ∧ v < (k : Int) ∧ 0 ≤ u ∧ u < nx ∧ (Pt u v).In img.Rect = true
        · rw [if_pos h2, if_pos ⟨h2.1, by push_cast; omega, h2.2.2⟩]
        · rw [if_neg h2, if_neg]
          rintro ⟨h3, h4, h5, h6, h7⟩
          push_cast at h4
          by_cases h8 : v = (k : Int)
          · exact hu ⟨h8, h5, h6, h7⟩
          · exact h2 ⟨h3, by omega, h5, h6, h7⟩
  obtain ⟨h1, h2⟩ := key ny.toNat
  refine ⟨h1, ?_⟩
  intro u v
  rw [h2]
  by_cases h : 0 ≤ v ∧ v < ny ∧ 0 ≤ u ∧ u < nx ∧ (Pt u v).In img.Rect = true
  · rw [if_pos h, if_pos ⟨h.1, by omega, h.2.2⟩]
  · rw [if_neg h, if_neg]
    rintro ⟨h3, h4, h5⟩
    exact h ⟨h3, by omega, h5⟩

theorem fill_Rect (img : Image) (c : RGBA) :
    (loopN img.Bounds.Max.Y (fun y img =>
      loopN img.Bounds.Max.X (fun x img => img.Set x y c) img) img).Rect = img.Rect := by
  apply loopN_Set_Rect _ _ _ _ rfl
  intro y st hst
  apply loopN_Set_Rect _ _ _ _ hst
  intro x st hst
  rw [Set_Rect, hst]

/-- The fill of `CodePoint` and `BullEye`, whose inner bound is read from the loop
state: every pixel of `[0, Max.X) x [0, Max.Y)` inside the bounds gets the colour. -/
theorem fill_px (img : Image) (c : RGBA) (u v : Int) :
    (loopN img.Bounds.Max.Y (fun y img =>
      loopN img.Bounds.Max.X (fun x img => img.Set x y c) img) img).px u v =
      if 0 ≤ v ∧ v < img.Bounds.Max.Y ∧ 0 ≤ u ∧ u < img.Bounds.Max.X ∧ (Pt u v).In img.Rect
      then c else img.px u v := by
  have h := loopN_congr_inv (fun st : Image => st.Rect = img.Rect) img.Bounds.Max.Y
    (fun y img => loopN img.Bounds.Max.X (fun x img => img.Set x y c) img)
    (fun y st => loopN img.Bounds.Max.X (fun x img => img.Set x y c) st) img rfl
    (by
      intro i st hst
      rw [(setRow_px st i c st.Bounds.Max.X).1, hst])
    (by
      intro i st hst
      show loopN st.Rect.Max.X _ st = loopN img.Rect.Max.X _ st
      rw [hst])
  rw [h.1]
  exact (fillRows_px img c img.Bounds.Max.Y img.Bounds.Max.X).2 u v

theorem foldl_sim {α β γ : Type} (R : β → γ → Prop) (f : β → α → β) (g : γ → α → γ)
    (hstep : ∀ b c a, R b c → R (f b a) (g c a)) (l : List α) (b : β) (c : γ)
    (h : R b c) : R (l.foldl f b) (l.foldl g c) := by
  induction l generalizing b c with
  | nil => exact h
  | cons a l ih => exact ih _ _ (hstep b c a h)

theorem foldr_Rect {α : Type} (R : Rectangle) (f : α → Image → Image) (l : List α)
    (s : Image) (h0 : s.Rect = R) (hstep : ∀ a st, st.Rect = R → (f a st).Rect = R) :
    (l.foldr f s).Rect = R := by
  induction l with
  | nil => exact h0
  | cons a l ih => exact hstep _ _ ih

/-! ## The resampler -/

/-- A request of `0 x 0` makes `resize.Resize` return the source itself. -/
theorem Resize_zero_zero (E : Externals) (img : Image) (i : InterpolationFunction)
    (hx : img.Bounds.Dx < 2 ^ 64) (hy : img.Bounds.Dy < 2 ^ 64) :
    Resize E 0 0 img i = img := by
  unfold Resize
  simp only [if_true, div_one]
  by_cases hpos : 0 < img.Bounds.Dx ∧ 0 < img.Bounds.Dy
  · have hw : (truncToUint (7 / 10 + (img.Bounds.Dx : ℚ)) : Int) = img.Bounds.Dx := by
      unfold truncToUint
      rw [truncToInt_of_nonneg, floor_seven_tenths_add, toUint_of_nonneg_lt (by omega) hx]
      · omega
      · have : (0 : ℚ) ≤ (img.Bounds.Dx : ℚ) := by exact_mod_cast hpos.1.le
        linarith
    have hh : (truncToUint (7 / 10 + (img.Bounds.Dy : ℚ)) : Int) = img.Bounds.Dy := by
      unfold truncToUint
      rw [truncToInt_of_nonneg, floor_seven_tenths_add, toUint_of_nonneg_lt (by omega) hy]
      · omega
      · have : (0 : ℚ) ≤ (img.Bounds.Dy : ℚ) := by exact_mod_cast hpos.2.le
        linarith
    rw [if_pos ⟨hw, hh⟩]
  · have : img.Bounds.Dx ≤ 0 ∨ img.Bounds.Dy ≤ 0 := by omega
    split_ifs <;> rfl

/-- A request for the size the source already has returns the source itself. -/
theorem Resize_same (E : Externals) (w h : Nat) (img : Image) (i : InterpolationFunction)
    (hw : (w : Int) = img.Bounds.Dx) (hh : (h : Int) = img.Bounds.Dy) (hw0 : w ≠ 0)
    (hh0 : h ≠ 0) : Resize E w h img i = img := by
  unfold Resize
  simp only [hw0, hh0, if_false]
  rw [if_pos ⟨hw, hh⟩]

/-- A request for a new positive size of a source with pixels returns an image with
bounds `(0,0)-(w,h)`. -/
theorem Resize_Rect (E : Externals) (w h : Nat) (img : Image) (i : InterpolationFunction)
    (hw0 : w ≠ 0) (hh0 : h ≠ 0) (hx : 0 < img.Bounds.Dx) (hy : 0 < img.Bounds.Dy)
    (hne : ¬ ((w : Int) = img.Bounds.Dx ∧ (h : Int) = img.Bounds.Dy)) :
    (Resize E w h img i).Rect = ⟨⟨0, 0⟩, ⟨w, h⟩⟩ := by
  unfold Resize
  simp only [hw0, hh0, if_false]
  rw [if_neg hne, if_neg (by omega)]
  exact @Rect_of_nonneg (w : Int) (h : Int) (by omega) (by omega)

/-- A source without pixels is returned as it is, whatever is requested. -/
theorem Resize_of_no_pixels (E : Externals) (w h : Nat) (img : Image)
    (i : InterpolationFunction) (hx : img.Bounds.Dx ≤ 0 ∨ img.Bounds.Dy ≤ 0) :
    Resize E w h img i = img := by
  unfold Resize
  simp only []
  split_ifs <;> rfl

/-- A source at the origin, resampled to `n x n` with `n ≥ 1`, lies in
`[0, n) x [0, n)`. -/
theorem resized_In (E : Externals) (n : Nat) (img : Image) (i : InterpolationFunction)
    (W H : Int) (hW : 0 ≤ W) (hH : 0 ≤ H) (hrect : img.Rect = ⟨⟨0, 0⟩, ⟨W, H⟩⟩) (hn : 1 ≤ n)
    (u v : Int) (h : (Pt u v).In (Resize E n n img i).Rect = true) :
    0 ≤ u ∧ u < n ∧ 0 ≤ v ∧ v < n := by
  by_cases hsame : (n : Int) = W ∧ (n : Int) = H
  · rw [Resize_same E _ _ _ _ (by simp only [Image.Bounds, Rectangle.Dx, hrect]; omega)
      (by simp only [Image.Bounds, Rectangle.Dy, hrect]; omega) (by omega) (by omega), hrect,
      In_iff] at h
    dsimp only at h
    omega
  · by_cases hz : W = 0 ∨ H = 0
    · rw [Resize_of_no_pixels E _ _ _ _
        (by simp only [Image.Bounds, Rectangle.Dx, Rectangle.Dy, hrect]; omega), hrect,
        In_iff] at h
      dsimp only at h
      omega
    · rw [Resize_Rect E _ _ _ _ (by omega) (by omega)
        (by simp only [Image.Bounds, Rectangle.Dx, hrect]; omega)
        (by simp only [Image.Bounds, Rectangle.Dy, hrect]; omega)
        (by simp only [Image.Bounds, Rectangle.Dx, Rectangle.Dy, hrect]; omega), In_iff] at h
      dsimp only at h
      omega

/-! ## The shape generators -/

theorem rectangle_Rect (col : RGBA) (w h r : Int) : (rectangle col w h r).Rect = Rect 0 0 w h := by
  unfold rectangle
  simp only []
  have h1 : (loopN h (fun y img => loopN w (fun x img =>
      if (x ≥ r ∨ y ≥ r) ∧ (x ≤ w - r ∨ y ≤ h - r) ∧ (x ≥ r ∨ y ≤ h - r) ∧
          (x ≤ w - r ∨ y ≥ r) then img.Set x y col
      else img) img) (NewRGBA (Rect 0 0 w h))).Rect = Rect 0 0 w h := by
    apply loopN_Set_Rect _ _ _ _ rfl
    intro y st hst
    apply loopN_Set_Rect _ _ _ _ hst
    intro x st hst
    split
    · rw [Set_Rect, hst]
    · exact hst
  split
  · apply loopN_Set_Rect _ _ _ _ h1
    intro y st hst
    apply loopN_Set_Rect _ _ _ _ hst
    intro x st hst
    split
    · rw [Set_Rect, Set_Rect, Set_Rect, Set_Rect, hst]
    · exact hst
  · exact h1

theorem circular_Rect (col : RGBA) (r : Int) :
    (circular col r).Rect = Rect 0 0 (2 * r) (2 * r) := by
  unfold circular
  simp only []
  apply loopN_Set_Rect _ _ _ _ rfl
  intro y st hst
  apply loopN_Set_Rect _ _ _ _ hst
  intro x st hst
  split
  · rw [Set_Rect, hst]
  · exact hst

theorem rhombus_Rect (col : RGBA) (h : Int) : (rhombus col h).Rect = Rect 0 0 h h := by
  unfold rhombus
  simp only []
  apply loopN_Set_Rect _ _ _ _ rfl
  intro y st hst
  apply loopN_Set_Rect _ _ _ _ hst
  intro x st hst
  split_ifs <;> first | (rw [Set_Rect, hst]) | exact hst

theorem isoscelesRaw_Rect (col : RGBA) (h : Int) (top : Bool) :
    (isoscelesRaw col h top).Rect = Rect 0 0 h (h.tdiv 2) := by
  unfold isoscelesRaw
  simp only []
  apply loopN_Set_Rect _ _ _ _ rfl
  intro y st hst
  apply loopN_Set_Rect _ _ _ _ hst
  intro x st hst
  split_ifs <;> first | (rw [Set_Rect, hst]) | exact hst

/-! ## CodePoint: pitch and fill ratio -/

/-- The pitch is the truncated quotient: `math.Round` receives an integer. -/
theorem pitch_eq_tdiv (size n : Int) : pitch size n = size.tdiv n := by
  unfold pitch
  rw [mathRound_intCast, truncToInt_intCast]

/-- C3 (the code departs from the claim). With size 40 and a 21-module bitmap the
stored pitch is 1, while 40/21 rounded to the nearest integer is 2: the quotient is
truncated by the integer division before `math.Round` sees it. -/
theorem pitch_truncates_40_21 : pitch 40 21 = 1 ∧ round ((40 : ℚ) / 21) = 2 := by
  constructor
  · rw [pitch_eq_tdiv]; decide
  · norm_num [round_eq]

theorem clampRatio_bounds (r : ℚ) : 0 < clampRatio r ∧ clampRatio r ≤ 1 := by
  unfold clampRatio
  by_cases h1 : r > 1
  · have h10 : ¬ ((1 : ℚ) ≤ 0) := by norm_num
    simp only [h1, h10, if_true, if_false]
    norm_num
  · by_cases h0 : r ≤ 0
    · simp only [h1, h0, if_true, if_false]
      norm_num
    · simp only [h1, h0, if_false]
      push_neg at h0 h1
      exact ⟨h0, h1⟩

/-- C10. The ratio `CodePoint` draws with lies in (0, 1]: it is the argument itself
when that lies in (0, 1], 0.1 when the argument is at most 0, and 1 when it exceeds 1. -/
theorem clampRatio_spec (r : ℚ) :
    (0 < clampRatio r ∧ clampRatio r ≤ 1) ∧
      clampRatio r = (if r ≤ 0 then 1 / 10 else if 1 < r then 1 else r) := by
  unfold clampRatio
  by_cases h1 : r > 1
  · have h0 : ¬ r ≤ 0 := by linarith
    have h10 : ¬ ((1 : ℚ) ≤ 0) := by norm_num
    simp only [h1, h0, h10, if_true, if_false]
    norm_num
  · by_cases h0 : r ≤ 0
    · simp only [h1, h0, if_true, if_false]
      norm_num
    · have h1b : ¬ (1 < r) := h1
      simp only [h1, h0, h1b, if_false]
      push_neg at h0 h1
      exact ⟨⟨h0, h1⟩, trivial⟩

/-! ## CodePoint: the module loop -/

theorem mem_rowLoop (y n len : Int) (row : List Bool) (k : Nat) (acc : List (Int × Int))
    (a : Int × Int) :
    a ∈ (row.enumFrom k).foldl (fun acc xb =>
        if xb.2 then
          (if !(finderCorner y xb.1 len n) then ((xb.1 : Int), y) :: acc else acc)
        else acc) acc ↔
      a ∈ acc ∨ ∃ i : Nat, row.getD i false = true ∧
        finderCorner y ((k + i : Nat) : Int) len n = false ∧ a = (((k + i : Nat) : Int), y) := by
  induction row generalizing k acc with
  | nil => simp
  | cons b rest ih =>
    simp only [List.enumFrom_cons, List.foldl_cons]
    rw [ih]
    constructor
    · rintro (h | ⟨i, h1, h2, h3⟩)
      · by_cases hb : b = true
        · by_cases hc : finderCorner y (k : Int) len n = true
          · simp [hb, hc] at h; exact Or.inl h
          · simp [hb, hc] at h
            rcases h with h | h
            · right; exact ⟨0, by simp [hb], by simpa using hc, by simpa using h⟩
            · exact Or.inl h
        · simp [hb] at h; exact Or.inl h
      · right
        refine ⟨i + 1, by simpa using h1, ?_, ?_⟩
        · rw [← h2]; congr 2; omega
        · rw [h3]; congr 2; omega
    · rintro (h | ⟨i, h1, h2, h3⟩)
      · left
        by_cases hb : b = true
        · by_cases hc : finderCorner y (k : Int) len n = true
          · simp [hb, hc, h]
          · simp [hb, hc, h]
        · simp [hb, h]
      · cases i with
        | zero =>
          left
          simp at h1 h2 h3
          simp [h1, h2, h3]
        | succ i =>
          right
          refine ⟨i, by simpa using h1, ?_, ?_⟩
          · rw [← h2]; congr 2; omega
          · rw [h3]; congr 2; omega

theorem mem_bitmapLoop (n : Int) (rows : List (List Bool)) (k : Nat)
    (acc : List (Int × Int)) (a : Int × Int) :
    a ∈ (rows.enumFrom k).foldl (fun acc yr =>
        yr.2.enum.foldl (fun acc xb =>
          if xb.2 then
            (if !(finderCorner yr.1 xb.1 yr.2.length n) then ((xb.1 : Int), (yr.1 : Int)) :: acc
             else acc)
          else acc) acc) acc ↔
      a ∈ acc ∨ ∃ j i : Nat, (rows.getD j []).getD i false = true ∧
        finderCorner ((k + j : Nat) : Int) (i : Int) ((rows.getD j []).length : Int) n = false ∧
        a = ((i : Int), ((k + j : Nat) : Int)) := by
  induction rows generalizing k acc with
  | nil => simp
  | cons row rest ih =>
    simp only [List.enumFrom_cons, List.foldl_cons]
    rw [ih, List.enum, mem_rowLoop]
    constructor
    · rintro ((h | ⟨i, h1, h2, h3⟩) | ⟨j, i, h1, h2, h3⟩)
      · exact Or.inl h
      · right
        refine ⟨0, i, by simpa using h1, ?_, ?_⟩
        · simpa using h2
        · simpa using h3
      · right
        refine ⟨j + 1, i, by simpa using h1, ?_, ?_⟩
        · rw [← h2]; simp only [List.getD_cons_succ]; congr 2; omega
        · rw [h3]; congr 2; omega
    · rintro (h | ⟨j, i, h1, h2, h3⟩)
      · exact Or.inl (Or.inl h)
      · cases j with
        | zero =>
          left; right
          refine ⟨i, by simpa using h1, ?_, ?_⟩
          · simpa using h2
          · simpa using h3
        | succ j =>
          right
          refine ⟨j, i, by simpa using h1, ?_, ?_⟩
          · rw [← h2]; simp only [List.getD_cons_succ]; congr 2; omega
          · rw [h3]; congr 2; omega

/-- The generic loop draws module `(x, y)` exactly when its bit is on and the corner
test of line 163 lets it through. -/
theorem mem_drawnModules (bitmap : List (List Bool)) (x y : Nat) :
    (((x : Int), (y : Int)) ∈ drawnModules bitmap) ↔
      ((bitmap.getD y []).getD x false = true ∧
        finderCorner y x ((bitmap.getD y []).length : Int) (bitmap.length : Int) = false) := by
  refine Iff.trans (mem_bitmapLoop (bitmap.length : Int) bitmap 0 [] ((x : Int), (y : Int))) ?_
  constructor
  · rintro (h | ⟨j, i, h1, h2, h3⟩)
    · simp at h
    · simp only [Prod.mk.injEq, Nat.cast_inj, zero_add] at h3
      obtain ⟨rfl, rfl⟩ := h3
      exact ⟨h1, by simpa using h2⟩
  · rintro ⟨h1, h2⟩
    right
    exact ⟨y, x, h1, by simpa using h2, by simp⟩

theorem mem_drawnModules_cases (bitmap : List (List Bool)) (a : Int × Int)
    (h : a ∈ drawnModules bitmap) :
    ∃ x y : Nat, a = ((x : Int), (y : Int)) ∧ (bitmap.getD y []).getD x false = true ∧
      finderCorner y x ((bitmap.getD y []).length : Int) (bitmap.length : Int) = false := by
  have h2 := (mem_bitmapLoop (bitmap.length : Int) bitmap 0 [] a).mp h
  rcases h2 with h2 | ⟨j, i, h1, h2, h3⟩
  · simp at h2
  · exact ⟨i, j, by simpa using h3, h1, by simpa using h2⟩

/-- The generic loop is the sequence of compositing calls for the drawn modules. -/
theorem moduleLoop_eq_foldr {σ : Type} (bitmap : List (List Bool))
    (draw : Int → Int → σ → σ) (s : σ) :
    moduleLoop bitmap draw s =
      (drawnModules bitmap).foldr (fun xy acc => draw xy.1 xy.2 acc) s := by
  unfold drawnModules moduleLoop
  refine foldl_sim (fun (st : σ) (t : List (Int × Int)) =>
    st = t.foldr (fun xy acc => draw xy.1 xy.2 acc) s) _ _ ?_ _ _ _ rfl
  intro st t yr hst
  refine foldl_sim (fun (st : σ) (t : List (Int × Int)) =>
    st = t.foldr (fun xy acc => draw xy.1 xy.2 acc) s) _ _ ?_ _ _ _ hst
  intro st t xb hst
  subst hst
  by_cases hb : xb.2 = true
  · by_cases hc : finderCorner (yr.1 : Int) (xb.1 : Int) (yr.2.length : Int)
        (bitmap.length : Int) = true
    · simp [hb, hc]
    · simp [hb, hc]
  · simp [hb]

/-- C2. In an N x N bitmap with N ≥ 14 the corner test of the generic module loop
holds for module (x, y) exactly when it lies in the top-left, top-right or bottom-left
7 x 7 zone, and the loop runs the compositing call for a module exactly when its bit is
on and it lies in none of the three zones (so also in the bottom-right corner). -/
theorem finderCorner_iff_zone (bitmap : List (List Bool)) (x y : Nat)
    (hN : 14 ≤ bitmap.length) (hsq : ∀ row ∈ bitmap, row.length = bitmap.length)
    (hx : x < bitmap.length) (hy : y < bitmap.length) :
    (finderCorner y x (bitmap.length : Int) (bitmap.length : Int) = true ↔
        ((x < 7 ∧ y < 7) ∨ (bitmap.length - 7 ≤ x ∧ y < 7) ∨
          (x < 7 ∧ bitmap.length - 7 ≤ y))) ∧
      ((((x : Int), (y : Int)) ∈ drawnModules bitmap) ↔
        ((bitmap.getD y []).getD x false = true ∧
          ¬ ((x < 7 ∧ y < 7) ∨ (bitmap.length - 7 ≤ x ∧ y < 7) ∨
            (x < 7 ∧ bitmap.length - 7 ≤ y)))) := by
  have hzone : finderCorner y x (bitmap.length : Int) (bitmap.length : Int) = true ↔
      ((x < 7 ∧ y < 7) ∨ (bitmap.length - 7 ≤ x ∧ y < 7) ∨
        (x < 7 ∧ bitmap.length - 7 ≤ y)) := by
    unfold finderCorner
    simp only [Bool.or_eq_true, Bool.and_eq_true, decide_eq_true_eq]
    omega
  refine ⟨hzone, ?_⟩
  rw [mem_drawnModules]
  have hrow : (bitmap.getD y []).length = bitmap.length := by
    apply hsq
    rw [List.getD_eq_getElem _ _ hy]
    exact List.getElem_mem _
  rw [hrow, ← hzone]
  simp

/-- The statement of C2 at module (7, 0) of the 21 x 21 bitmap with every module on. -/
theorem finderCorner_iff_zone_witness :
    (14 ≤ sampleBitmap.length ∧ 7 < sampleBitmap.length ∧ 0 < sampleBitmap.length) ∧
    ((finderCorner (0 : Nat) (7 : Nat) (sampleBitmap.length : Int)
          (sampleBitmap.length : Int) = true ↔
        ((7 < 7 ∧ 0 < 7) ∨ (sampleBitmap.length - 7 ≤ 7 ∧ 0 < 7) ∨
          (7 < 7 ∧ sampleBitmap.length - 7 ≤ 0))) ∧
      ((((7 : Nat) : Int), ((0 : Nat) : Int)) ∈ drawnModules sampleBitmap ↔
        ((sampleBitmap.getD 0 []).getD 7 false = true ∧
          ¬ ((7 < 7 ∧ 0 < 7) ∨ (sampleBitmap.length - 7 ≤ 7 ∧ 0 < 7) ∨
            (7 < 7 ∧ sampleBitmap.length - 7 ≤ 0))))) :=
  ⟨by decide,
    finderCorner_iff_zone sampleBitmap 7 0 (by decide)
      (by intro row hrow; rw [List.eq_of_mem_replicate hrow]; rfl)
      (by decide) (by decide)⟩

/-! ## CodePoint: the stamp of one module -/

/-- The stamp of a style at pitch `T ≥ 1` is `2T` square, `4T` square for the circle. -/
theorem stamp_Rect (E : Externals) (s : CodePointStyle) (fg : RGBA) (T : Int) (hT : 1 ≤ T)
    (hT2 : T < 2 ^ 62) :
    (stamp E s fg T).Rect = ⟨⟨0, 0⟩, ⟨2 * T, 2 * T⟩⟩ ∨
      (stamp E s fg T).Rect = ⟨⟨0, 0⟩, ⟨4 * T, 4 * T⟩⟩ := by
  have hiso : ∀ top, (isosceles E fg (2 * T) top).Rect = ⟨⟨0, 0⟩, ⟨2 * T, 2 * T⟩⟩ := by
    intro top
    unfold isosceles
    have hraw : (isoscelesRaw fg (2 * T) top).Rect = ⟨⟨0, 0⟩, ⟨2 * T, T⟩⟩ := by
      rw [isoscelesRaw_Rect, Int.mul_tdiv_cancel_left T (by norm_num),
        Rect_of_nonneg (by omega) (by omega)]
    have hu : toUint (2 * T) = (2 * T).toNat := toUint_of_nonneg_lt (by omega) (by omega)
    have hc : ((2 * T).toNat : Int) = 2 * T := Int.toNat_of_nonneg (by omega)
    rw [hu, Resize_Rect E _ _ _ _ (by omega) (by omega)]
    · rw [hc]
    · simp only [Image.Bounds, Rectangle.Dx, hraw]; omega
    · simp only [Image.Bounds, Rectangle.Dy, hraw]; omega
    · simp only [Image.Bounds, Rectangle.Dx, Rectangle.Dy, hraw]; omega
  cases s with
  | CpsRectangle =>
    left; simp only [stamp]; rw [rectangle_Rect, Rect_of_nonneg (by omega) (by omega)]
  | CpsRoundedRectangle =>
    left; simp only [stamp]; rw [rectangle_Rect, Rect_of_nonneg (by omega) (by omega)]
  | CpsCircular =>
    right; simp only [stamp]; rw [circular_Rect, Rect_of_nonneg (by omega) (by omega)]
    congr 2 <;> ring
  | CpsRhombus =>
    left; simp only [stamp]; rw [rhombus_Rect, Rect_of_nonneg (by omega) (by omega)]
  | CpsIsoscelesTop => left; exact hiso true
  | CpsIsoscelesBottom => left; exact hiso false

/-- Frame property of the compositing call of `CodePoint`: when the resized stamp has
at least one pixel (`1 ≤ r * T`), no pixel outside the cell of module `(x, y)` changes,
for every style and every resampler. -/
theorem drawStamp_inside_cell (E : Externals) (s : CodePointStyle) (r : ℚ) (T : Int)
    (fg : RGBA) (x y : Int) (canvas : Image) (px py : Int) (hT : 1 ≤ T) (hT2 : T < 2 ^ 62)
    (hr1 : r ≤ 1) (hw : 1 ≤ r * T) (hmin : canvas.Rect.Min = ⟨0, 0⟩)
    (hout : ¬ (x * T ≤ px ∧ px < (x + 1) * T ∧ y * T ≤ py ∧ py < (y + 1) * T)) :
    (drawStamp E s r T fg x y canvas).At px py = canvas.At px py := by
  have hTq : (1 : ℚ) ≤ (T : ℚ) := by exact_mod_cast hT
  have hrT0 : (0 : ℚ) ≤ r * T := by linarith
  have hoff0 : (0 : ℚ) ≤ (1 - r) * T / 2 := by
    have : (0 : ℚ) ≤ (1 - r) * T := mul_nonneg (by linarith) (by linarith)
    linarith
  have hw1 : 1 ≤ ⌊r * (T : ℚ)⌋ := Int.le_floor.mpr (by exact_mod_cast hw)
  have hoff : 0 ≤ ⌊(1 - r) * (T : ℚ) / 2⌋ := Int.floor_nonneg.mpr hoff0
  have hsum : ⌊(1 - r) * (T : ℚ) / 2⌋ + ⌊r * (T : ℚ)⌋ ≤ T := by
    have h1 := Int.floor_le ((1 - r) * (T : ℚ) / 2)
    have h2 := Int.floor_le (r * (T : ℚ))
    have h3 : r * (T : ℚ) ≤ T := by nlinarith
    have : ((⌊(1 - r) * (T : ℚ) / 2⌋ + ⌊r * (T : ℚ)⌋ : Int) : ℚ) ≤ (T : ℚ) := by
      push_cast; linarith
    exact_mod_cast this
  have hwT : ⌊r * (T : ℚ)⌋ ≤ T := by omega
  have hu : truncToUint (r * (T : ℚ)) = ⌊r * (T : ℚ)⌋.toNat := by
    unfold truncToUint
    rw [truncToInt_of_nonneg hrT0, toUint_of_nonneg_lt (by omega) (by omega)]
  have hc : ((⌊r * (T : ℚ)⌋.toNat : Nat) : Int) = ⌊r * (T : ℚ)⌋ :=
    Int.toNat_of_nonneg (by omega)
  have hres : (Resize E (truncToUint (r * (T : ℚ))) (truncToUint (r * (T : ℚ)))
      (stamp E s fg T) .Bilinear).Rect = ⟨⟨0, 0⟩, ⟨⌊r * (T : ℚ)⌋, ⌊r * (T : ℚ)⌋⟩⟩ := by
    rw [hu]
    rcases stamp_Rect E s fg T hT hT2 with h | h
    · rw [Resize_Rect E _ _ _ _ (by omega) (by omega)]
      · rw [hc]
      · simp only [Image.Bounds, Rectangle.Dx, h]; omega
      · simp only [Image.Bounds, Rectangle.Dy, h]; omega
      · simp only [Image.Bounds, Rectangle.Dx, Rectangle.Dy, h]; omega
    · rw [Resize_Rect E _ _ _ _ (by omega) (by omega)]
      · rw [hc]
      · simp only [Image.Bounds, Rectangle.Dx, h]; omega
      · simp only [Image.Bounds, Rectangle.Dy, h]; omega
      · simp only [Image.Bounds, Rectangle.Dx, Rectangle.Dy, h]; omega
  unfold drawStamp
  apply Draw_At_of_not_src
  rw [hres, truncToInt_of_nonneg hoff0]
  cases hin : (Pt (px - canvas.Bounds.Min.X +
      (Pt (-(x * T) - ⌊(1 - r) * (T : ℚ) / 2⌋) (-(y * T) - ⌊(1 - r) * (T : ℚ) / 2⌋)).X)
      (py - canvas.Bounds.Min.Y +
      (Pt (-(x * T) - ⌊(1 - r) * (T : ℚ) / 2⌋) (-(y * T) - ⌊(1 - r) * (T : ℚ) / 2⌋)).Y)).In
      ⟨⟨0, 0⟩, ⟨⌊r * (T : ℚ)⌋, ⌊r * (T : ℚ)⌋⟩⟩
  · rfl
  · exfalso
    rw [In_iff] at hin
    simp only [Image.Bounds, hmin, Pt] at hin
    apply hout
    have e1 : (x + 1) * T = x * T + T := by ring
    have e2 : (y + 1) * T = y * T + T := by ring
    rw [e1, e2]
    omega

theorem drawModule_inside_cell (E : Externals) (s : CodePointStyle) (r : ℚ) (T : Int)
    (fi : Option Image) (fg : RGBA) (x y : Int) (canvas : Image) (px py : Int) (hT : 1 ≤ T)
    (hT2 : T < 2 ^ 62) (hr1 : r ≤ 1) (hw : 1 ≤ r * T) (hmin : canvas.Rect.Min = ⟨0, 0⟩)
    (hout : ¬ (x * T ≤ px ∧ px < (x + 1) * T ∧ y * T ≤ py ∧ py < (y + 1) * T)) :
    (drawModule E s r T fi fg x y canvas).At px py = canvas.At px py := by
  unfold drawModule
  exact drawStamp_inside_cell E s r T _ x y canvas px py hT hT2 hr1 hw hmin hout

theorem floor_half : ⌊(1 / 2 : ℚ) * ((1 : Int) : ℚ)⌋ = 0 := by
  rw [Int.floor_eq_iff]; constructor <;> norm_num

theorem floor_quarter : ⌊(1 - 1 / 2 : ℚ) * ((1 : Int) : ℚ) / 2⌋ = 0 := by
  rw [Int.floor_eq_iff]; constructor <;> norm_num

/-- C1 (the code departs from the claim). At pitch 1 with fill ratio 0.5 the requested
stamp size is `uint(0.5) = 0`, so the resampler hands back the 2 x 2 stamp as it is, and
the compositing call for module (7, 0) paints pixel (8, 0), which lies in the cell of
module (8, 0): on a white 20 x 20 canvas that pixel turns from white to black, whatever
the resampler. -/
theorem drawStamp_bleeds (E : Externals) :
    (whiteCanvas 20).At 8 0 = ⟨255, 255, 255, 255⟩ ∧
      (drawStamp E .CpsRectangle (1 / 2) 1 ⟨0, 0, 0, 255⟩ 7 0 (whiteCanvas 20)).At 8 0 =
        ⟨0, 0, 0, 255⟩ ∧
      ¬ (7 * 1 ≤ (8 : Int) ∧ (8 : Int) < (7 + 1) * 1) := by
  refine ⟨by decide, ?_, by decide⟩
  have hu : truncToUint ((1 / 2 : ℚ) * ((1 : Int) : ℚ)) = 0 := by
    unfold truncToUint
    rw [truncToInt_of_nonneg (by norm_num), floor_half]; rfl
  have ho : truncToInt ((1 - 1 / 2 : ℚ) * ((1 : Int) : ℚ) / 2) = 0 := by
    rw [truncToInt_of_nonneg (by norm_num), floor_quarter]
  have hst : (stamp E .CpsRectangle ⟨0, 0, 0, 255⟩ 1).Rect = ⟨⟨0, 0⟩, ⟨2, 2⟩⟩ := by
    simp only [stamp]; rw [rectangle_Rect]; rfl
  unfold drawStamp
  rw [hu, ho, Resize_zero_zero E _ _ (by simp only [Image.Bounds, hst]; decide)
    (by simp only [Image.Bounds, hst]; decide), Draw_At]
  have hin : (Pt 8 0).In (clip (whiteCanvas 20).Rect (whiteCanvas 20).Bounds
      (stamp E .CpsRectangle ⟨0, 0, 0, 255⟩ 1).Rect (Pt (-(7 * 1) - 0) (-(0 * 1) - 0))).1
      = true := by
    rw [hst]; decide
  rw [if_pos hin]
  simp only [stamp]
  decide

/-! ## CodePoint: the session it returns -/

theorem drawModule_Rect (E : Externals) (s : CodePointStyle) (r : ℚ) (T : Int)
    (fi : Option Image) (fg : RGBA) (x y : Int) (canvas : Image) :
    (drawModule E s r T fi fg x y canvas).Rect = canvas.Rect := by
  unfold drawModule drawStamp
  rw [Draw_Rect]

theorem moduleLoop_Rect (E : Externals) (s : CodePointStyle) (r : ℚ) (T : Int)
    (fi : Option Image) (fg : RGBA) (bitmap : List (List Bool)) (canvas : Image) :
    (moduleLoop bitmap (drawModule E s r T fi fg) canvas).Rect = canvas.Rect := by
  rw [moduleLoop_eq_foldr]
  apply foldr_Rect _ _ _ _ rfl
  intro a st hst
  rw [drawModule_Rect, hst]

/-- The session `CodePoint` returns, with its canvas spelled out. -/
theorem CodePoint_eq (E : Externals) (p : PersonaQrCode) (s : CodePointStyle) (r : ℚ)
    (qr : QRCode) (hqr : p.qr = some qr) (hN : qr.modules ≠ []) :
    CodePoint E p s r =
      some { hasDefault p with
        qr := some { qr with DisableBorder := true }
        thick := pitch p.size qr.modules.length
        img := some (moduleLoop qr.modules
          (drawModule E s (clampRatio r) (pitch p.size qr.modules.length) p.foreImage
            ((p.foreground.getD ⟨⟨0, 0, 0, 255⟩, true⟩).rgba))
          (loopN (if p.size.tmod qr.modules.length ≠ 0 then
                NewRGBA (Rect 0 0 (qr.modules.length * pitch p.size qr.modules.length - 1)
                  (qr.modules.length * pitch p.size qr.modules.length - 1))
              else p.img.getD (NewRGBA (Rect 0 0 p.size p.size))).Bounds.Max.Y
            (fun y img => loopN img.Bounds.Max.X (fun x img =>
              img.Set x y ((p.background.getD ⟨⟨255, 255, 255, 255⟩, true⟩).rgba)) img)
            (if p.size.tmod qr.modules.length ≠ 0 then
                NewRGBA (Rect 0 0 (qr.modules.length * pitch p.size qr.modules.length - 1)
                  (qr.modules.length * pitch p.size qr.modules.length - 1))
              else p.img.getD (NewRGBA (Rect 0 0 p.size p.size))))) } := by
  have hlen : qr.modules.length ≠ 0 := by
    intro h; exact hN (List.length_eq_zero.mp h)
  unfold CodePoint
  simp only [hasDefault, hqr, QRCode.Bitmap, Option.bind_eq_bind, Option.some_bind, if_true,
    hlen, if_false]

/-- What `CodePoint` returns on a session with an encoder result: it always returns,
stores the pitch `size / N` and the bitmap without quiet zone, keeps `size`, `Error`
and the colours, and leaves a canvas of side `N * pitch - 1` when `size` is not a
multiple of `N`, the canvas of `hasDefault` otherwise. -/
theorem CodePoint_some (E : Externals) (p : PersonaQrCode) (s : CodePointStyle) (r : ℚ)
    (qr : QRCode) (hqr : p.qr = some qr) (hN : qr.modules ≠ []) :
    ∃ c, CodePoint E p s r =
        some { hasDefault p with
          qr := some { qr with DisableBorder := true }
          thick := pitch p.size qr.modules.length
          img := some c } ∧
      c.Rect =
        (if p.size.tmod qr.modules.length ≠ 0 then
          Rect 0 0 (qr.modules.length * pitch p.size qr.modules.length - 1)
            (qr.modules.length * pitch p.size qr.modules.length - 1)
        else (p.img.getD (NewRGBA (Rect 0 0 p.size p.size))).Rect) := by
  have hlen : qr.modules.length ≠ 0 := by
    intro h; exact hN (List.length_eq_zero.mp h)
  unfold CodePoint
  simp only [hasDefault, hqr, QRCode.Bitmap, Option.bind_eq_bind, Option.some_bind, if_true,
    hlen, if_false]
  refine ⟨_, rfl, ?_⟩
  rw [moduleLoop_Rect, fill_Rect]
  split <;> rfl

theorem CodePoint_Error (E : Externals) (p q : PersonaQrCode) (s : CodePointStyle) (r : ℚ)
    (h : CodePoint E p s r = some q) : q.Error = p.Error := by
  cases hqr : p.qr with
  | none => simp [CodePoint, hasDefault, hqr] at h
  | some qr =>
    by_cases hN : qr.modules = []
    · simp [CodePoint, hasDefault, hqr, QRCode.Bitmap, hN] at h
    · rw [CodePoint_eq E p s r qr hqr hN] at h
      simp only [Option.some.injEq] at h
      rw [← h]
      rfl

/-- Frame property of the generic module loop: a pixel that lies in the cell of no
drawn module keeps its value (for resized stamps of at least one pixel). -/
theorem moduleLoop_frame (E : Externals) (s : CodePointStyle) (r : ℚ) (T : Int)
    (fi : Option Image) (fg : RGBA) (bitmap : List (List Bool)) (canvas : Image)
    (px py : Int) (hT : 1 ≤ T) (hT2 : T < 2 ^ 62) (hr1 : r ≤ 1) (hw : 1 ≤ r * T)
    (hmin : canvas.Rect.Min = ⟨0, 0⟩)
    (hout : ∀ xy ∈ drawnModules bitmap,
      ¬ (xy.1 * T ≤ px ∧ px < (xy.1 + 1) * T ∧ xy.2 * T ≤ py ∧ py < (xy.2 + 1) * T)) :
    (moduleLoop bitmap (drawModule E s r T fi fg) canvas).At px py = canvas.At px py := by
  rw [moduleLoop_eq_foldr]
  generalize drawnModules bitmap = l at hout
  induction l with
  | nil => rfl
  | cons a l ih =>
    have hrest := ih (fun xy hxy => hout xy (List.mem_cons_of_mem _ hxy))
    rw [List.foldr_cons]
    show (drawModule E s r T fi fg a.1 a.2 _).At px py = _
    rw [drawModule_inside_cell E s r T fi fg a.1 a.2 _ px py hT hT2 hr1 hw ?_
      (hout a (List.mem_cons_self _ _)), hrest]
    have : (List.foldr (fun xy acc => drawModule E s r T fi fg xy.1 xy.2 acc) canvas l).Rect
        = canvas.Rect := by
      apply foldr_Rect _ _ _ _ rfl
      intro b st hst
      rw [drawModule_Rect, hst]
    rw [this, hmin]

/-- The generic module loop leaves the pixels of the top-left finder zone alone. -/
theorem moduleLoop_topLeft (E : Externals) (s : CodePointStyle) (r : ℚ) (T : Int)
    (fi : Option Image) (fg : RGBA) (bitmap : List (List Bool)) (canvas : Image)
    (px py : Int) (hT : 1 ≤ T) (hT2 : T < 2 ^ 62) (hr1 : r ≤ 1) (hw : 1 ≤ r * T)
    (hmin : canvas.Rect.Min = ⟨0, 0⟩) (hpx : px < 7 * T) (hpy : py < 7 * T) :
    (moduleLoop bitmap (drawModule E s r T fi fg) canvas).At px py = canvas.At px py := by
  apply moduleLoop_frame E s r T fi fg bitmap canvas px py hT hT2 hr1 hw hmin
  intro xy hxy
  obtain ⟨x, y, rfl, _, hc⟩ := mem_drawnModules_cases bitmap xy hxy
  unfold finderCorner at hc
  simp only [Bool.or_eq_false_iff, Bool.and_eq_false_imp, decide_eq_true_eq,
    decide_eq_false_iff_not] at hc
  rintro ⟨h1, h2, h3, h4⟩
  dsimp only at h1 h2 h3 h4
  have hx : (x : Int) < 7 := by
    by_contra hx
    have : 7 * T ≤ (x : Int) * T := Int.mul_le_mul_of_nonneg_right (by omega) (by omega)
    omega
  have hy : (y : Int) < 7 := by
    by_contra hy
    have : 7 * T ≤ (y : Int) * T := Int.mul_le_mul_of_nonneg_right (by omega) (by omega)
    omega
  exact hc.1.1 hy hx

/-- After `CodePoint` on a session with `N ≤ size` whose canvas, if it has one, is
`size` square, and with a ratio that leaves the resized stamp at least one pixel, the
top-left pixel of the canvas is the background colour, and `size`, `Error`, the
background and the encoder's modules are as before. -/
theorem CodePoint_origin_pixel (E : Externals) (p : PersonaQrCode) (s : CodePointStyle)
    (r : ℚ) (qr : QRCode) (hqr : p.qr = some qr) (hN : 1 ≤ qr.modules.length)
    (hS : (qr.modules.length : Int) ≤ p.size) (hS2 : p.size < 2 ^ 60)
    (hbase : ∀ c0, p.img = some c0 → c0.Rect = Rect 0 0 p.size p.size)
    (hr : 1 ≤ clampRatio r * pitch p.size qr.modules.length) :
    ∃ q c, CodePoint E p s r = some q ∧ q.img = some c ∧ q.Error = p.Error ∧
      q.size = p.size ∧ q.qr = some { qr with DisableBorder := true } ∧
      q.background = some (p.background.getD ⟨⟨255, 255, 255, 255⟩, true⟩) ∧
      (p.size.tmod qr.modules.length = 0 → c.Rect = Rect 0 0 p.size p.size) ∧
      c.At 0 0 = (p.background.getD ⟨⟨255, 255, 255, 255⟩, true⟩).rgba := by
  have hne : qr.modules ≠ [] := by
    intro h; rw [h] at hN; simp at hN
  have hNpos : (0 : Int) < qr.modules.length := by omega
  have hS0 : (0 : Int) ≤ p.size := by omega
  have hT : pitch p.size qr.modules.length = p.size / qr.modules.length := by
    rw [pitch_eq_tdiv, Int.tdiv_eq_ediv hS0 hNpos.le]
  have hmod : p.size.tmod qr.modules.length = p.size % qr.modules.length :=
    Int.tmod_eq_emod hS0 hNpos.le
  have hT1 : 1 ≤ p.size / (qr.modules.length : Int) :=
    (Int.le_ediv_iff_mul_le hNpos).mpr (by omega)
  have hdm := Int.ediv_add_emod p.size qr.modules.length
  have hm0 := Int.emod_nonneg p.size hNpos.ne'
  have hTle : p.size / (qr.modules.length : Int) ≤ p.size := Int.ediv_le_self _ hS0
  have hprod : (1 : Int) * (p.size / (qr.modules.length : Int)) ≤
      qr.modules.length * (p.size / (qr.modules.length : Int)) :=
    Int.mul_le_mul_of_nonneg_right (by omega) (by omega)
  have hdef : (p.img.getD (NewRGBA (Rect 0 0 p.size p.size))).Rect =
      ⟨⟨0, 0⟩, ⟨p.size, p.size⟩⟩ := by
    rw [← Rect_of_nonneg hS0 hS0]
    cases hi : p.img with
    | none => rfl
    | some c0 => exact hbase c0 hi
  have hbaseRect : ∃ H : Int, 1 ≤ H ∧
      (if p.size.tmod qr.modules.length ≠ 0 then
        NewRGBA (Rect 0 0 (qr.modules.length * pitch p.size qr.modules.length - 1)
          (qr.modules.length * pitch p.size qr.modules.length - 1))
      else p.img.getD (NewRGBA (Rect 0 0 p.size p.size))).Rect = ⟨⟨0, 0⟩, ⟨H, H⟩⟩ ∧
      (p.size.tmod qr.modules.length = 0 → H = p.size) := by
    by_cases h0 : p.size.tmod qr.modules.length = 0
    · refine ⟨p.size, by omega, ?_, fun _ => rfl⟩
      simp only [h0, ne_eq, not_true_eq_false, if_false]
      exact hdef
    · have hm1 := Int.emod_lt_of_pos p.size hNpos
      have hN2 : (2 : Int) ≤ qr.modules.length := by rw [hmod] at h0; omega
      have hprod2 : (2 : Int) * (p.size / (qr.modules.length : Int)) ≤
          qr.modules.length * (p.size / (qr.modules.length : Int)) :=
        Int.mul_le_mul_of_nonneg_right hN2 (by omega)
      refine ⟨qr.modules.length * pitch p.size qr.modules.length - 1, ?_, ?_, ?_⟩
      · rw [hT]; omega
      · simp only [h0, ne_eq, not_false_eq_true, if_true, NewRGBA]
        rw [hT]; rw [hmod] at h0
        exact Rect_of_nonneg (by omega) (by omega)
      · intro h; exact absurd h h0
  obtain ⟨H, hH1, hHrect, hHS⟩ := hbaseRect
  have hcr := (clampRatio_bounds r)
  refine ⟨_, _, CodePoint_eq E p s r qr hqr hne, rfl, rfl, rfl, rfl, rfl, ?_, ?_⟩
  · intro h0
    rw [moduleLoop_Rect, fill_Rect, hHrect, hHS h0, Rect_of_nonneg hS0 hS0]
  · rw [moduleLoop_topLeft E s (clampRatio r) _ _ _ _ _ 0 0 (by rw [hT]; exact hT1)
      (by rw [hT]; omega) hcr.2 hr (by rw [fill_Rect, hHrect]) (by rw [hT]; omega)
      (by rw [hT]; omega)]
    unfold Image.At
    rw [fill_Rect, fill_px, hHrect]
    simp only [Image.Bounds, hHrect]
    have hin : (Pt 0 0).In ⟨⟨0, 0⟩, ⟨H, H⟩⟩ = true := by
      rw [In_iff]; dsimp only; omega
    rw [if_pos hin, if_pos ⟨le_refl _, by omega, le_refl _, by omega, hin⟩]

/-! ## BullEye: where the patches go -/

theorem clearWhite_Rect (img : Image) : (clearWhite img).Rect = img.Rect := by
  unfold clearWhite
  apply loopN_Set_Rect _ _ _ _ rfl
  intro y st hst
  apply loopN_Set_Rect _ _ _ _ hst
  intro x st hst
  split
  · rw [Set_Rect, hst]
  · exact hst

theorem bullEyePatch_Rect (E : Externals) (size : Int) (fg bg : RGBA) (os is : BullEyeStyle) :
    (bullEyePatch E size fg bg os is).Rect = Rect 0 0 size size := by
  unfold bullEyePatch
  simp only []
  rw [Draw_Rect]
  split
  · rw [clearWhite_Rect, Draw_Rect, Draw_Rect]; rfl
  · rw [Draw_Rect, Draw_Rect]; rfl

/-- The resampled patch of `BullEye` lies in `[0, 7T) x [0, 7T)`. -/
theorem patch_resized_In (E : Externals) (size T : Int) (fg bg : RGBA) (os is : BullEyeStyle)
    (hS : 0 ≤ size) (hT : 1 ≤ T) (hT2 : T < 2 ^ 60) (u v : Int)
    (h : (Pt u v).In (Resize E (toUint (7 * T)) (toUint (7 * T))
      (bullEyePatch E size fg bg os is) .Bilinear).Rect = true) :
    0 ≤ u ∧ u < 7 * T ∧ 0 ≤ v ∧ v < 7 * T := by
  have hu : toUint (7 * T) = (7 * T).toNat := toUint_of_nonneg_lt (by omega) (by omega)
  have hc : ((7 * T).toNat : Int) = 7 * T := Int.toNat_of_nonneg (by omega)
  have hp : (bullEyePatch E size fg bg os is).Rect = ⟨⟨0, 0⟩, ⟨size, size⟩⟩ := by
    rw [bullEyePatch_Rect, Rect_of_nonneg hS hS]
  rw [hu] at h
  by_cases hsame : 7 * T = size
  · rw [Resize_same E _ _ _ _ (by simp only [Image.Bounds, Rectangle.Dx, hp]; omega)
      (by simp only [Image.Bounds, Rectangle.Dy, hp]; omega) (by omega) (by omega), hp,
      In_iff] at h
    dsimp only at h
    omega
  · by_cases hz : size = 0
    · rw [Resize_of_no_pixels E _ _ _ _
        (by left; simp only [Image.Bounds, Rectangle.Dx, hp]; omega), hp, In_iff] at h
      dsimp only at h
      omega
    · rw [Resize_Rect E _ _ _ _ (by omega) (by omega)
        (by simp only [Image.Bounds, Rectangle.Dx, hp]; omega)
        (by simp only [Image.Bounds, Rectangle.Dy, hp]; omega)
        (by simp only [Image.Bounds, Rectangle.Dx, Rectangle.Dy, hp]; omega), In_iff] at h
      dsimp only at h
      omega

/-- The resampled patch of `BullEye` has bounds `(0,0)-(7T,7T)`. -/
theorem patch_resized_Rect (E : Externals) (size T : Int) (fg bg : RGBA)
    (os is : BullEyeStyle) (hS : 0 < size) (hT : 1 ≤ T) (hT2 : T < 2 ^ 60) :
    (Resize E (toUint (7 * T)) (toUint (7 * T)) (bullEyePatch E size fg bg os is)
      .Bilinear).Rect = ⟨⟨0, 0⟩, ⟨7 * T, 7 * T⟩⟩ := by
  have hu : toUint (7 * T) = (7 * T).toNat := toUint_of_nonneg_lt (by omega) (by omega)
  have hc : ((7 * T).toNat : Int) = 7 * T := Int.toNat_of_nonneg (by omega)
  have hp : (bullEyePatch E size fg bg os is).Rect = ⟨⟨0, 0⟩, ⟨size, size⟩⟩ := by
    rw [bullEyePatch_Rect, Rect_of_nonneg hS.le hS.le]
  rw [hu]
  by_cases hsame : 7 * T = size
  · rw [Resize_same E _ _ _ _ (by simp only [Image.Bounds, Rectangle.Dx, hp]; omega)
      (by simp only [Image.Bounds, Rectangle.Dy, hp]; omega) (by omega) (by omega), hp, hsame]
  · rw [Resize_Rect E _ _ _ _ (by omega) (by omega)
      (by simp only [Image.Bounds, Rectangle.Dx, hp]; omega)
      (by simp only [Image.Bounds, Rectangle.Dy, hp]; omega)
      (by simp only [Image.Bounds, Rectangle.Dx, Rectangle.Dy, hp]; omega), hc]

/-- Frame property of the compositing call of `BullEye`: on a canvas at the origin, no
pixel outside the `7T x 7T` square with top-left pixel `xy` changes. -/
theorem drawPatch_frame (E : Externals) (size T : Int) (fg bg : RGBA) (os is : BullEyeStyle)
    (xy : Int × Int) (canvas : Image) (px py : Int) (hS : 0 ≤ size) (hT : 1 ≤ T)
    (hT2 : T < 2 ^ 60) (hmin : canvas.Rect.Min = ⟨0, 0⟩)
    (hout : ¬ (xy.1 ≤ px ∧ px < xy.1 + 7 * T ∧ xy.2 ≤ py ∧ py < xy.2 + 7 * T)) :
    (drawPatch E T (bullEyePatch E size fg bg os is) xy canvas).At px py =
      canvas.At px py := by
  unfold drawPatch
  apply Draw_At_of_not_src
  cases hin : (Pt (px - canvas.Bounds.Min.X + (Pt (-xy.1) (-xy.2)).X)
      (py - canvas.Bounds.Min.Y + (Pt (-xy.1) (-xy.2)).Y)).In
      (Resize E (toUint (7 * T)) (toUint (7 * T)) (bullEyePatch E size fg bg os is)
        .Bilinear).Rect
  · rfl
  · exfalso
    have h := patch_resized_In E size T fg bg os is hS hT hT2 _ _ hin
    simp only [Image.Bounds, hmin, Pt] at h
    apply hout
    omega

theorem drawPatch_Rect (E : Externals) (T : Int) (patch : Image) (xy : Int × Int)
    (canvas : Image) : (drawPatch E T patch xy canvas).Rect = canvas.Rect := by
  unfold drawPatch
  rw [Draw_Rect]

/-- The background colour after `hasDefault` is a `color.RGBA` exactly when the stored
one is nil or a `color.RGBA`. -/
theorem background_isRGBA_iff (p : PersonaQrCode) :
    (p.background.getD ⟨⟨255, 255, 255, 255⟩, true⟩).isRGBA = true ↔
      ∀ col, p.background = some col → col.isRGBA = true := by
  cases hb : p.background with
  | none =>
    simp only [Option.getD_none]
    exact ⟨fun _ col h => (by cases h), fun _ => trivial⟩
  | some b =>
    simp only [Option.getD_some, Option.some.injEq]
    exact ⟨fun h col hc => (by rw [← hc]; exact h), fun h => h b rfl⟩

/-- The session `BullEye` returns when the background colour is nil or a `color.RGBA`,
with its canvas spelled out: the three compositing calls, in the order of
`bullEyeOrigins`. -/
theorem BullEye_eq (E : Externals) (p : PersonaQrCode) (os is : BullEyeStyle)
    (hbg : ∀ col, p.background = some col → col.isRGBA = true) :
    BullEye E p os is =
      some { hasDefault p with
        img := some ((bullEyeOrigins (p.img.getD (NewRGBA (Rect 0 0 p.size p.size)))
            p.thick).foldl
          (fun canvas xy => drawPatch E p.thick
            (bullEyePatch E p.size
              (bullEyeForeground p (p.foreground.getD ⟨⟨0, 0, 0, 255⟩, true⟩).rgba xy)
              (p.background.getD ⟨⟨255, 255, 255, 255⟩, true⟩).rgba os is) xy canvas)
          (p.img.getD (NewRGBA (Rect 0 0 p.size p.size)))) } := by
  have hb := (background_isRGBA_iff p).mpr hbg
  unfold BullEye bullEyeOrigins
  simp only [hasDefault, Option.bind_eq_bind, Option.some_bind, List.foldlM_cons,
    List.foldlM_nil, hb, if_true, Option.pure_def, List.foldl_cons, List.foldl_nil]
  rfl

/-- The failing type assertion: with a background colour of another dynamic type
`BullEye` panics. -/
theorem BullEye_none (E : Externals) (p : PersonaQrCode) (os is : BullEyeStyle) (col : Color)
    (hb : p.background = some col) (hcol : col.isRGBA = false) :
    BullEye E p os is = none := by
  unfold BullEye bullEyeOrigins
  simp only [hasDefault, hb, Option.getD_some, Option.bind_eq_bind, Option.some_bind,
    List.foldlM_cons, hcol, Bool.false_eq_true, if_false, Option.none_bind]

/-- Whether `BullEye` returns: exactly when the background colour is nil or a
`color.RGBA`. -/
theorem BullEye_isSome_iff (E : Externals) (p : PersonaQrCode) (os is : BullEyeStyle) :
    (BullEye E p os is).isSome = true ↔
      ∀ col, p.background = some col → col.isRGBA = true := by
  constructor
  · intro h col hb
    cases hcol : col.isRGBA with
    | true => rfl
    | false =>
      rw [BullEye_none E p os is col hb hcol] at h
      cases h
  · intro h
    rw [BullEye_eq E p os is h]
    rfl

theorem BullEye_some (E : Externals) (p q : PersonaQrCode) (os is : BullEyeStyle)
    (h : BullEye E p os is = some q) :
    q.Error = p.Error ∧ q.size = p.size ∧ q.thick = p.thick := by
  have hbg := (BullEye_isSome_iff E p os is).mp (by rw [h]; rfl)
  rw [BullEye_eq E p os is hbg] at h
  simp only [Option.some.injEq] at h
  rw [← h]
  exact ⟨rfl, rfl, rfl⟩

/-- The compositing call of `BullEye` on a canvas at the origin: the patch, resampled
to `7T`, is composited with its pixel `(0, 0)` at `xy`. -/
theorem drawPatch_Composited (E : Externals) (T : Int) (patch : Image) (xy : Int × Int)
    (canvas : Image) (hmin : canvas.Rect.Min = ⟨0, 0⟩) :
    Composited (Resize E (toUint (7 * T)) (toUint (7 * T)) patch .Bilinear) xy.1 xy.2 canvas
      (drawPatch E T patch xy canvas) := by
  refine ⟨drawPatch_Rect E T patch xy canvas, ?_⟩
  intro px py
  unfold drawPatch
  have e1 : px - canvas.Bounds.Min.X + (Pt (-xy.1) (-xy.2)).X = px - xy.1 := by
    simp only [Image.Bounds, hmin, Pt]; omega
  have e2 : py - canvas.Bounds.Min.Y + (Pt (-xy.1) (-xy.2)).Y = py - xy.2 := by
    simp only [Image.Bounds, hmin, Pt]; omega
  rw [Draw_At, e1, e2]
  by_cases hc : (Pt px py).In canvas.Rect = true ∧
      (Pt (px - xy.1) (py - xy.2)).In
        (Resize E (toUint (7 * T)) (toUint (7 * T)) patch .Bilinear).Rect = true
  · rw [if_pos hc, if_pos]
    rw [In_clip, e1, e2]
    exact ⟨hc.1, hc.1, hc.2⟩
  · rw [if_neg hc, if_neg]
    rw [In_clip, e1, e2]
    rintro ⟨h1, _, h3⟩
    exact hc ⟨h1, h3⟩

/-- What `BullEye` does to a canvas at the origin when the background colour is nil or
a `color.RGBA`: it returns, keeps `Error`, `size` and `thick`, and its canvas is the old
one after three compositing steps, one for each point of `bullEyeOrigins`, each of the
patch of that point resampled to `7 * thick`. -/
theorem BullEye_composites (E : Externals) (p : PersonaQrCode) (os is : BullEyeStyle)
    (c : Image) (hc : p.img = some c) (hmin : c.Rect.Min = ⟨0, 0⟩)
    (hbg : ∀ col, p.background = some col → col.isRGBA = true) :
    ∃ q d1 d2 d3, BullEye E p os is = some q ∧ q.Error = p.Error ∧ q.size = p.size ∧
      q.thick = p.thick ∧ q.img = some d3 ∧ d3.Rect = c.Rect ∧
      Composited (Resize E (toUint (7 * p.thick)) (toUint (7 * p.thick))
          (bullEyePatch E p.size
            (bullEyeForeground p (p.foreground.getD ⟨⟨0, 0, 0, 255⟩, true⟩).rgba (0, 0))
            (p.background.getD ⟨⟨255, 255, 255, 255⟩, true⟩).rgba os is) .Bilinear)
        0 0 c d1 ∧
      Composited (Resize E (toUint (7 * p.thick)) (toUint (7 * p.thick))
          (bullEyePatch E p.size
            (bullEyeForeground p (p.foreground.getD ⟨⟨0, 0, 0, 255⟩, true⟩).rgba
              (0, c.Bounds.Max.Y - 7 * p.thick))
            (p.background.getD ⟨⟨255, 255, 255, 255⟩, true⟩).rgba os is) .Bilinear)
        0 (c.Bounds.Max.Y - 7 * p.thick) d1 d2 ∧
      Composited (Resize E (toUint (7 * p.thick)) (toUint (7 * p.thick))
          (bullEyePatch E p.size
            (bullEyeForeground p (p.foreground.getD ⟨⟨0, 0, 0, 255⟩, true⟩).rgba
              (c.Bounds.Max.Y - 7 * p.thick, 0))
            (p.background.getD ⟨⟨255, 255, 255, 255⟩, true⟩).rgba os is) .Bilinear)
        (c.Bounds.Max.Y - 7 * p.thick) 0 d2 d3 := by
  have heq := BullEye_eq E p os is hbg
  rw [hc] at heq
  simp only [Option.getD_some, bullEyeOrigins, List.foldl_cons, List.foldl_nil] at heq
  refine ⟨_,
    drawPatch E p.thick (bullEyePatch E p.size
      (bullEyeForeground p (p.foreground.getD ⟨⟨0, 0, 0, 255⟩, true⟩).rgba (0, 0))
      (p.background.getD ⟨⟨255, 255, 255, 255⟩, true⟩).rgba os is) (0, 0) c,
    drawPatch E p.thick (bullEyePatch E p.size
      (bullEyeForeground p (p.foreground.getD ⟨⟨0, 0, 0, 255⟩, true⟩).rgba
        (0, c.Bounds.Max.Y - 7 * p.thick))
      (p.background.getD ⟨⟨255, 255, 255, 255⟩, true⟩).rgba os is)
      (0, c.Bounds.Max.Y - 7 * p.thick)
      (drawPatch E p.thick (bullEyePatch E p.size
        (bullEyeForeground p (p.foreground.getD ⟨⟨0, 0, 0, 255⟩, true⟩).rgba (0, 0))
        (p.background.getD ⟨⟨255, 255, 255, 255⟩, true⟩).rgba os is) (0, 0) c),
    _, heq, rfl, rfl, rfl, rfl, ?_, ?_, ?_, ?_⟩
  · rw [drawPatch_Rect, drawPatch_Rect, drawPatch_Rect]
  · exact drawPatch_Composited E p.thick _ (0, 0) c hmin
  · exact drawPatch_Composited E p.thick _ (0, c.Bounds.Max.Y - 7 * p.thick) _
      (by rw [drawPatch_Rect]; exact hmin)
  · exact drawPatch_Composited E p.thick _ (c.Bounds.Max.Y - 7 * p.thick, 0) _
      (by rw [drawPatch_Rect, drawPatch_Rect]; exact hmin)

/-- Frame property of `BullEye`: on a canvas at the origin and with pitch `T ≥ 1`, when
`BullEye` returns, no pixel outside the three `7T x 7T` squares at the points of
`bullEyeOrigins` has changed. -/
theorem BullEye_frame (E : Externals) (p : PersonaQrCode) (os is : BullEyeStyle) (c : Image)
    (hc : p.img = some c) (hmin : c.Rect.Min = ⟨0, 0⟩) (hS : 0 ≤ p.size) (hT : 1 ≤ p.thick)
    (hT2 : p.thick < 2 ^ 60)
    (hbg : ∀ col, p.background = some col → col.isRGBA = true) :
    ∃ q d, BullEye E p os is = some q ∧ q.img = some d ∧ d.Rect = c.Rect ∧
      ∀ px py, (∀ xy ∈ bullEyeOrigins c p.thick,
          ¬ (xy.1 ≤ px ∧ px < xy.1 + 7 * p.thick ∧ xy.2 ≤ py ∧ py < xy.2 + 7 * p.thick)) →
        d.At px py = c.At px py := by
  have heq := BullEye_eq E p os is hbg
  rw [hc] at heq
  simp only [Option.getD_some] at heq
  refine ⟨_, _, heq, rfl, ?_, ?_⟩
  · unfold bullEyeOrigins
    simp only [List.foldl_cons, List.foldl_nil]
    rw [drawPatch_Rect, drawPatch_Rect, drawPatch_Rect]
  · intro px py hout
    unfold bullEyeOrigins at hout ⊢
    simp only [List.foldl_cons, List.foldl_nil]
    have h1 := hout _ (List.mem_cons_self _ _)
    have h2 := hout _ (List.mem_cons_of_mem _ (List.mem_cons_self _ _))
    have h3 := hout _ (List.mem_cons_of_mem _ (List.mem_cons_of_mem _ (List.mem_cons_self _ _)))
    rw [drawPatch_frame E _ _ _ _ os is _ _ px py hS hT hT2
        (by rw [drawPatch_Rect, drawPatch_Rect, hmin]) h3,
      drawPatch_frame E _ _ _ _ os is _ _ px py hS hT hT2 (by rw [drawPatch_Rect, hmin]) h2,
      drawPatch_frame E _ _ _ _ os is _ _ px py hS hT hT2 hmin h1]

/-- C9 (amended). On a session with `N ≤ size` whose canvas, if it has one, is `size`
square, `CodePoint` returns a session with pitch `T ≥ 1` and a canvas of side `H`, where
`H = N * T` when `size` is a multiple of `N` and `H = N * T - 1` otherwise. `BullEye`
then returns exactly when the background colour is nil or a `color.RGBA` (otherwise its
type assertion panics). When it returns, its canvas is the old one after three
compositing steps: the patch of each point, resampled to `7T x 7T`, is composited with
its top-left pixel at (0, 0), then at (0, H - 7T), then at (H - 7T, 0); no pixel outside
the three `7T x 7T` squares at these points changes. When `size` is a multiple of `N` the
three points are (0, 0), (0, (N - 7) T) and ((N - 7) T, 0): the patches lie exactly on
the finder zones. -/
theorem bullEye_origins (E : Externals) (p : PersonaQrCode) (s : CodePointStyle) (r : ℚ)
    (qr : QRCode) (hqr : p.qr = some qr)
    (hbase : ∀ c0, p.img = some c0 → c0.Rect = Rect 0 0 p.size p.size)
    (hN : 1 ≤ qr.modules.length) (hS : (qr.modules.length : Int) ≤ p.size)
    (hS2 : p.size < 2 ^ 60) :
    ∃ q c, CodePoint E p s r = some q ∧ q.img = some c ∧ 1 ≤ q.thick ∧
      c.Rect.Min = ⟨0, 0⟩ ∧
      c.Bounds.Max.Y = (if p.size.tmod qr.modules.length = 0 then
        qr.modules.length * q.thick else qr.modules.length * q.thick - 1) ∧
      bullEyeOrigins c q.thick =
        [(0, 0), (0, c.Bounds.Max.Y - 7 * q.thick), (c.Bounds.Max.Y - 7 * q.thick, 0)] ∧
      (p.size.tmod qr.modules.length = 0 →
        bullEyeOrigins c q.thick =
          [(0, 0), (0, (qr.modules.length - 7) * q.thick),
            ((qr.modules.length - 7) * q.thick, 0)]) ∧
      (∀ (os is : BullEyeStyle), ((BullEye E q os is).isSome = true ↔
        ∀ col, p.background = some col → col.isRGBA = true)) ∧
      (∀ (os is : BullEyeStyle), (∀ col, p.background = some col → col.isRGBA = true) →
        ∃ q2 d1 d2 d3, BullEye E q os is = some q2 ∧ q2.img = some d3 ∧
          (∀ xy, (Resize E (toUint (7 * q.thick)) (toUint (7 * q.thick))
            (bullEyePatch E q.size
              (bullEyeForeground q (q.foreground.getD ⟨⟨0, 0, 0, 255⟩, true⟩).rgba xy)
              (q.background.getD ⟨⟨255, 255, 255, 255⟩, true⟩).rgba os is) .Bilinear).Rect =
            ⟨⟨0, 0⟩, ⟨7 * q.thick, 7 * q.thick⟩⟩) ∧
          Composited (Resize E (toUint (7 * q.thick)) (toUint (7 * q.thick))
              (bullEyePatch E q.size
                (bullEyeForeground q (q.foreground.getD ⟨⟨0, 0, 0, 255⟩, true⟩).rgba (0, 0))
                (q.background.getD ⟨⟨255, 255, 255, 255⟩, true⟩).rgba os is) .Bilinear)
            0 0 c d1 ∧
          Composited (Resize E (toUint (7 * q.thick)) (toUint (7 * q.thick))
              (bullEyePatch E q.size
                (bullEyeForeground q (q.foreground.getD ⟨⟨0, 0, 0, 255⟩, true⟩).rgba
                  (0, c.Bounds.Max.Y - 7 * q.thick))
                (q.background.getD ⟨⟨255, 255, 255, 255⟩, true⟩).rgba os is) .Bilinear)
            0 (c.Bounds.Max.Y - 7 * q.thick) d1 d2 ∧
          Composited (Resize E (toUint (7 * q.thick)) (toUint (7 * q.thick))
              (bullEyePatch E q.size
                (bullEyeForeground q (q.foreground.getD ⟨⟨0, 0, 0, 255⟩, true⟩).rgba
                  (c.Bounds.Max.Y - 7 * q.thick, 0))
                (q.background.getD ⟨⟨255, 255, 255, 255⟩, true⟩).rgba os is) .Bilinear)
            (c.Bounds.Max.Y - 7 * q.thick) 0 d2 d3 ∧
          ∀ px py, (∀ xy ∈ bullEyeOrigins c q.thick,
              ¬ (xy.1 ≤ px ∧ px < xy.1 + 7 * q.thick ∧ xy.2 ≤ py ∧
                py < xy.2 + 7 * q.thick)) →
            d3.At px py = c.At px py) := by
  have hne : qr.modules ≠ [] := by
    intro h; rw [h] at hN; simp at hN
  obtain ⟨c, hrun, hrect⟩ := CodePoint_some E p s r qr hqr hne
  have hNpos : (0 : Int) < qr.modules.length := by omega
  have hS0 : (0 : Int) ≤ p.size := by omega
  have hT : pitch p.size qr.modules.length = p.size / qr.modules.length := by
    rw [pitch_eq_tdiv, Int.tdiv_eq_ediv hS0 hNpos.le]
  have hmod : p.size.tmod qr.modules.length = p.size % qr.modules.length :=
    Int.tmod_eq_emod hS0 hNpos.le
  have hT1 : 1 ≤ p.size / (qr.modules.length : Int) :=
    (Int.le_ediv_iff_mul_le hNpos).mpr (by omega)
  have hdm := Int.ediv_add_emod p.size qr.modules.length
  have hm0 := Int.emod_nonneg p.size hNpos.ne'
  have hm1 := Int.emod_lt_of_pos p.size hNpos
  have hTle : p.size / (qr.modules.length : Int) ≤ p.size :=
    Int.ediv_le_self _ hS0
  have hprod : (1 : Int) * (p.size / (qr.modules.length : Int)) ≤
      qr.modules.length * (p.size / (qr.modules.length : Int)) :=
    Int.mul_le_mul_of_nonneg_right (by omega) (by omega)
  have hdef : (p.img.getD (NewRGBA (Rect 0 0 p.size p.size))).Rect =
      ⟨⟨0, 0⟩, ⟨p.size, p.size⟩⟩ := by
    rw [← Rect_of_nonneg hS0 hS0]
    cases hi : p.img with
    | none => rfl
    | some c0 => exact hbase c0 hi
  rw [hmod, hT, hdef] at hrect
  have hrect2 : c.Rect = ⟨⟨0, 0⟩,
      ⟨(if p.size % qr.modules.length = 0 then
          qr.modules.length * (p.size / qr.modules.length)
        else qr.modules.length * (p.size / qr.modules.length) - 1),
       (if p.size % qr.modules.length = 0 then
          qr.modules.length * (p.size / qr.modules.length)
        else qr.modules.length * (p.size / qr.modules.length) - 1)⟩⟩ := by
    rw [hrect]
    by_cases h0 : p.size % (qr.modules.length : Int) = 0
    · simp only [h0, ne_eq, not_true_eq_false, if_false, if_true]
      have : (qr.modules.length : Int) * (p.size / qr.modules.length) = p.size := by omega
      rw [this]
    · simp only [h0, ne_eq, not_false_eq_true, if_true, if_false]
      rw [Rect_of_nonneg (by omega) (by omega)]
  have hqbg : ∀ q : PersonaQrCode,
      q.background = some (p.background.getD ⟨⟨255, 255, 255, 255⟩, true⟩) →
      ((∀ col, q.background = some col → col.isRGBA = true) ↔
        ∀ col, p.background = some col → col.isRGBA = true) := by
    intro q hq
    rw [← background_isRGBA_iff p, hq]
    constructor
    · intro h; exact h _ rfl
    · intro h col hc
      simp only [Option.some.injEq] at hc
      rw [← hc]; exact h
  refine ⟨_, c, hrun, rfl, ?_, ?_, ?_, rfl, ?_, ?_, ?_⟩
  · show 1 ≤ pitch p.size qr.modules.length
    rw [hT]; exact hT1
  · rw [hrect2]
  · show c.Rect.Max.Y = _
    rw [hrect2, hmod]
    show _ = if p.size % (qr.modules.length : Int) = 0 then
      (qr.modules.length : Int) * pitch p.size qr.modules.length
      else (qr.modules.length : Int) * pitch p.size qr.modules.length - 1
    rw [hT]
  · intro h0
    rw [hmod] at h0
    show bullEyeOrigins c (pitch p.size qr.modules.length) = _
    unfold bullEyeOrigins
    simp only [Image.Bounds, hrect2, h0, if_true, hT]
    have e : (qr.modules.length : Int) * (p.size / qr.modules.length) -
        7 * (p.size / qr.modules.length) =
        ((qr.modules.length : Int) - 7) * (p.size / qr.modules.length) := by ring
    rw [e]
  · intro os is
    exact (BullEye_isSome_iff E _ os is).trans (hqbg _ rfl)
  · intro os is hbg
    have hbgq := (hqbg
      { hasDefault p with
        qr := some { qr with DisableBorder := true }
        thick := pitch p.size qr.modules.length
        img := some c } rfl).mpr hbg
    have hT1p : 1 ≤ pitch p.size qr.modules.length := by rw [hT]; exact hT1
    have hT2p : pitch p.size qr.modules.length < 2 ^ 60 := by rw [hT]; omega
    obtain ⟨q2, d1, d2, d3, k1, _, _, _, k5, _, k7, k8, k9⟩ := BullEye_composites E
      { hasDefault p with
        qr := some { qr with DisableBorder := true }
        thick := pitch p.size qr.modules.length
        img := some c } os is c rfl (by rw [hrect2]) hbgq
    obtain ⟨q3, d, h1, h2, _, h4⟩ := BullEye_frame E
      { hasDefault p with
        qr := some { qr with DisableBorder := true }
        thick := pitch p.size qr.modules.length
        img := some c } os is c rfl (by rw [hrect2]) hS0 hT1p hT2p hbgq
    have hq23 : q3 = q2 := by
      rw [k1] at h1
      simp only [Option.some.injEq] at h1
      exact h1.symm
    have hd : d = d3 := by
      rw [hq23, k5] at h2
      simp only [Option.some.injEq] at h2
      exact h2.symm
    refine ⟨q2, d1, d2, d3, k1, k5, ?_, k7, k8, k9, ?_⟩
    · intro xy
      exact patch_resized_Rect E p.size (pitch p.size qr.modules.length) _ _ os is
        (by omega) hT1p hT2p
    · rw [← hd]; exact h4

/-- C9 (counterexample). With size 30 and the 21-module bitmap the pitch is 1 and the
canvas has side 20, so the second patch of `BullEye` goes to (0, 13) and the third to
(13, 0), not to (0, 14) and (14, 0); the compositing call of the second patch covers
pixel (0, 13), which belongs to module (0, 13), a module outside the three zones. -/
theorem bullEye_patch_off_grid :
    ∃ q c, CodePoint sampleExternals (sampleSession 30 .High) .CpsRectangle 1 = some q ∧
      q.img = some c ∧ q.thick = 1 ∧
      bullEyeOrigins c q.thick = [(0, 0), (0, 13), (13, 0)] ∧
      bullEyeOrigins c q.thick ≠
        [(0, 0), (0, ((sampleBitmap.length : Int) - 7) * q.thick),
          (((sampleBitmap.length : Int) - 7) * q.thick, 0)] ∧
      finderCorner 13 0 (sampleBitmap.length : Int) (sampleBitmap.length : Int) = false ∧
      (Pt 0 13).In (clip c.Rect c.Bounds
        (Resize sampleExternals (toUint (7 * q.thick)) (toUint (7 * q.thick))
          (bullEyePatch sampleExternals q.size ⟨0, 0, 0, 255⟩ ⟨255, 255, 255, 255⟩
            .BesRectangle .BesRectangle) .Bilinear).Rect (Pt (-0) (-13))).1 = true := by
  obtain ⟨c, hrun, hrect⟩ := CodePoint_some sampleExternals (sampleSession 30 .High)
    .CpsRectangle 1 ⟨sampleBitmap, .High, false⟩ rfl (by decide)
  have hp : pitch 30 21 = 1 := by rw [pitch_eq_tdiv]; decide
  have hrect2 : c.Rect = ⟨⟨0, 0⟩, ⟨20, 20⟩⟩ := by
    rw [hrect]
    show (if (30 : Int).tmod 21 ≠ 0 then Rect 0 0 (21 * pitch 30 21 - 1) (21 * pitch 30 21 - 1)
      else _) = _
    rw [hp]; decide
  have horig : bullEyeOrigins c 1 = [(0, 0), (0, 13), (13, 0)] := by
    unfold bullEyeOrigins
    simp only [Image.Bounds, hrect2]
    decide
  generalize hq : ({ hasDefault (sampleSession 30 .High) with
    qr := some { (⟨sampleBitmap, .High, false⟩ : QRCode) with DisableBorder := true }
    thick := pitch (sampleSession 30 .High).size
      (⟨sampleBitmap, .High, false⟩ : QRCode).modules.length
    img := some c } : PersonaQrCode) = q at hrun
  have hthick : q.thick = 1 := by rw [← hq]; exact hp
  have hsize : q.size = 30 := by rw [← hq]; rfl
  have himg : q.img = some c := by rw [← hq]
  refine ⟨q, c, hrun, himg, hthick, ?_, ?_, by decide, ?_⟩
  · rw [hthick, horig]
  · rw [hthick, horig]; decide
  · rw [hthick, hsize, patch_resized_Rect _ _ _ _ _ _ _ (by decide) (by decide) (by decide)]
    simp only [Image.Bounds, hrect2]
    decide

/-! ## Logo: the level gate and the footprint -/

theorem Logo_of_low_level (E : Externals) (p : PersonaQrCode) (qr : QRCode) (img : Image)
    (border : Bool) (hqr : p.qr = some qr)
    (h : qr.Level.toInt ≤ RecoveryLevel.Medium.toInt) :
    Logo E p img border = some { p with Error := some Failure.lowFaultTolerance } := by
  simp [Logo, hqr, h]

theorem Logo_Error_of_high_level (E : Externals) (p : PersonaQrCode) (qr : QRCode)
    (img : Image) (border : Bool) (hqr : p.qr = some qr)
    (h : RecoveryLevel.Medium.toInt < qr.Level.toInt) (q : PersonaQrCode)
    (hq : Logo E p img border = some q) : q.Error = p.Error := by
  have h2 : ¬ qr.Level.toInt ≤ RecoveryLevel.Medium.toInt := not_le.mpr h
  simp only [Logo, hqr, Option.bind_eq_bind, Option.some_bind, h2, if_false] at hq
  cases hp : logoCanvas E (p.background.map Color.rgba) img border with
  | none => simp [hp] at hq
  | some padded =>
    cases hc : p.img with
    | none => simp [hp, hc] at hq
    | some canvas =>
      simp [hp, hc] at hq
      rw [← hq]

theorem logoCanvas_isSome (E : Externals) (bg : RGBA) (img : Image) (border : Bool) :
    (logoCanvas E (some bg) img border).isSome = true := by
  unfold logoCanvas
  cases border <;> simp [fillLoop]

theorem Logo_isSome_of_high_level (E : Externals) (p : PersonaQrCode) (qr : QRCode)
    (img : Image) (border : Bool) (hqr : p.qr = some qr)
    (h : RecoveryLevel.Medium.toInt < qr.Level.toInt) (hi : p.img.isSome)
    (hb : p.background.isSome) : (Logo E p img border).isSome := by
  have h2 : ¬ qr.Level.toInt ≤ RecoveryLevel.Medium.toInt := not_le.mpr h
  obtain ⟨canvas, hc⟩ := Option.isSome_iff_exists.mp hi
  obtain ⟨bg, hbg⟩ := Option.isSome_iff_exists.mp hb
  obtain ⟨padded, hpad⟩ :=
    Option.isSome_iff_exists.mp (logoCanvas_isSome E bg.rgba img border)
  simp [Logo, hqr, h2, hc, hbg, hpad]

/-- C4. On a session that holds an encoder result, `Logo` with a level at or below
Medium returns the session with the decodability-risk failure in `Error` and every
other field (the canvas included) as before; with a level above Medium it never
writes `Error`, and it returns whenever the session has a canvas and a background.
So, on a session that does not carry that failure yet, `Logo` leaves it in `Error`
exactly when the level is at or below Medium. -/
theorem Logo_level_gate (E : Externals) (p : PersonaQrCode) (qr : QRCode) (img : Image)
    (border : Bool) (hqr : p.qr = some qr) :
    (qr.Level.toInt ≤ RecoveryLevel.Medium.toInt →
        Logo E p img border = some { p with Error := some Failure.lowFaultTolerance }) ∧
      (RecoveryLevel.Medium.toInt < qr.Level.toInt →
        (∀ q, Logo E p img border = some q → q.Error = p.Error) ∧
        (p.img.isSome → p.background.isSome → (Logo E p img border).isSome)) ∧
      (p.Error ≠ some Failure.lowFaultTolerance →
        ((∃ q, Logo E p img border = some q ∧ q.Error = some Failure.lowFaultTolerance) ↔
          qr.Level.toInt ≤ RecoveryLevel.Medium.toInt)) := by
  refine ⟨Logo_of_low_level E p qr img border hqr, ?_, ?_⟩
  · intro h
    exact ⟨Logo_Error_of_high_level E p qr img border hqr h,
      Logo_isSome_of_high_level E p qr img border hqr h⟩
  · intro hne
    constructor
    · rintro ⟨q, hq, he⟩
      by_contra hlev
      have := Logo_Error_of_high_level E p qr img border hqr (not_le.mp hlev) q hq
      rw [he] at this
      exact hne this.symm
    · intro h
      exact ⟨_, Logo_of_low_level E p qr img border hqr h, rfl⟩

/-- The statement of C4 at a fresh session of level Medium: `Logo` only sets `Error`. -/
theorem Logo_level_gate_witness :
    (sampleSession 30 .Medium).qr = some ⟨sampleBitmap, .Medium, false⟩ ∧
      Logo sampleExternals (sampleSession 30 .Medium) (whiteCanvas 8) false =
        some { sampleSession 30 .Medium with Error := some Failure.lowFaultTolerance } :=
  ⟨rfl, (Logo_level_gate sampleExternals (sampleSession 30 .Medium)
    ⟨sampleBitmap, .Medium, false⟩ (whiteCanvas 8) false rfl).1 (by decide)⟩

theorem logoSize_eq (T : Int) : logoSize T = T * 8 := by
  unfold logoSize
  have : (T : ℚ) * 8 = ((T * 8 : Int) : ℚ) := by push_cast; ring
  rw [this, truncToInt_intCast]

theorem logoCanvas_Rect (E : Externals) (bg : Option RGBA) (img : Image) (border : Bool)
    (padded : Image) (h : logoCanvas E bg img border = some padded) :
    padded.Rect = Rect 0 0 img.Bounds.Max.X img.Bounds.Max.Y := by
  unfold logoCanvas at h
  cases border with
  | false =>
    simp at h
    rw [← h, Draw_Rect]; rfl
  | true =>
    cases bg with
    | none =>
      simp only [fillLoop, if_true, Option.bind_eq_bind] at h
      split at h
      · simp at h
      · simp at h
        rw [← h, Draw_Rect]; rfl
    | some c =>
      simp only [fillLoop, if_true, Option.bind_eq_bind, Option.some_bind] at h
      simp at h
      rw [← h, Draw_Rect]
      apply loopN_Set_Rect _ _ _ _ rfl
      intro y st hst
      apply loopN_Set_Rect _ _ _ _ hst
      intro x st hst
      rw [Set_Rect, hst]

/-- Frame property of `Logo`: with pitch `T ≥ 1`, a canvas at the origin and a logo
whose bounds end at non-negative coordinates, `Logo` changes no pixel outside the
`8T x 8T` square whose top-left pixel is `logoOffset size T` on both axes. -/
theorem Logo_frame (E : Externals) (p q : PersonaQrCode) (logo : Image) (border : Bool)
    (c d : Image) (hc : p.img = some c) (hmin : c.Rect.Min = ⟨0, 0⟩)
    (hT : 1 ≤ p.thick) (hT2 : p.thick < 2 ^ 60) (hW : 0 ≤ logo.Bounds.Max.X)
    (hH : 0 ≤ logo.Bounds.Max.Y) (hq : Logo E p logo border = some q) (hd : q.img = some d)
    (px py : Int)
    (hout : ¬ (logoOffset p.size p.thick ≤ px ∧ px < logoOffset p.size p.thick + 8 * p.thick ∧
      logoOffset p.size p.thick ≤ py ∧ py < logoOffset p.size p.thick + 8 * p.thick)) :
    d.At px py = c.At px py := by
  unfold Logo at hq
  cases hqr : p.qr with
  | none => simp [hqr] at hq
  | some qr =>
    simp only [hqr, Option.bind_eq_bind, Option.some_bind] at hq
    split at hq
    · simp at hq
      rw [← hq] at hd
      simp only [hc, Option.some.injEq] at hd
      rw [hd]
    · cases hp : logoCanvas E (p.background.map Color.rgba) logo border with
      | none => simp [hp] at hq
      | some padded =>
        simp only [hp, hc, Option.some_bind, Option.some.injEq] at hq
        rw [← hq] at hd
        simp only [Option.some.injEq] at hd
        rw [← hd]
        apply Draw_At_of_not_src
        cases hin : (Pt (px - (c.Bounds.Add (Pt (logoOffset p.size p.thick)
            (logoOffset p.size p.thick))).Min.X + (Pt 0 0).X)
            (py - (c.Bounds.Add (Pt (logoOffset p.size p.thick)
            (logoOffset p.size p.thick))).Min.Y + (Pt 0 0).Y)).In
            (Resize E (toUint (logoSize p.thick)) (toUint (logoSize p.thick)) padded
              .Lanczos3).Rect
        · rfl
        · exfalso
          have hu : toUint (logoSize p.thick) = (8 * p.thick).toNat := by
            rw [logoSize_eq, toUint_of_nonneg_lt (by omega) (by omega)]
            congr 1; ring
          have hcast : ((8 * p.thick).toNat : Int) = 8 * p.thick :=
            Int.toNat_of_nonneg (by omega)
          rw [hu] at hin
          have hpr := logoCanvas_Rect E _ _ _ _ hp
          rw [Rect_of_nonneg hW hH] at hpr
          have h := resized_In E _ padded _ _ _ hW hH hpr (by omega) _ _ hin
          simp only [Image.Bounds, Rectangle.Add, hmin, Pt] at h
          apply hout
          omega

/-- When `size` is a multiple of `N` (so that the canvas has side `size`) and the logo
fits, the margins of the logo footprint on opposite sides differ by at most one. -/
theorem logo_margins_of_multiple (size T : Int) (hfit : 8 * T ≤ size) :
    0 ≤ (size - logoOffset size T - logoSize T) - logoOffset size T ∧
      (size - logoOffset size T - logoSize T) - logoOffset size T ≤ 1 := by
  unfold logoOffset
  rw [logoSize_eq, Int.tdiv_eq_ediv (by omega) (by omega)]
  omega

/-- C8 (the code departs from the claim). With size 30 and the 21-module bitmap,
`CodePoint` leaves pitch 1 and a working canvas of side 20. `Logo` computes its offset
from the requested size, not from the canvas: the footprint has side 8 and starts at
pixel 11 on both axes, `Logo` changes no pixel outside `[11, 19) x [11, 19)`, and the
margins are 11 on the left/top against 1 on the right/bottom. -/
theorem Logo_off_centre (E : Externals) :
    ∃ q c, CodePoint E (sampleSession 30 .High) .CpsRectangle 1 = some q ∧
      q.img = some c ∧ q.thick = 1 ∧ c.Rect = ⟨⟨0, 0⟩, ⟨20, 20⟩⟩ ∧
      logoSize q.thick = 8 ∧ logoOffset q.size q.thick = 11 ∧
      c.Bounds.Max.X - logoOffset q.size q.thick - logoSize q.thick = 1 ∧
      (∀ (logo : Image) (border : Bool) (q2 : PersonaQrCode) (d : Image) (px py : Int),
        0 ≤ logo.Bounds.Max.X → 0 ≤ logo.Bounds.Max.Y →
        Logo E q logo border = some q2 → q2.img = some d →
        ¬ (11 ≤ px ∧ px < 19 ∧ 11 ≤ py ∧ py < 19) → d.At px py = c.At px py) := by
  obtain ⟨c, hrun, hrect⟩ := CodePoint_some E (sampleSession 30 .High)
    .CpsRectangle 1 ⟨sampleBitmap, .High, false⟩ rfl (by decide)
  have hp : pitch 30 21 = 1 := by rw [pitch_eq_tdiv]; decide
  have hrect2 : c.Rect = ⟨⟨0, 0⟩, ⟨20, 20⟩⟩ := by
    rw [hrect]
    show (if (30 : Int).tmod 21 ≠ 0 then Rect 0 0 (21 * pitch 30 21 - 1) (21 * pitch 30 21 - 1)
      else _) = _
    rw [hp]; decide
  generalize hq : ({ hasDefault (sampleSession 30 .High) with
    qr := some { (⟨sampleBitmap, .High, false⟩ : QRCode) with DisableBorder := true }
    thick := pitch (sampleSession 30 .High).size
      (⟨sampleBitmap, .High, false⟩ : QRCode).modules.length
    img := some c } : PersonaQrCode) = q at hrun
  have hthick : q.thick = 1 := by rw [← hq]; exact hp
  have hsize : q.size = 30 := by rw [← hq]; rfl
  have himg : q.img = some c := by rw [← hq]
  have hs : logoSize 1 = 8 := by rw [logoSize_eq]; decide
  have ho : logoOffset 30 1 = 11 := by unfold logoOffset; rw [hs]; decide
  refine ⟨q, c, hrun, himg, hthick, hrect2, ?_, ?_, ?_, ?_⟩
  · rw [hthick, hs]
  · rw [hthick, hsize, ho]
  · rw [hthick, hsize, ho, hs]
    simp only [Image.Bounds, hrect2]
    decide
  · intro logo border q2 d px py hW hH hq2 hd hout
    refine Logo_frame E q q2 logo border c d himg (by rw [hrect2]) (by rw [hthick])
      (by rw [hthick]; decide) hW hH hq2 hd px py ?_
    rw [hthick, hsize, ho]
    intro h
    apply hout
    omega

/-! ## The failure state -/

/-- C5. When the session carries a failure, `Result` returns that failure with no
bytes, for either value of `border`, and the session (its canvas included) is as
before. -/
theorem Result_of_failure (E : Externals) (p : PersonaQrCode) (border : Bool) (e : Failure)
    (he : p.Error = some e) : Result E p border = some (p, [], some e) := by
  unfold Result
  rw [he]

/-- The statement of C5 at the session a failed `Logo` leaves behind. -/
theorem Result_of_failure_witness :
    ({ sampleSession 30 .Medium with Error := some Failure.lowFaultTolerance } :
        PersonaQrCode).Error = some Failure.lowFaultTolerance ∧
      Result sampleExternals
          { sampleSession 30 .Medium with Error := some Failure.lowFaultTolerance } true =
        some ({ sampleSession 30 .Medium with Error := some Failure.lowFaultTolerance }, [],
          some Failure.lowFaultTolerance) :=
  ⟨rfl, Result_of_failure sampleExternals
    { sampleSession 30 .Medium with Error := some Failure.lowFaultTolerance } true
    Failure.lowFaultTolerance rfl⟩

/-- `CodePoint` does not read `Error`: on a session with a failure it does what it does
on the same session without one, and hands the failure on. -/
theorem CodePoint_Error_blind (E : Externals) (p : PersonaQrCode) (s : CodePointStyle)
    (r : ℚ) :
    CodePoint E p s r =
      (CodePoint E { p with Error := none } s r).map (fun q => { q with Error := p.Error }) := by
  have hcases : p.qr = none ∨ ∃ qr, p.qr = some qr := by
    cases p.qr with
    | none => exact Or.inl rfl
    | some qr => exact Or.inr ⟨qr, rfl⟩
  rcases hcases with hqr | ⟨qr, hqr⟩
  · simp [CodePoint, hasDefault, hqr]
  · by_cases hN : qr.modules = []
    · simp [CodePoint, hasDefault, hqr, QRCode.Bitmap, hN]
    · have h2 : CodePoint E { p with Error := none } s r = _ :=
        CodePoint_eq E { p with Error := none } s r qr hqr hN
      rw [CodePoint_eq E p s r qr hqr hN, h2]
      rfl

/-- `BullEye` does not read `Error`: on a session with a failure it does what it does on
the same session without one, and hands the failure on. -/
theorem BullEye_Error_blind (E : Externals) (p : PersonaQrCode) (os is : BullEyeStyle) :
    BullEye E p os is =
      (BullEye E { p with Error := none } os is).map (fun q => { q with Error := p.Error }) := by
  by_cases hbg : ∀ col, p.background = some col → col.isRGBA = true
  · have h2 : BullEye E { p with Error := none } os is = _ :=
      BullEye_eq E { p with Error := none } os is hbg
    rw [BullEye_eq E p os is hbg, h2]
    rfl
  · have h1 : BullEye E p os is = none := by
      cases h : BullEye E p os is with
      | none => rfl
      | some q =>
        exact absurd ((BullEye_isSome_iff E p os is).mp (by rw [h]; rfl)) hbg
    have h2 : BullEye E { p with Error := none } os is = none := by
      cases h : BullEye E { p with Error := none } os is with
      | none => rfl
      | some q =>
        exact absurd ((BullEye_isSome_iff E { p with Error := none } os is).mp
          (by rw [h]; rfl)) hbg
    rw [h1, h2]
    rfl

/-- C6 (amended). Once `Error` holds a failure, no styling operation clears it, and
none consults it. `CodePoint` returns whenever the session holds an encoder result with
a non-empty bitmap, and then `Error` is unchanged. `BullEye` returns exactly when the
background colour is nil or a `color.RGBA` (its type assertion panics otherwise), and
then `Error` is unchanged; on a canvas at the origin it still composites its three
patches, each resampled to `7 * thick`, onto the canvas, at (0, 0), (0, H - 7 thick) and
(H - 7 thick, 0) for a canvas of height `H`. When `Logo` returns, `Error` is unchanged
or it is the decodability-risk failure and the canvas is the same as before.
`CodePoint` and `BullEye` do on the session what they do on the same session without
the failure, and hand the failure on. -/
theorem failure_stays_set (E : Externals) (p : PersonaQrCode) (e : Failure)
    (he : p.Error = some e) :
    (∀ s r q, CodePoint E p s r = some q → q.Error = some e) ∧
      (∀ s r qr, p.qr = some qr → qr.modules ≠ [] → (CodePoint E p s r).isSome) ∧
      (∀ os is, ((BullEye E p os is).isSome = true ↔
          ∀ col, p.background = some col → col.isRGBA = true) ∧
        ∀ q, BullEye E p os is = some q → q.Error = some e) ∧
      (∀ os is c, p.img = some c → c.Rect.Min = ⟨0, 0⟩ →
        (∀ col, p.background = some col → col.isRGBA = true) →
        ∃ q d1 d2 d3, BullEye E p os is = some q ∧ q.Error = some e ∧ q.img = some d3 ∧
          Composited (Resize E (toUint (7 * p.thick)) (toUint (7 * p.thick))
              (bullEyePatch E p.size
                (bullEyeForeground p (p.foreground.getD ⟨⟨0, 0, 0, 255⟩, true⟩).rgba (0, 0))
                (p.background.getD ⟨⟨255, 255, 255, 255⟩, true⟩).rgba os is) .Bilinear)
            0 0 c d1 ∧
          Composited (Resize E (toUint (7 * p.thick)) (toUint (7 * p.thick))
              (bullEyePatch E p.size
                (bullEyeForeground p (p.foreground.getD ⟨⟨0, 0, 0, 255⟩, true⟩).rgba
                  (0, c.Bounds.Max.Y - 7 * p.thick))
                (p.background.getD ⟨⟨255, 255, 255, 255⟩, true⟩).rgba os is) .Bilinear)
            0 (c.Bounds.Max.Y - 7 * p.thick) d1 d2 ∧
          Composited (Resize E (toUint (7 * p.thick)) (toUint (7 * p.thick))
              (bullEyePatch E p.size
                (bullEyeForeground p (p.foreground.getD ⟨⟨0, 0, 0, 255⟩, true⟩).rgba
                  (c.Bounds.Max.Y - 7 * p.thick, 0))
                (p.background.getD ⟨⟨255, 255, 255, 255⟩, true⟩).rgba os is) .Bilinear)
            (c.Bounds.Max.Y - 7 * p.thick) 0 d2 d3) ∧
      (∀ img border q, Logo E p img border = some q →
        q.Error = some e ∨ (q.Error = some Failure.lowFaultTolerance ∧ q.img = p.img)) ∧
      (∀ s r, CodePoint E p s r =
        (CodePoint E { p with Error := none } s r).map (fun q => { q with Error := some e })) ∧
      (∀ os is, BullEye E p os is =
        (BullEye E { p with Error := none } os is).map
          (fun q => { q with Error := some e })) := by
  refine ⟨?_, ?_, ?_, ?_, ?_, ?_, ?_⟩
  · intro s r q h
    rw [CodePoint_Error E p q s r h, he]
  · intro s r qr hqr hN
    rw [CodePoint_eq E p s r qr hqr hN]
    rfl
  · intro os is
    refine ⟨BullEye_isSome_iff E p os is, ?_⟩
    intro q h
    rw [(BullEye_some E p q os is h).1, he]
  · intro os is c hc hmin hbg
    obtain ⟨q, d1, d2, d3, k1, k2, _, _, k5, _, k7, k8, k9⟩ :=
      BullEye_composites E p os is c hc hmin hbg
    exact ⟨q, d1, d2, d3, k1, by rw [k2, he], k5, k7, k8, k9⟩
  · intro img border q h
    cases hqr : p.qr with
    | none => simp [Logo, hqr] at h
    | some qr =>
      by_cases hl : qr.Level.toInt ≤ RecoveryLevel.Medium.toInt
      · rw [Logo_of_low_level E p qr img border hqr hl] at h
        simp only [Option.some.injEq] at h
        right
        rw [← h]
        exact ⟨rfl, rfl⟩
      · left
        rw [Logo_Error_of_high_level E p qr img border hqr (not_le.mp hl) q h, he]
  · intro s r
    rw [CodePoint_Error_blind E p s r, he]
  · intro os is
    rw [BullEye_Error_blind E p os is, he]

/-- C6 (counterexample). A session of size 21 at level Medium: `CodePoint` paints a
white canvas, `Logo` fails and sets `Error` without touching the canvas, the
background is set to black, and `CodePoint` is called again. That call is not a
no-op: the top-left pixel of the canvas turns from white to black while `Error` stays
set. -/
theorem CodePoint_after_failure_repaints :
    ∃ p1 c1 p2 q c3,
      CodePoint sampleExternals (sampleSession 21 .Medium) .CpsRectangle 1 = some p1 ∧
      p1.img = some c1 ∧ c1.At 0 0 = ⟨255, 255, 255, 255⟩ ∧
      Logo sampleExternals p1 (whiteCanvas 8) false = some p2 ∧
      p2.Error = some Failure.lowFaultTolerance ∧ p2.img = some c1 ∧
      CodePoint sampleExternals (Background p2 ⟨⟨0, 0, 0, 255⟩, true⟩) .CpsRectangle 1 = some q ∧
      q.img = some c3 ∧ c3.At 0 0 = ⟨0, 0, 0, 255⟩ ∧
      q.Error = some Failure.lowFaultTolerance := by
  have hp : pitch 21 21 = 1 := by rw [pitch_eq_tdiv]; decide
  have hcl : clampRatio 1 = 1 := by unfold clampRatio; norm_num
  have hr : (1 : ℚ) ≤ clampRatio 1 * ((pitch 21 21 : Int) : ℚ) := by
    rw [hcl, hp]; norm_num
  obtain ⟨p1, c1, h1, h1img, _, h1size, h1qr, h1bg, h1rect, h1px⟩ :=
    CodePoint_origin_pixel sampleExternals (sampleSession 21 .Medium) .CpsRectangle 1
      ⟨sampleBitmap, .Medium, false⟩ rfl (by decide) (by decide) (by decide)
      (by intro c0 h; cases h) hr
  have hlogo := Logo_of_low_level sampleExternals p1 _ (whiteCanvas 8) false h1qr (by decide)
  have hsz : p1.size = 21 := h1size
  obtain ⟨q, c3, h3, h3img, h3err, _, _, _, _, h3px⟩ :=
    CodePoint_origin_pixel sampleExternals
      (Background { p1 with Error := some Failure.lowFaultTolerance } ⟨⟨0, 0, 0, 255⟩, true⟩)
      .CpsRectangle 1 { (⟨sampleBitmap, .Medium, false⟩ : QRCode) with DisableBorder := true }
      h1qr (by decide) (by show (21 : Int) ≤ p1.size; rw [hsz])
      (by show p1.size < 2 ^ 60; rw [hsz]; decide)
      (by
        intro c0 h
        have h2 : p1.img = some c0 := h
        rw [h1img] at h2
        simp only [Option.some.injEq] at h2
        rw [← h2]
        show c1.Rect = Rect 0 0 p1.size p1.size
        rw [hsz]
        exact h1rect (by decide))
      (by
        show (1 : ℚ) ≤ clampRatio 1 * ((pitch p1.size 21 : Int) : ℚ)
        rw [hsz]; exact hr)
  exact ⟨p1, c1, _, q, c3, h1, h1img, h1px, hlogo, rfl, h1img, h3, h3img, h3px, h3err⟩

/-! ## Result called twice -/

theorem resultScale_Rect (E : Externals) (size : Int) (canvas : Image) :
    (resultScale E size canvas).Rect = Rect 0 0 size size := by
  unfold resultScale
  rw [Draw_Rect]
  rfl

/-- When the canvas already has the side `size`, lines 79-84 of `Result` composite it,
as it is, over a transparent canvas at the origin. -/
theorem resultScale_of_side (E : Externals) (size : Int) (canvas : Image) (hS : 1 ≤ size)
    (hS2 : size < 2 ^ 63) (hx : canvas.Bounds.Dx = size) (hy : canvas.Bounds.Dy = size) :
    resultScale E size canvas =
      Draw (NewRGBA (Rect 0 0 size size)) (NewRGBA (Rect 0 0 size size)).Bounds canvas
        (Pt 0 0) := by
  unfold resultScale
  have hu : toUint size = size.toNat := toUint_of_nonneg_lt (by omega) (by omega)
  have hc : (size.toNat : Int) = size := Int.toNat_of_nonneg (by omega)
  rw [hu, Resize_same E _ _ _ _ (by rw [hx, hc]) (by rw [hy, hc]) (by omega) (by omega)]

theorem resultScale_of_no_pixels (E : Externals) (size : Int) (canvas : Image)
    (h : canvas.Bounds.Dx ≤ 0 ∨ canvas.Bounds.Dy ≤ 0) :
    resultScale E size canvas =
      Draw (NewRGBA (Rect 0 0 size size)) (NewRGBA (Rect 0 0 size size)).Bounds canvas
        (Pt 0 0) := by
  unfold resultScale
  rw [Resize_of_no_pixels E _ _ _ _ h]

/-- Lines 79-84 of `Result` are idempotent. -/
theorem resultScale_idem (E : Externals) (size : Int) (canvas : Image) (hS : 0 ≤ size)
    (hS2 : size < 2 ^ 63) :
    resultScale E size (resultScale E size canvas) = resultScale E size canvas := by
  have hrect : (resultScale E size canvas).Rect = ⟨⟨0, 0⟩, ⟨size, size⟩⟩ := by
    rw [resultScale_Rect, Rect_of_nonneg hS hS]
  have hfresh : (NewRGBA (Rect 0 0 size size)).Rect = ⟨⟨0, 0⟩, ⟨size, size⟩⟩ := by
    show Rect 0 0 size size = _
    rw [Rect_of_nonneg hS hS]
  have hstep : resultScale E size (resultScale E size canvas) =
      Draw (NewRGBA (Rect 0 0 size size)) (NewRGBA (Rect 0 0 size size)).Bounds
        (resultScale E size canvas) (Pt 0 0) := by
    by_cases h0 : size = 0
    · exact resultScale_of_no_pixels E size _
        (by left; simp only [Image.Bounds, Rectangle.Dx, hrect]; omega)
    · exact resultScale_of_side E size _ (by omega) hS2
        (by simp only [Image.Bounds, Rectangle.Dx, hrect]; omega)
        (by simp only [Image.Bounds, Rectangle.Dy, hrect]; omega)
  rw [hstep]
  apply Image.ext_px
  · rw [Draw_Rect, hfresh, hrect]
  · intro u v
    rw [Draw_px]
    have hpx : (resultScale E size canvas).px u v =
        if (Pt u v).In (clip (NewRGBA (Rect 0 0 size size)).Rect
            (NewRGBA (Rect 0 0 size size)).Bounds
            (Resize E (toUint size) (toUint size) canvas .Lanczos3).Rect (Pt 0 0)).1 then
          over ((Resize E (toUint size) (toUint size) canvas .Lanczos3).At
            (u - (NewRGBA (Rect 0 0 size size)).Bounds.Min.X + (Pt 0 0).X)
            (v - (NewRGBA (Rect 0 0 size size)).Bounds.Min.Y + (Pt 0 0).Y)) RGBA.zero
        else RGBA.zero := by
      unfold resultScale
      rw [Draw_px]
      rfl
    by_cases hin : (Pt u v).In (clip (NewRGBA (Rect 0 0 size size)).Rect
        (NewRGBA (Rect 0 0 size size)).Bounds (resultScale E size canvas).Rect (Pt 0 0)).1
        = true
    · rw [if_pos hin]
      have hin2 := (In_clip u v _ _ _ _).mp hin
      have hat : (resultScale E size canvas).At
          (u - (NewRGBA (Rect 0 0 size size)).Bounds.Min.X + (Pt 0 0).X)
          (v - (NewRGBA (Rect 0 0 size size)).Bounds.Min.Y + (Pt 0 0).Y) =
          (resultScale E size canvas).px u v := by
        have e1 : u - (NewRGBA (Rect 0 0 size size)).Bounds.Min.X + (Pt 0 0).X = u := by
          simp only [Image.Bounds, hfresh, Pt]; omega
        have e2 : v - (NewRGBA (Rect 0 0 size size)).Bounds.Min.Y + (Pt 0 0).Y = v := by
          simp only [Image.Bounds, hfresh, Pt]; omega
        rw [e1, e2]
        unfold Image.At
        have : (Pt u v).In (resultScale E size canvas).Rect = true := by
          rw [hrect, ← hfresh]; exact hin2.2.1
        rw [if_pos this]
      rw [hat, hpx]
      show over _ RGBA.zero = _
      split
      · rw [over_zero_idem]
      · exact over_zero_zero
    · rw [if_neg hin, hpx]
      show RGBA.zero = _
      have hnot : ¬ (Pt u v).In (NewRGBA (Rect 0 0 size size)).Rect = true := by
        intro h
        apply hin
        rw [In_clip]
        refine ⟨h, h, ?_⟩
        rw [hrect, ← hfresh]
        have e1 : u - (NewRGBA (Rect 0 0 size size)).Bounds.Min.X + (Pt 0 0).X = u := by
          simp only [Image.Bounds, hfresh, Pt]; omega
        have e2 : v - (NewRGBA (Rect 0 0 size size)).Bounds.Min.Y + (Pt 0 0).Y = v := by
          simp only [Image.Bounds, hfresh, Pt]; omega
        rw [e1, e2]
        exact h
      rw [if_neg]
      intro h
      exact hnot ((In_clip u v _ _ _ _).mp h).2.1

/-- The pixels lines 79-84 of `Result` produce from a canvas that already has the side
`size`: inside both the new canvas and the old bounds the old pixel over a transparent
one, elsewhere a transparent pixel. -/
theorem resultScale_At (E : Externals) (size : Int) (canvas : Image) (u v : Int)
    (hS : 1 ≤ size) (hS2 : size < 2 ^ 63) (hx : canvas.Bounds.Dx = size)
    (hy : canvas.Bounds.Dy = size) :
    (resultScale E size canvas).At u v =
      if (0 ≤ u ∧ u < size ∧ 0 ≤ v ∧ v < size) ∧ (Pt u v).In canvas.Rect = true then
        over (canvas.At u v) RGBA.zero
      else RGBA.zero := by
  have hfresh : (NewRGBA (Rect 0 0 size size)).Rect = ⟨⟨0, 0⟩, ⟨size, size⟩⟩ := by
    show Rect 0 0 size size = _
    rw [Rect_of_nonneg (by omega) (by omega)]
  have hzero : (NewRGBA (Rect 0 0 size size)).At u v = RGBA.zero := by
    unfold Image.At NewRGBA
    split <;> rfl
  have e1 : u - (NewRGBA (Rect 0 0 size size)).Bounds.Min.X + (Pt 0 0).X = u := by
    simp only [Image.Bounds, hfresh, Pt]; omega
  have e2 : v - (NewRGBA (Rect 0 0 size size)).Bounds.Min.Y + (Pt 0 0).Y = v := by
    simp only [Image.Bounds, hfresh, Pt]; omega
  rw [resultScale_of_side E size canvas hS hS2 hx hy, Draw_At, hzero, e1, e2]
  by_cases hin : (Pt u v).In (clip (NewRGBA (Rect 0 0 size size)).Rect
      (NewRGBA (Rect 0 0 size size)).Bounds canvas.Rect (Pt 0 0)).1 = true
  · rw [if_pos hin]
    rw [In_clip, e1, e2] at hin
    have h1 := hin.1
    simp only [Image.Bounds, hfresh, In_iff] at h1
    rw [if_pos ⟨h1, hin.2.2⟩]
  · rw [if_neg hin, if_neg]
    rintro ⟨h1, h2⟩
    apply hin
    rw [In_clip, e1, e2]
    have h3 : (Pt u v).In (NewRGBA (Rect 0 0 size size)).Rect = true := by
      rw [hfresh, In_iff]; exact h1
    exact ⟨h3, h3, h2⟩

/-- Lines 86-97 of `Result` at pitch 0 on a canvas of side `size`: nothing is inset,
every pixel is the old pixel over the background colour. -/
theorem resultBorder_zero_thick (E : Externals) (size : Int) (bg : RGBA) (canvas : Image)
    (hS : 1 ≤ size) (hS2 : size < 2 ^ 63) (hrect : canvas.Rect = ⟨⟨0, 0⟩, ⟨size, size⟩⟩) :
    ∃ d, resultBorder E size 0 (some bg) canvas = some d ∧
      d.Rect = ⟨⟨0, 0⟩, ⟨size, size⟩⟩ ∧
      ∀ u v, 0 ≤ u → u < size → 0 ≤ v → v < size → d.At u v = over (canvas.At u v) bg := by
  have hfresh : (NewRGBA (Rect 0 0 size size)).Rect = ⟨⟨0, 0⟩, ⟨size, size⟩⟩ := by
    show Rect 0 0 size size = _
    rw [Rect_of_nonneg (by omega) (by omega)]
  obtain ⟨f1, f2⟩ := fillRows_px (NewRGBA (Rect 0 0 size size)) bg size size
  have hu : toUint (canvas.Bounds.Max.X - 0 * 2) = size.toNat := by
    simp only [Image.Bounds, hrect]
    rw [toUint_of_nonneg_lt (by omega) (by omega)]
    congr 1; omega
  have hv : toUint (canvas.Bounds.Max.Y - 0 * 2) = size.toNat := by
    simp only [Image.Bounds, hrect]
    rw [toUint_of_nonneg_lt (by omega) (by omega)]
    congr 1; omega
  have hc : (size.toNat : Int) = size := Int.toNat_of_nonneg (by omega)
  have hrb : resultBorder E size 0 (some bg) canvas =
      some (Draw (loopN size (fun y img => loopN size (fun x img => img.Set x y bg) img)
          (NewRGBA (Rect 0 0 size size)))
        ((loopN size (fun y img => loopN size (fun x img => img.Set x y bg) img)
          (NewRGBA (Rect 0 0 size size))).Bounds.Add (Pt 0 0)) canvas (Pt 0 0)) := by
    unfold resultBorder fillLoop
    simp only [Option.bind_eq_bind, Option.some_bind]
    rw [hu, hv, Resize_same E _ _ _ _
      (by simp only [Image.Bounds, Rectangle.Dx, hrect]; omega)
      (by simp only [Image.Bounds, Rectangle.Dy, hrect]; omega) (by omega) (by omega)]
  refine ⟨_, hrb, ?_, ?_⟩
  · rw [Draw_Rect, f1, hfresh]
  · intro u v hu0 hu1 hv0 hv1
    have hinF : (Pt u v).In ⟨⟨0, 0⟩, ⟨size, size⟩⟩ = true := by
      rw [In_iff]; exact ⟨hu0, hu1, hv0, hv1⟩
    have hfill : (loopN size (fun y img => loopN size (fun x img => img.Set x y bg) img)
        (NewRGBA (Rect 0 0 size size))).At u v = bg := by
      unfold Image.At
      rw [f1, hfresh, if_pos hinF, f2, hfresh, if_pos ⟨hv0, hv1, hu0, hu1, hinF⟩]
    have e1 : u - ((loopN size (fun y img => loopN size (fun x img => img.Set x y bg) img)
        (NewRGBA (Rect 0 0 size size))).Bounds.Add (Pt 0 0)).Min.X + (Pt 0 0).X = u := by
      simp only [Image.Bounds, f1, hfresh, Rectangle.Add, Pt]; omega
    have e2 : v - ((loopN size (fun y img => loopN size (fun x img => img.Set x y bg) img)
        (NewRGBA (Rect 0 0 size size))).Bounds.Add (Pt 0 0)).Min.Y + (Pt 0 0).Y = v := by
      simp only [Image.Bounds, f1, hfresh, Rectangle.Add, Pt]; omega
    rw [Draw_At, hfill, e1, e2, if_pos]
    rw [In_clip, e1, e2, f1, hfresh, hrect]
    refine ⟨?_, hinF, hinF⟩
    rw [In_iff]
    simp only [Image.Bounds, f1, hfresh, Rectangle.Add, Pt]
    omega

/-- What `Result` does on a session without failure that has a canvas and an encoder
result. -/
theorem Result_with_canvas (E : Externals) (p : PersonaQrCode) (border : Bool) (c : Image)
    (qr : QRCode) (he : p.Error = none) (hc : p.img = some c) (hqr : p.qr = some qr) :
    Result E p border =
      (if border then
          resultBorder E p.size p.thick (p.background.map Color.rgba)
            (if p.size ≠ qr.Bitmap.length * p.thick - 1 then resultScale E p.size c else c)
        else some (if p.size ≠ qr.Bitmap.length * p.thick - 1 then resultScale E p.size c
          else c)).bind
        (fun d => some ({ p with img := some d, Error := (E.pngEncode d).2 },
          E.pngEncode d)) := by
  unfold Result
  simp only [he, hc, hqr]
  cases border
  · simp
  · simp only [if_true]
    cases resultBorder E p.size p.thick (p.background.map Color.rgba)
      (if p.size ≠ qr.Bitmap.length * p.thick - 1 then resultScale E p.size c else c) <;> rfl

/-- C7 (amended). With `border = false`, a call of `Result` that returns bytes without
failure can be repeated: the second call returns the same bytes, again without failure,
and leaves the session, its canvas included, exactly as the first call left it. -/
theorem Result_twice_without_border (E : Externals) (p p1 : PersonaQrCode)
    (bytes : List Nat) (hS : 0 ≤ p.size) (hS2 : p.size < 2 ^ 63)
    (h1 : Result E p false = some (p1, bytes, none)) :
    Result E p1 false = some (p1, bytes, none) := by
  cases he : p.Error with
  | some e =>
    unfold Result at h1
    simp [he] at h1
  | none =>
    cases hqr : p.qr with
    | none =>
      unfold Result at h1
      cases hc : p.img <;> simp [he, hqr, hc] at h1
    | some qr =>
      cases hc : p.img with
      | none =>
        unfold Result at h1
        simp only [he, hc, hqr, Option.some.injEq, Prod.mk.injEq, Bool.not_false] at h1
        obtain ⟨hp1, hb⟩ := h1
        subst hp1
        unfold Result
        simp only [he, hc, Bool.not_false, hb]
      | some c =>
        rw [Result_with_canvas E p false c qr he hc hqr] at h1
        simp only [Bool.false_eq_true, if_false, Option.some_bind, Option.some.injEq,
          Prod.mk.injEq] at h1
        obtain ⟨hp1, hb⟩ := h1
        have herr : (E.pngEncode (if p.size ≠ qr.Bitmap.length * p.thick - 1 then
            resultScale E p.size c else c)).2 = none := by rw [hb]
        subst hp1
        rw [Result_with_canvas E
          { p with
            img := some (if p.size ≠ qr.Bitmap.length * p.thick - 1 then
              resultScale E p.size c else c)
            Error := (E.pngEncode (if p.size ≠ qr.Bitmap.length * p.thick - 1 then
              resultScale E p.size c else c)).2 }
          false (if p.size ≠ qr.Bitmap.length * p.thick - 1 then resultScale E p.size c else c)
          qr herr rfl hqr]
        simp only [Bool.false_eq_true, if_false, Option.some_bind, Option.some.injEq,
          Prod.mk.injEq]
        have hfix : (if p.size ≠ qr.Bitmap.length * p.thick - 1 then
            resultScale E p.size (if p.size ≠ qr.Bitmap.length * p.thick - 1 then
              resultScale E p.size c else c)
            else (if p.size ≠ qr.Bitmap.length * p.thick - 1 then
              resultScale E p.size c else c)) =
            (if p.size ≠ qr.Bitmap.length * p.thick - 1 then
              resultScale E p.size c else c) := by
          by_cases hcond : p.size ≠ qr.Bitmap.length * p.thick - 1
          · simp only [hcond, if_true, ne_eq, not_false_eq_true]
            exact resultScale_idem E p.size c hS hS2
          · simp only [hcond, if_false]
        rw [hfix]
        exact ⟨rfl, hb⟩

/-- The statement of C7 (amended) at the session `CodePoint` returns for size 42. -/
theorem Result_twice_without_border_witness :
    ∃ p p1 bytes,
      CodePoint sampleExternals (sampleSession 42 .High) .CpsCircular (4 / 5) = some p ∧
      (0 ≤ p.size ∧ p.size < 2 ^ 63) ∧
      Result sampleExternals p false = some (p1, bytes, none) ∧
      Result sampleExternals p1 false = some (p1, bytes, none) := by
  obtain ⟨c, hrun, _⟩ := CodePoint_some sampleExternals (sampleSession 42 .High)
    .CpsCircular (4 / 5) ⟨sampleBitmap, .High, false⟩ rfl (by decide)
  have h1 := Result_with_canvas sampleExternals _ false c
    { (⟨sampleBitmap, .High, false⟩ : QRCode) with DisableBorder := true }
    (CodePoint_Error sampleExternals _ _ _ _ hrun) rfl rfl
  simp only [Bool.false_eq_true, if_false, Option.some_bind] at h1
  have hs0 : (0 : Int) ≤ 42 := by decide
  have hs1 : (42 : Int) < 2 ^ 63 := by decide
  exact ⟨_, _, _, hrun, ⟨hs0, hs1⟩, h1,
    Result_twice_without_border sampleExternals _ _ _ hs0 hs1 h1⟩

/-- C7 (counterexample). A session of size 1 with the half-transparent background
(0, 0, 0, 128), after `CodePoint`: the first `Result(true)` returns a canvas whose
pixel (0, 0) is the background colour, the second `Result(true)` composites that
canvas over a fresh background and returns a canvas whose pixel (0, 0) has alpha 192.
Neither call fails, no resampler is consulted, and the two canvases differ. -/
theorem Result_twice_with_border_differs :
    ∃ p r1 b1 c1 r2 b2 c2,
      CodePoint sampleExternals (Background (sampleSession 1 .High) ⟨⟨0, 0, 0, 128⟩, true⟩)
        .CpsRectangle 1 = some p ∧
      Result sampleExternals p true = some (r1, b1, none) ∧ r1.img = some c1 ∧
      Result sampleExternals r1 true = some (r2, b2, none) ∧ r2.img = some c2 ∧
      c1.At 0 0 = ⟨0, 0, 0, 128⟩ ∧ c2.At 0 0 = ⟨0, 0, 0, 192⟩ := by
  obtain ⟨c0, hrun, hrect⟩ := CodePoint_some sampleExternals
    (Background (sampleSession 1 .High) ⟨⟨0, 0, 0, 128⟩, true⟩) .CpsRectangle 1
    ⟨sampleBitmap, .High, false⟩ rfl (by decide)
  have hp : pitch 1 21 = 0 := by rw [pitch_eq_tdiv]; decide
  have hrect0 : c0.Rect = ⟨⟨-1, -1⟩, ⟨0, 0⟩⟩ := by
    rw [hrect]
    show (if (1 : Int).tmod 21 ≠ 0 then Rect 0 0 (21 * pitch 1 21 - 1) (21 * pitch 1 21 - 1)
      else _) = _
    rw [hp]; decide
  generalize hq : ({ hasDefault (Background (sampleSession 1 .High) ⟨⟨0, 0, 0, 128⟩, true⟩) with
    qr := some { (⟨sampleBitmap, .High, false⟩ : QRCode) with DisableBorder := true }
    thick := pitch (Background (sampleSession 1 .High) ⟨⟨0, 0, 0, 128⟩, true⟩).size
      (⟨sampleBitmap, .High, false⟩ : QRCode).modules.length
    img := some c0 } : PersonaQrCode) = q at hrun
  have hthick : q.thick = 0 := by rw [← hq]; exact hp
  have hsize : q.size = 1 := by rw [← hq]; rfl
  have himg : q.img = some c0 := by rw [← hq]
  have herr : q.Error = none := by rw [← hq]; rfl
  have hqr : q.qr = some ⟨sampleBitmap, .High, true⟩ := by rw [← hq]
  have hbg : q.background.map Color.rgba = some ⟨0, 0, 0, 128⟩ := by rw [← hq]; rfl
  have hlen : ((⟨sampleBitmap, .High, true⟩ : QRCode).Bitmap.length : Int) = 21 := by decide
  have hcond : (1 : Int) ≠ 21 * 0 - 1 := by decide
  -- the first call
  have h1 := Result_with_canvas sampleExternals q true c0 _ herr himg hqr
  rw [hlen, hsize, hthick, hbg] at h1
  simp only [if_true, hcond, ne_eq, not_false_eq_true] at h1
  obtain ⟨R1, hR1, hR1rect, hR1px⟩ := resultBorder_zero_thick sampleExternals 1
    ⟨0, 0, 0, 128⟩ (resultScale sampleExternals 1 c0) (by decide) (by decide)
    (by rw [resultScale_Rect]; rfl)
  rw [hR1] at h1
  simp only [Option.some_bind] at h1
  have hs0 : (resultScale sampleExternals 1 c0).At 0 0 = RGBA.zero := by
    rw [resultScale_At sampleExternals 1 c0 0 0 (by decide) (by decide)
      (by simp only [Image.Bounds, Rectangle.Dx, hrect0]; decide)
      (by simp only [Image.Bounds, Rectangle.Dy, hrect0]; decide), hrect0]
    exact if_neg (by decide)
  have hR1at : R1.At 0 0 = ⟨0, 0, 0, 128⟩ := by
    rw [hR1px 0 0 (by decide) (by decide) (by decide) (by decide), hs0]; decide
  -- the second call
  have h2 := Result_with_canvas sampleExternals
    { q with img := some R1, Error := (sampleExternals.pngEncode R1).2 } true R1 _ rfl rfl hqr
  rw [hlen] at h2
  simp only [hsize, hthick, hbg, if_true, hcond, ne_eq, not_false_eq_true] at h2
  obtain ⟨R2, hR2, hR2rect, hR2px⟩ := resultBorder_zero_thick sampleExternals 1
    ⟨0, 0, 0, 128⟩ (resultScale sampleExternals 1 R1) (by decide) (by decide)
    (by rw [resultScale_Rect]; rfl)
  rw [hR2] at h2
  simp only [Option.some_bind] at h2
  have hs1 : (resultScale sampleExternals 1 R1).At 0 0 = ⟨0, 0, 0, 128⟩ := by
    rw [resultScale_At sampleExternals 1 R1 0 0 (by decide) (by decide)
      (by simp only [Image.Bounds, Rectangle.Dx, hR1rect]; decide)
      (by simp only [Image.Bounds, Rectangle.Dy, hR1rect]; decide), hR1rect,
      if_pos (by decide), hR1at]
    decide
  have hR2at : R2.At 0 0 = ⟨0, 0, 0, 192⟩ := by
    rw [hR2px 0 0 (by decide) (by decide) (by decide) (by decide), hs1]; decide
  exact ⟨q, _, _, R1, _, _, R2, hrun, h1, rfl, h2, rfl, hR1at, hR2at⟩

/-! ## Loops that paint with one colour -/

theorem Paints_refl (col : RGBA) (a : Image) : Paints col (fun _ _ => False) a a :=
  ⟨rfl, fun _ _ => ⟨fun h => absurd h.1 id, fun _ => rfl⟩⟩

theorem Paints_congr (col : RGBA) (T T2 : Int → Int → Prop) (a b : Image)
    (h : ∀ u v, T u v ↔ T2 u v) (hp : Paints col T a b) : Paints col T2 a b := by
  have : T = T2 := by funext u v; exact propext (h u v)
  rw [← this]; exact hp

theorem Paints_Set (col : RGBA) (a : Image) (x y : Int) :
    Paints col (fun u v => u = x ∧ v = y) a (a.Set x y col) := by
  refine ⟨Set_Rect a x y col, ?_⟩
  intro u v
  rw [Set_px]
  constructor
  · rintro ⟨⟨rfl, rfl⟩, hin⟩
    rw [if_pos ⟨rfl, rfl, hin⟩]
  · intro h
    rw [if_neg]
    rintro ⟨rfl, rfl, hin⟩
    exact h ⟨⟨rfl, rfl⟩, hin⟩

theorem Paints_trans (col : RGBA) (T1 T2 : Int → Int → Prop) (a b c : Image)
    (h1 : Paints col T1 a b) (h2 : Paints col T2 b c) :
    Paints col (fun u v => T1 u v ∨ T2 u v) a c := by
  refine ⟨h2.1.trans h1.1, ?_⟩
  intro u v
  have hb := h1.2 u v
  have hc := h2.2 u v
  rw [h1.1] at hc
  constructor
  · rintro ⟨h, hin⟩
    by_cases ht2 : T2 u v
    · exact hc.1 ⟨ht2, hin⟩
    · rw [hc.2 (fun hh => ht2 hh.1)]
      rcases h with h | h
      · exact hb.1 ⟨h, hin⟩
      · exact absurd h ht2
  · intro h
    rw [hc.2 (fun hh => h ⟨Or.inr hh.1, hh.2⟩), hb.2 (fun hh => h ⟨Or.inl hh.1, hh.2⟩)]

/-- A body that either sets one pixel or does nothing. -/
theorem Paints_cond (col : RGBA) (a b : Image) (x y : Int) (c : Prop)
    (h1 : c → b = a.Set x y col) (h2 : ¬ c → b = a) :
    Paints col (fun u v => c ∧ u = x ∧ v = y) a b := by
  by_cases hc : c
  · rw [h1 hc]
    exact Paints_congr col _ _ _ _ (fun u v => by simp [hc]) (Paints_Set col a x y)
  · rw [h2 hc]
    exact Paints_congr col _ _ _ _ (fun u v => by simp [hc]) (Paints_refl col a)

/-- A counted loop whose body paints `T i` paints the union over the indices it runs
through. -/
theorem Paints_loopN (col : RGBA) (n : Int) (body : Int → Image → Image)
    (T : Int → Int → Int → Prop) (a : Image)
    (hbody : ∀ i st, Paints col (T i) st (body i st)) :
    Paints col (fun u v => ∃ i, 0 ≤ i ∧ i < n ∧ T i u v) a (loopN n body a) := by
  rw [loopN_toNat]
  have key : ∀ k : Nat, Paints col (fun u v => ∃ i, 0 ≤ i ∧ i < (k : Int) ∧ T i u v) a
      (loopN (k : Int) body a) := by
    intro k
    induction k with
    | zero =>
      rw [loopN_zero]
      refine Paints_congr col _ _ _ _ ?_ (Paints_refl col a)
      intro u v
      constructor
      · intro h; exact absurd h id
      · rintro ⟨i, h0, h1, _⟩
        simp only [Nat.cast_zero] at h1
        omega
    | succ k ih =>
      rw [loopN_natCast_succ]
      refine Paints_congr col _ _ _ _ ?_ (Paints_trans col _ _ _ _ _ ih (hbody k _))
      intro u v
      constructor
      · rintro (⟨i, h0, h1, h2⟩ | h)
        · exact ⟨i, h0, by push_cast; omega, h2⟩
        · exact ⟨k, by omega, by push_cast; omega, h⟩
      · rintro ⟨i, h0, h1, h2⟩
        push_cast at h1
        by_cases hik : i = (k : Int)
        · right; rw [← hik]; exact h2
        · left; exact ⟨i, h0, by omega, h2⟩
  refine Paints_congr col _ _ _ _ ?_ (key n.toNat)
  intro u v
  constructor
  · rintro ⟨i, h0, h1, h2⟩; exact ⟨i, h0, by omega, h2⟩
  · rintro ⟨i, h0, h1, h2⟩; exact ⟨i, h0, by omega, h2⟩

/-- The pixels of an image painted on a new canvas. -/
theorem Paints_At_new (col : RGBA) (T : Int → Int → Prop) (R : Rectangle) (b : Image)
    (h : Paints col T (NewRGBA R) b) (u v : Int) :
    (T u v → (Pt u v).In R = true → b.At u v = col) ∧
      (¬ T u v → b.At u v = RGBA.zero) := by
  have hr : b.Rect = R := h.1
  constructor
  · intro ht hin
    unfold Image.At
    rw [hr, if_pos hin]
    exact (h.2 u v).1 ⟨ht, hin⟩
  · intro ht
    unfold Image.At
    split
    · rw [(h.2 u v).2 (fun hh => ht hh.1)]; rfl
    · rfl

/-- The pixels of `rhombus`: painted on a new `h x h` canvas where the two-branch test
of the source holds. -/
theorem rhombus_Paints (col : RGBA) (h : Int) :
    Paints col (fun u v => 0 ≤ v ∧ v < h ∧ 0 ≤ u ∧ u < h ∧
        ((v > h.tdiv 2 ∧ u > h.tdiv 2 - (h - v) ∧ u < h.tdiv 2 + (h - v)) ∨
          (¬ v > h.tdiv 2 ∧ u > h.tdiv 2 - v ∧ u < h.tdiv 2 + v)))
      (NewRGBA (Rect 0 0 h h)) (rhombus col h) := by
  unfold rhombus
  refine Paints_congr col _ _ _ _ ?_ (Paints_loopN col h _
    (fun y u v => 0 ≤ u ∧ u < h ∧ v = y ∧
      ((y > h.tdiv 2 ∧ u > h.tdiv 2 - (h - y) ∧ u < h.tdiv 2 + (h - y)) ∨
        (¬ y > h.tdiv 2 ∧ u > h.tdiv 2 - y ∧ u < h.tdiv 2 + y))) _ ?_)
  · intro u v
    constructor
    · rintro ⟨i, h0, h1, h2, h3, rfl, h5⟩
      exact ⟨h0, h1, h2, h3, h5⟩
    · rintro ⟨h0, h1, h2, h3, h5⟩
      exact ⟨v, h0, h1, h2, h3, rfl, h5⟩
  · intro y st
    refine Paints_congr col _ _ _ _ ?_ (Paints_loopN col h _
      (fun x u v => ((y > h.tdiv 2 ∧ x > h.tdiv 2 - (h - y) ∧ x < h.tdiv 2 + (h - y)) ∨
        (¬ y > h.tdiv 2 ∧ x > h.tdiv 2 - y ∧ x < h.tdiv 2 + y)) ∧ u = x ∧ v = y) _ ?_)
    · intro u v
      constructor
      · rintro ⟨i, h0, h1, h2, rfl, rfl⟩
        exact ⟨h0, h1, rfl, h2⟩
      · rintro ⟨h0, h1, rfl, h2⟩
        exact ⟨u, h0, h1, h2, rfl, rfl⟩
    · intro x st2
      apply Paints_cond
      · intro hc
        split_ifs <;> first | rfl | (exfalso; tauto)
      · intro hc
        split_ifs <;> first | rfl | (exfalso; tauto)

/-! ## The rhombus -/

/-- The pixels of `rhombus` for `h ≥ 0`, in closed form: pixel `(x, y)` of the `h x h`
stamp is `col` when `|x - h/2| < min y (h - y)`, transparent otherwise (and outside
the stamp). -/
theorem rhombus_At (col : RGBA) (h x y : Int) (hh : 0 ≤ h) :
    (rhombus col h).At x y =
      if 0 ≤ x ∧ x < h ∧ 0 ≤ y ∧ y < h ∧ -(min y (h - y)) < x - h / 2 ∧
          x - h / 2 < min y (h - y) then col
      else RGBA.zero := by
  have hp := Paints_At_new col _ _ _ (rhombus_Paints col h) x y
  rw [Int.tdiv_eq_ediv hh (by decide)] at hp
  have hm0 : 0 ≤ h / 2 := Int.ediv_nonneg hh (by decide)
  have hm1 : 2 * (h / 2) ≤ h := by omega
  have hm2 : h < 2 * (h / 2) + 2 := by omega
  by_cases hc : 0 ≤ x ∧ x < h ∧ 0 ≤ y ∧ y < h ∧ -(min y (h - y)) < x - h / 2 ∧
      x - h / 2 < min y (h - y)
  · rw [if_pos hc]
    apply hp.1
    · refine ⟨hc.2.2.1, hc.2.2.2.1, hc.1, hc.2.1, ?_⟩
      omega
    · rw [Rect_of_nonneg hh hh, In_iff]
      exact ⟨hc.1, hc.2.1, hc.2.2.1, hc.2.2.2.1⟩
  · rw [if_neg hc]
    apply hp.2
    rintro ⟨h1, h2, h3, h4, h5⟩
    apply hc
    refine ⟨h3, h4, h1, h2, ?_⟩
    omega

/-- C14. For `h ≥ 1` and `0 ≤ x, y < h`, pixel `(x, y)` of `rhombus col h` is `col`
when `|x - floor(h/2)| < min y (h - y)` and transparent otherwise; so row 0 is empty,
and row `y` equals row `h - y` for `0 < y < h`. -/
theorem rhombus_pixels (col : RGBA) (h x y : Int) (hh : 1 ≤ h) (hx : 0 ≤ x ∧ x < h)
    (hy : 0 ≤ y ∧ y < h) :
    (rhombus col h).At x y = (if |x - h / 2| < min y (h - y) then col else RGBA.zero) ∧
      (rhombus col h).At x 0 = RGBA.zero ∧
      (0 < y → (rhombus col h).At x (h - y) = (rhombus col h).At x y) := by
  have h0 : (0 : Int) ≤ h := by omega
  refine ⟨?_, ?_, ?_⟩
  · rw [rhombus_At col h x y h0]
    by_cases hc : |x - h / 2| < min y (h - y)
    · rw [if_pos hc]
      rw [abs_lt] at hc
      rw [if_pos ⟨hx.1, hx.2, hy.1, hy.2, hc.1, hc.2⟩]
    · rw [if_neg hc, if_neg]
      rintro ⟨_, _, _, _, h5, h6⟩
      exact hc (abs_lt.mpr ⟨h5, h6⟩)
  · rw [rhombus_At col h x 0 h0, if_neg]
    rintro ⟨_, _, _, _, h5, h6⟩
    omega
  · intro hy0
    rw [rhombus_At col h x y h0, rhombus_At col h x (h - y) h0]
    have e : h - (h - y) = y := by ring
    rw [e]
    by_cases hc : 0 ≤ x ∧ x < h ∧ 0 ≤ y ∧ y < h ∧ -(min y (h - y)) < x - h / 2 ∧
        x - h / 2 < min y (h - y)
    · rw [if_pos hc, if_pos]
      refine ⟨hc.1, hc.2.1, by omega, by omega, ?_, ?_⟩
      · rw [min_comm]; exact hc.2.2.2.2.1
      · rw [min_comm]; exact hc.2.2.2.2.2
    · rw [if_neg hc, if_neg]
      rintro ⟨h1, h2, h3, h4, h5, h6⟩
      apply hc
      refine ⟨h1, h2, hy.1, hy.2, ?_, ?_⟩
      · rw [min_comm]; exact h5
      · rw [min_comm]; exact h6

/-- The statement of C14 at pixel (2, 1) of the rhombus of side 4. -/
theorem rhombus_pixels_witness :
    ((1 : Int) ≤ 4 ∧ ((0 : Int) ≤ 2 ∧ (2 : Int) < 4) ∧ ((0 : Int) ≤ 1 ∧ (1 : Int) < 4)) ∧
      (rhombus ⟨0, 0, 0, 255⟩ 4).At 2 1 =
        (if |(2 : Int) - 4 / 2| < min 1 (4 - 1) then ⟨0, 0, 0, 255⟩ else RGBA.zero) :=
  ⟨by decide, (rhombus_pixels ⟨0, 0, 0, 255⟩ 4 2 1 (by decide) (by decide) (by decide)).1⟩

/-- C15 (amended). For `h ≥ 2` and a colour that is not the transparent one, with
`m = floor(h/2)`: the topmost non-empty row of `rhombus col h` is row 1 and the
bottommost is row `h - 1`, each with the single filled pixel `x = m`; the leftmost
non-empty column is column 1 and the rightmost is column `h - 1 - h mod 2`, each filled
exactly at row `m` when `h` is even and exactly at rows `m` and `m + 1` when `h` is
odd. -/
theorem rhombus_vertices (col : RGBA) (h : Int) (hh : 2 ≤ h) (hcol : col ≠ RGBA.zero) :
    ((∀ x y, y < 1 → (rhombus col h).At x y = RGBA.zero) ∧
        (∀ x, (rhombus col h).At x 1 ≠ RGBA.zero ↔ x = h / 2)) ∧
      ((∀ x y, h - 1 < y → (rhombus col h).At x y = RGBA.zero) ∧
        (∀ x, (rhombus col h).At x (h - 1) ≠ RGBA.zero ↔ x = h / 2)) ∧
      ((∀ x y, x < 1 → (rhombus col h).At x y = RGBA.zero) ∧
        (∀ y, (rhombus col h).At 1 y ≠ RGBA.zero ↔
          (y = h / 2 ∨ (h % 2 = 1 ∧ y = h / 2 + 1)))) ∧
      ((∀ x y, h - 1 - h % 2 < x → (rhombus col h).At x y = RGBA.zero) ∧
        (∀ y, (rhombus col h).At (h - 1 - h % 2) y ≠ RGBA.zero ↔
          (y = h / 2 ∨ (h % 2 = 1 ∧ y = h / 2 + 1)))) := by
  have h0 : (0 : Int) ≤ h := by omega
  have empty : ∀ x y, ¬ (0 ≤ x ∧ x < h ∧ 0 ≤ y ∧ y < h ∧ -(min y (h - y)) < x - h / 2 ∧
      x - h / 2 < min y (h - y)) → (rhombus col h).At x y = RGBA.zero := by
    intro x y hc
    rw [rhombus_At col h x y h0, if_neg hc]
  have filled : ∀ x y, (rhombus col h).At x y ≠ RGBA.zero ↔
      (0 ≤ x ∧ x < h ∧ 0 ≤ y ∧ y < h ∧ -(min y (h - y)) < x - h / 2 ∧
        x - h / 2 < min y (h - y)) := by
    intro x y
    rw [rhombus_At col h x y h0]
    by_cases hc : 0 ≤ x ∧ x < h ∧ 0 ≤ y ∧ y < h ∧ -(min y (h - y)) < x - h / 2 ∧
        x - h / 2 < min y (h - y)
    · rw [if_pos hc]; exact ⟨fun _ => hc, fun _ => hcol⟩
    · rw [if_neg hc]; exact ⟨fun hne => absurd rfl hne, fun hh2 => absurd hh2 hc⟩
  refine ⟨⟨?_, ?_⟩, ⟨?_, ?_⟩, ⟨?_, ?_⟩, ⟨?_, ?_⟩⟩
  · intro x y hy; apply empty; omega
  · intro x; rw [filled]; omega
  · intro x y hy; apply empty; omega
  · intro x; rw [filled]; omega
  · intro x y hx; apply empty; omega
  · intro y; rw [filled]; omega
  · intro x y hx; apply empty; omega
  · intro y; rw [filled]; omega

/-- The statement of C15 (amended) at the solid black rhombus of side 4. -/
theorem rhombus_vertices_witness :
    ((2 : Int) ≤ 4 ∧ (⟨0, 0, 0, 255⟩ : RGBA) ≠ RGBA.zero) ∧
      (∀ y, (rhombus ⟨0, 0, 0, 255⟩ 4).At 1 y ≠ RGBA.zero ↔
        (y = 4 / 2 ∨ ((4 : Int) % 2 = 1 ∧ y = 4 / 2 + 1))) :=
  ⟨by decide, (rhombus_vertices ⟨0, 0, 0, 255⟩ 4 (by decide) (by decide)).2.2.1.2⟩

/-- C15 (counterexample). In the solid black rhombus of side 3 every column left of
column 1 is empty, and column 1 holds two filled pixels, (1, 1) and (1, 2): the left
vertex is not a single pixel. -/
theorem rhombus_three_flat_left :
    (∀ x y, x < 1 → (rhombus ⟨0, 0, 0, 255⟩ 3).At x y = RGBA.zero) ∧
      (rhombus ⟨0, 0, 0, 255⟩ 3).At 1 1 = ⟨0, 0, 0, 255⟩ ∧
      (rhombus ⟨0, 0, 0, 255⟩ 3).At 1 2 = ⟨0, 0, 0, 255⟩ ∧
      ¬ (∃ y0, ∀ y, (rhombus ⟨0, 0, 0, 255⟩ 3).At 1 y ≠ RGBA.zero ↔ y = y0) := by
  have h1 : (rhombus ⟨0, 0, 0, 255⟩ 3).At 1 1 = ⟨0, 0, 0, 255⟩ := by
    rw [rhombus_At _ 3 1 1 (by decide)]; decide
  have h2 : (rhombus ⟨0, 0, 0, 255⟩ 3).At 1 2 = ⟨0, 0, 0, 255⟩ := by
    rw [rhombus_At _ 3 1 2 (by decide)]; decide
  refine ⟨?_, h1, h2, ?_⟩
  · intro x y hx
    rw [rhombus_At _ 3 x y (by decide), if_neg]
    omega
  · rintro ⟨y0, hy0⟩
    have e1 : (1 : Int) = y0 := (hy0 1).mp (by rw [h1]; decide)
    have e2 : (2 : Int) = y0 := (hy0 2).mp (by rw [h2]; decide)
    omega

/-! ## The raster of the isosceles triangle -/

/-- The pixels of the apex-up raster: painted on a new `h x (h/2)` canvas where the test
of the source holds. -/
theorem isoscelesRaw_top_Paints (col : RGBA) (h : Int) :
    Paints col (fun u v => ∃ y, 0 ≤ y ∧ y < h ∧ ∃ x, 0 ≤ x ∧ x < h ∧
        (y ≤ h.tdiv 2 ∧ x > h.tdiv 2 - y ∧ x < h.tdiv 2 + y) ∧ u = x ∧ v = y)
      (NewRGBA (Rect 0 0 h (h.tdiv 2))) (isoscelesRaw col h true) := by
  unfold isoscelesRaw
  simp only [if_true]
  exact Paints_loopN col h _ (fun y u v => ∃ x, 0 ≤ x ∧ x < h ∧
      (y ≤ h.tdiv 2 ∧ x > h.tdiv 2 - y ∧ x < h.tdiv 2 + y) ∧ u = x ∧ v = y) _
    (fun y st => Paints_loopN col h _ (fun x u v =>
      (y ≤ h.tdiv 2 ∧ x > h.tdiv 2 - y ∧ x < h.tdiv 2 + y) ∧ u = x ∧ v = y) _
      (fun x st2 => Paints_cond col _ _ x y _ (fun hc => if_pos hc) (fun hc => if_neg hc)))

/-- The pixels of the apex-down raster: painted on a new `h x (h/2)` canvas where the
test of the source holds, `h/2` rows higher than the row tested. -/
theorem isoscelesRaw_bottom_Paints (col : RGBA) (h : Int) :
    Paints col (fun u v => ∃ y, 0 ≤ y ∧ y < h ∧ ∃ x, 0 ≤ x ∧ x < h ∧
        (y > h.tdiv 2 ∧ x > h.tdiv 2 - (h - y) ∧ x < h.tdiv 2 + (h - y)) ∧
          u = x ∧ v = y - h.tdiv 2)
      (NewRGBA (Rect 0 0 h (h.tdiv 2))) (isoscelesRaw col h false) := by
  unfold isoscelesRaw
  simp only [Bool.false_eq_true, if_false]
  exact Paints_loopN col h _ (fun y u v => ∃ x, 0 ≤ x ∧ x < h ∧
      (y > h.tdiv 2 ∧ x > h.tdiv 2 - (h - y) ∧ x < h.tdiv 2 + (h - y)) ∧
        u = x ∧ v = y - h.tdiv 2) _
    (fun y st => Paints_loopN col h _ (fun x u v =>
      (y > h.tdiv 2 ∧ x > h.tdiv 2 - (h - y) ∧ x < h.tdiv 2 + (h - y)) ∧
        u = x ∧ v = y - h.tdiv 2) _
      (fun x st2 => Paints_cond col _ _ x (y - h.tdiv 2) _ (fun hc => if_pos hc)
        (fun hc => if_neg hc)))

/-- The pixels of the apex-up raster for `h ≥ 0`, in closed form. -/
theorem isoscelesRaw_top_At (col : RGBA) (h x j : Int) (hh : 0 ≤ h) :
    (isoscelesRaw col h true).At x j =
      if 0 ≤ x ∧ x < h ∧ 0 ≤ j ∧ j < h / 2 ∧ h / 2 - j < x ∧ x < h / 2 + j then col
      else RGBA.zero := by
  have hp := Paints_At_new col _ _ _ (isoscelesRaw_top_Paints col h) x j
  rw [Int.tdiv_eq_ediv hh (by decide)] at hp
  have hm0 : 0 ≤ h / 2 := Int.ediv_nonneg hh (by decide)
  have hm1 : 2 * (h / 2) ≤ h := by omega
  by_cases hc : 0 ≤ x ∧ x < h ∧ 0 ≤ j ∧ j < h / 2 ∧ h / 2 - j < x ∧ x < h / 2 + j
  · rw [if_pos hc]
    apply hp.1
    · exact ⟨j, hc.2.2.1, by omega, x, hc.1, hc.2.1, ⟨by omega, by omega, by omega⟩, rfl, rfl⟩
    · rw [Rect_of_nonneg hh hm0, In_iff]
      exact ⟨hc.1, hc.2.1, hc.2.2.1, hc.2.2.2.1⟩
  · rw [if_neg hc]
    by_cases hin : (Pt x j).In (Rect 0 0 h (h / 2)) = true
    · apply hp.2
      rintro ⟨y, h1, h2, x0, h3, h4, ⟨h5, h6, h7⟩, eu, ev⟩
      rw [Rect_of_nonneg hh hm0, In_iff] at hin
      have hin2 : 0 ≤ x ∧ x < h ∧ 0 ≤ j ∧ j < h / 2 := hin
      apply hc
      omega
    · have hr : (isoscelesRaw col h true).Rect = Rect 0 0 h (h / 2) := by
        have := (isoscelesRaw_top_Paints col h).1
        rw [Int.tdiv_eq_ediv hh (by decide)] at this
        exact this
      unfold Image.At
      rw [hr, if_neg hin]

/-- The pixels of the apex-down raster for `h ≥ 0`, in closed form: row 0 is never
written. -/
theorem isoscelesRaw_bottom_At (col : RGBA) (h x j : Int) (hh : 0 ≤ h) :
    (isoscelesRaw col h false).At x j =
      if 0 ≤ x ∧ x < h ∧ 1 ≤ j ∧ j < h / 2 ∧ 2 * (h / 2) - h + j < x ∧ x < h - j then col
      else RGBA.zero := by
  have hp := Paints_At_new col _ _ _ (isoscelesRaw_bottom_Paints col h) x j
  rw [Int.tdiv_eq_ediv hh (by decide)] at hp
  have hm0 : 0 ≤ h / 2 := Int.ediv_nonneg hh (by decide)
  have hm1 : 2 * (h / 2) ≤ h := by omega
  by_cases hc : 0 ≤ x ∧ x < h ∧ 1 ≤ j ∧ j < h / 2 ∧ 2 * (h / 2) - h + j < x ∧ x < h - j
  · rw [if_pos hc]
    apply hp.1
    · exact ⟨j + h / 2, by omega, by omega, x, hc.1, hc.2.1, ⟨by omega, by omega, by omega⟩,
        rfl, by omega⟩
    · rw [Rect_of_nonneg hh hm0, In_iff]
      have h0j : 0 ≤ j := by omega
      exact ⟨hc.1, hc.2.1, h0j, hc.2.2.2.1⟩
  · rw [if_neg hc]
    by_cases hin : (Pt x j).In (Rect 0 0 h (h / 2)) = true
    · apply hp.2
      rintro ⟨y, h1, h2, x0, h3, h4, ⟨h5, h6, h7⟩, eu, ev⟩
      rw [Rect_of_nonneg hh hm0, In_iff] at hin
      have hin2 : 0 ≤ x ∧ x < h ∧ 0 ≤ j ∧ j < h / 2 := hin
      apply hc
      omega
    · have hr : (isoscelesRaw col h false).Rect = Rect 0 0 h (h / 2) := by
        have := (isoscelesRaw_bottom_Paints col h).1
        rw [Int.tdiv_eq_ediv hh (by decide)] at this
        exact this
      unfold Image.At
      rw [hr, if_neg hin]

/-- C16. For `h ≥ 2` the raster that `isosceles col h true` stretches is `h` wide and
`floor(h/2)` high, and for `0 ≤ x < h`, `0 ≤ j < floor(h/2)` its pixel `(x, j)` equals
pixel `(x, j)` of `rhombus col h`; so one is filled exactly when the other is. -/
theorem isosceles_top_eq_rhombus (E : Externals) (col : RGBA) (h x j : Int) (hh : 2 ≤ h)
    (hx : 0 ≤ x ∧ x < h) (hj : 0 ≤ j ∧ j < h / 2) :
    isosceles E col h true = Resize E (toUint h) (toUint h) (isoscelesRaw col h true) .Lanczos3 ∧
      (isoscelesRaw col h true).Rect = ⟨⟨0, 0⟩, ⟨h, h / 2⟩⟩ ∧
      (isoscelesRaw col h true).At x j = (rhombus col h).At x j ∧
      ((isoscelesRaw col h true).At x j ≠ RGBA.zero ↔ (rhombus col h).At x j ≠ RGBA.zero) := by
  have h0 : (0 : Int) ≤ h := by omega
  have hm0 : 0 ≤ h / 2 := Int.ediv_nonneg h0 (by decide)
  have hpx : (isoscelesRaw col h true).At x j = (rhombus col h).At x j := by
    rw [isoscelesRaw_top_At col h x j h0, rhombus_At col h x j h0]
    by_cases hc : 0 ≤ x ∧ x < h ∧ 0 ≤ j ∧ j < h / 2 ∧ h / 2 - j < x ∧ x < h / 2 + j
    · rw [if_pos hc, if_pos]
      omega
    · rw [if_neg hc, if_neg]
      intro hr
      apply hc
      omega
  refine ⟨rfl, ?_, hpx, by rw [hpx]⟩
  have hr := (isoscelesRaw_top_Paints col h).1
  rw [Int.tdiv_eq_ediv h0 (by decide), Rect_of_nonneg h0 hm0] at hr
  exact hr

/-- The statement of C16 at pixel (2, 1) of the apex-up raster of side 4. -/
theorem isosceles_top_eq_rhombus_witness :
    ((2 : Int) ≤ 4 ∧ ((0 : Int) ≤ 2 ∧ (2 : Int) < 4) ∧ ((0 : Int) ≤ 1 ∧ (1 : Int) < 4 / 2)) ∧
      (isoscelesRaw ⟨0, 0, 0, 255⟩ 4 true).At 2 1 = (rhombus ⟨0, 0, 0, 255⟩ 4).At 2 1 :=
  ⟨by decide, (isosceles_top_eq_rhombus sampleExternals ⟨0, 0, 0, 255⟩ 4 2 1 (by decide)
    (by decide) (by decide)).2.2.1⟩

/-- C17 (amended). For `h ≥ 2` the raster that `isosceles col h false` stretches is `h`
wide and `floor(h/2)` high; for `0 ≤ x < h` and `1 ≤ j < floor(h/2)` its pixel `(x, j)`
equals pixel `(x, j + floor(h/2))` of `rhombus col h`, and its row 0 is transparent: the
widest row of the rhombus, row `floor(h/2)`, is not copied. -/
theorem isosceles_bottom_eq_rhombus (E : Externals) (col : RGBA) (h x j : Int) (hh : 2 ≤ h)
    (hx : 0 ≤ x ∧ x < h) (hj : 0 ≤ j ∧ j < h / 2) :
    isosceles E col h false =
        Resize E (toUint h) (toUint h) (isoscelesRaw col h false) .Lanczos3 ∧
      (isoscelesRaw col h false).Rect = ⟨⟨0, 0⟩, ⟨h, h / 2⟩⟩ ∧
      (isoscelesRaw col h false).At x j =
        (if 1 ≤ j then (rhombus col h).At x (j + h / 2) else RGBA.zero) := by
  have h0 : (0 : Int) ≤ h := by omega
  have hm0 : 0 ≤ h / 2 := Int.ediv_nonneg h0 (by decide)
  refine ⟨rfl, ?_, ?_⟩
  · have hr := (isoscelesRaw_bottom_Paints col h).1
    rw [Int.tdiv_eq_ediv h0 (by decide), Rect_of_nonneg h0 hm0] at hr
    exact hr
  · rw [isoscelesRaw_bottom_At col h x j h0]
    by_cases h1 : 1 ≤ j
    · rw [if_pos h1, rhombus_At col h x (j + h / 2) h0]
      by_cases hc : 0 ≤ x ∧ x < h ∧ 1 ≤ j ∧ j < h / 2 ∧ 2 * (h / 2) - h + j < x ∧ x < h - j
      · rw [if_pos hc, if_pos]
        omega
      · rw [if_neg hc, if_neg]
        intro hr
        apply hc
        omega
    · rw [if_neg h1, if_neg]
      omega

/-- The statement of C17 (amended) at pixel (2, 1) of the apex-down raster of side 6. -/
theorem isosceles_bottom_eq_rhombus_witness :
    ((2 : Int) ≤ 6 ∧ ((0 : Int) ≤ 2 ∧ (2 : Int) < 6) ∧ ((0 : Int) ≤ 1 ∧ (1 : Int) < 6 / 2)) ∧
      (isoscelesRaw ⟨0, 0, 0, 255⟩ 6 false).At 2 1 =
        (if (1 : Int) ≤ 1 then (rhombus ⟨0, 0, 0, 255⟩ 6).At 2 (1 + 6 / 2) else RGBA.zero) :=
  ⟨by decide, (isosceles_bottom_eq_rhombus sampleExternals ⟨0, 0, 0, 255⟩ 6 2 1 (by decide)
    (by decide) (by decide)).2.2⟩

/-- C17 (counterexample). For `h = 4` and `j = 0` (within `0 ≤ j < floor(h/2) = 2`),
pixel (1, 0) of the apex-down raster is transparent while pixel (1, 0 + 2) of the solid
black rhombus of side 4 is filled. -/
theorem isosceles_bottom_row_zero_empty :
    (isoscelesRaw ⟨0, 0, 0, 255⟩ 4 false).At 1 0 = RGBA.zero ∧
      (rhombus ⟨0, 0, 0, 255⟩ 4).At 1 (0 + 4 / 2) = ⟨0, 0, 0, 255⟩ ∧
      ¬ ((isoscelesRaw ⟨0, 0, 0, 255⟩ 4 false).At 1 0 ≠ RGBA.zero ↔
        (rhombus ⟨0, 0, 0, 255⟩ 4).At 1 (0 + 4 / 2) ≠ RGBA.zero) := by
  have h1 : (isoscelesRaw ⟨0, 0, 0, 255⟩ 4 false).At 1 0 = RGBA.zero := by
    rw [isoscelesRaw_bottom_At _ 4 1 0 (by decide)]; decide
  have h2 : (rhombus ⟨0, 0, 0, 255⟩ 4).At 1 (0 + 4 / 2) = ⟨0, 0, 0, 255⟩ := by
    rw [rhombus_At _ 4 1 (0 + 4 / 2) (by decide)]; decide
  refine ⟨h1, h2, ?_⟩
  rw [h1, h2]
  decide

/-! ## The rounded rectangle -/

/-- Four consecutive `Set`s under one test. -/
theorem Paints_cond4 (col : RGBA) (a : Image) (x1 y1 x2 y2 x3 y3 x4 y4 : Int) (c : Prop)
    [Decidable c] :
    Paints col (fun u v => c ∧ ((((u = x1 ∧ v = y1) ∨ (u = x2 ∧ v = y2)) ∨
        (u = x3 ∧ v = y3)) ∨ (u = x4 ∧ v = y4))) a
      (if c then (((a.Set x1 y1 col).Set x2 y2 col).Set x3 y3 col).Set x4 y4 col else a) := by
  by_cases hc : c
  · rw [if_pos hc]
    refine Paints_congr col _ _ _ _ (fun u v => by simp only [hc, true_and])
      (Paints_trans col _ _ _ _ _ (Paints_trans col _ _ _ _ _ (Paints_trans col _ _ _ _ _
        (Paints_Set col a x1 y1) (Paints_Set col _ x2 y2)) (Paints_Set col _ x3 y3))
        (Paints_Set col _ x4 y4))
  · rw [if_neg hc]
    exact Paints_congr col _ _ _ _ (fun u v => by simp only [hc, false_and])
      (Paints_refl col a)

/-- The pixels of `rectangle`: painted on a new `w x h` canvas where the four-corner test
of the first loop holds, and, when `r > 0`, at the four copies of the disk of the second
loop. -/
theorem rectangle_Paints (col : RGBA) (w h r : Int) :
    Paints col (fun u v =>
        (∃ y, 0 ≤ y ∧ y < h ∧ ∃ x, 0 ≤ x ∧ x < w ∧
          ((x ≥ r ∨ y ≥ r) ∧ (x ≤ w - r ∨ y ≤ h - r) ∧ (x ≥ r ∨ y ≤ h - r) ∧
            (x ≤ w - r ∨ y ≥ r)) ∧ u = x ∧ v = y) ∨
        (∃ xx, 0 ≤ xx ∧ xx < r * 2 ∧ ∃ yy, 0 ≤ yy ∧ yy < r * 2 ∧
          ((xx - r) * (xx - r) + (yy - r) * (yy - r) ≤ r * r) ∧
            ((((u = xx ∧ v = yy) ∨ (u = (w - 2 * r) + xx ∧ v = yy)) ∨
              (u = xx ∧ v = (h - 2 * r) + yy)) ∨
              (u = (w - 2 * r) + xx ∧ v = (h - 2 * r) + yy))))
      (NewRGBA (Rect 0 0 w h)) (rectangle col w h r) := by
  have h1 : Paints col (fun u v => ∃ y, 0 ≤ y ∧ y < h ∧ ∃ x, 0 ≤ x ∧ x < w ∧
      ((x ≥ r ∨ y ≥ r) ∧ (x ≤ w - r ∨ y ≤ h - r) ∧ (x ≥ r ∨ y ≤ h - r) ∧
        (x ≤ w - r ∨ y ≥ r)) ∧ u = x ∧ v = y) (NewRGBA (Rect 0 0 w h))
      (loopN h (fun y img => loopN w (fun x img =>
        if (x ≥ r ∨ y ≥ r) ∧ (x ≤ w - r ∨ y ≤ h - r) ∧ (x ≥ r ∨ y ≤ h - r) ∧
            (x ≤ w - r ∨ y ≥ r) then img.Set x y col
        else img) img) (NewRGBA (Rect 0 0 w h))) :=
    Paints_loopN col h _ (fun y u v => ∃ x, 0 ≤ x ∧ x < w ∧
        ((x ≥ r ∨ y ≥ r) ∧ (x ≤ w - r ∨ y ≤ h - r) ∧ (x ≥ r ∨ y ≤ h - r) ∧
          (x ≤ w - r ∨ y ≥ r)) ∧ u = x ∧ v = y) _
      (fun y st => Paints_loopN col w _ (fun x u v =>
        ((x ≥ r ∨ y ≥ r) ∧ (x ≤ w - r ∨ y ≤ h - r) ∧ (x ≥ r ∨ y ≤ h - r) ∧
          (x ≤ w - r ∨ y ≥ r)) ∧ u = x ∧ v = y) _
        (fun x st2 => Paints_cond col _ _ x y _ (fun hc => if_pos hc) (fun hc => if_neg hc)))
  have h2 : ∀ a : Image, Paints col (fun u v =>
      ∃ xx, 0 ≤ xx ∧ xx < r * 2 ∧ ∃ yy, 0 ≤ yy ∧ yy < r * 2 ∧
        ((xx - r) * (xx - r) + (yy - r) * (yy - r) ≤ r * r) ∧
          ((((u = xx ∧ v = yy) ∨ (u = (w - 2 * r) + xx ∧ v = yy)) ∨
            (u = xx ∧ v = (h - 2 * r) + yy)) ∨
            (u = (w - 2 * r) + xx ∧ v = (h - 2 * r) + yy))) a
      (loopN (r * 2) (fun xx img => loopN (r * 2) (fun yy img =>
        if (xx - r) * (xx - r) + (yy - r) * (yy - r) ≤ r * r then
          (((img.Set xx yy col).Set ((w - 2 * r) + xx) yy col).Set xx ((h - 2 * r) + yy) col).Set
            ((w - 2 * r) + xx) ((h - 2 * r) + yy) col
        else img) img) a) := fun a =>
    Paints_loopN col (r * 2) _ (fun xx u v => ∃ yy, 0 ≤ yy ∧ yy < r * 2 ∧
        ((xx - r) * (xx - r) + (yy - r) * (yy - r) ≤ r * r) ∧
          ((((u = xx ∧ v = yy) ∨ (u = (w - 2 * r) + xx ∧ v = yy)) ∨
            (u = xx ∧ v = (h - 2 * r) + yy)) ∨
            (u = (w - 2 * r) + xx ∧ v = (h - 2 * r) + yy))) _
      (fun xx st => Paints_loopN col (r * 2) _ (fun yy u v =>
        ((xx - r) * (xx - r) + (yy - r) * (yy - r) ≤ r * r) ∧
          ((((u = xx ∧ v = yy) ∨ (u = (w - 2 * r) + xx ∧ v = yy)) ∨
            (u = xx ∧ v = (h - 2 * r) + yy)) ∨
            (u = (w - 2 * r) + xx ∧ v = (h - 2 * r) + yy))) _
        (fun yy st2 => Paints_cond4 col st2 _ _ _ _ _ _ _ _ _))
  unfold rectangle
  by_cases hr : r > 0
  · simp only [if_pos hr]
    exact Paints_trans col _ _ _ _ _ h1 (h2 _)
  · simp only [if_neg hr]
    refine Paints_congr col _ _ _ _ ?_ h1
    intro u v
    constructor
    · intro hh; exact Or.inl hh
    · rintro (hh | ⟨xx, h0, h3, _⟩)
      · exact hh
      · omega

/-- A pixel coordinate in a corner strip is at least as close to the centre of its own
corner as to the centre of any disk copy that reaches it. -/
theorem own_corner_le (r w x xx : Int) (hw : 2 * r ≤ w)
    (hz : x < r ∨ x > w - r) (hxx : x = xx ∨ x = (w - 2 * r) + xx) :
    (x - (if x < r then r else w - r)) * (x - (if x < r then r else w - r)) ≤
      (xx - r) * (xx - r) := by
  by_cases hlt : x < r
  · rw [if_pos hlt]
    rcases hxx with e | e
    · rw [← e]
    · have e2 : xx - r = x - (w - r) := by omega
      rw [e2]
      nlinarith [mul_nonneg (show (0 : Int) ≤ (w - r - x) - (r - x) by omega)
        (show (0 : Int) ≤ (w - r - x) + (r - x) by omega)]
  · rw [if_neg hlt]
    have hgt : x > w - r := by omega
    rcases hxx with e | e
    · rw [← e]
      nlinarith [mul_nonneg (show (0 : Int) ≤ (x - r) - (x - (w - r)) by omega)
        (show (0 : Int) ≤ (x - r) + (x - (w - r)) by omega)]
    · have e2 : xx - r = x - (w - r) := by omega
      rw [e2]

/-- The pixels of `rectangle` for `0 ≤ 2r ≤ min w h`, in closed form: inside the stamp
a pixel is transparent when it lies in a corner zone and fails the disk test of that
corner, and `col` otherwise. -/
theorem rectangle_At (col : RGBA) (w h r x y : Int) (hr : 0 ≤ r) (hw : 2 * r ≤ w)
    (hh : 2 * r ≤ h) (hx : 0 ≤ x ∧ x < w) (hy : 0 ≤ y ∧ y < h) :
    (rectangle col w h r).At x y =
      if ((x < r ∨ x > w - r) ∧ (y < r ∨ y > h - r)) ∧
          ¬ ((x - (if x < r then r else w - r)) * (x - (if x < r then r else w - r)) +
            (y - (if y < r then r else h - r)) * (y - (if y < r then r else h - r)) ≤ r * r)
      then RGBA.zero else col := by
  have hp := Paints_At_new col _ _ _ (rectangle_Paints col w h r) x y
  have hin : (Pt x y).In (Rect 0 0 w h) = true := by
    rw [Rect_of_nonneg (by omega) (by omega), In_iff]
    exact ⟨hx.1, hx.2, hy.1, hy.2⟩
  by_cases hz : (x < r ∨ x > w - r) ∧ (y < r ∨ y > h - r)
  · by_cases hd : (x - (if x < r then r else w - r)) * (x - (if x < r then r else w - r)) +
        (y - (if y < r then r else h - r)) * (y - (if y < r then r else h - r)) ≤ r * r
    · rw [if_neg (fun hc => hc.2 hd)]
      apply hp.1 _ hin
      right
      refine ⟨x - ((if x < r then r else w - r) - r), ?_, ?_,
        y - ((if y < r then r else h - r) - r), ?_, ?_, ?_, ?_⟩
      · split_ifs <;> omega
      · split_ifs <;> omega
      · split_ifs <;> omega
      · split_ifs <;> omega
      · have e1 : x - ((if x < r then r else w - r) - r) - r =
            x - (if x < r then r else w - r) := by ring
        have e2 : y - ((if y < r then r else h - r) - r) - r =
            y - (if y < r then r else h - r) := by ring
        rw [e1, e2]
        exact hd
      · by_cases h1 : x < r <;> by_cases h2 : y < r
        · rw [if_pos h1, if_pos h2]; left; left; left; constructor <;> ring
        · rw [if_pos h1, if_neg h2]; left; right; constructor <;> ring
        · rw [if_neg h1, if_pos h2]; left; left; right; constructor <;> ring
        · rw [if_neg h1, if_neg h2]; right; constructor <;> ring
    · rw [if_pos ⟨hz, hd⟩]
      apply hp.2
      rintro (⟨y0, h1, h2, x0, h3, h4, hc, eu, ev⟩ | ⟨xx, h1, h2, yy, h3, h4, hdisk, hpos⟩)
      · omega
      · apply hd
        have hxx : x = xx ∨ x = (w - 2 * r) + xx := by
          rcases hpos with ((⟨e, _⟩ | ⟨e, _⟩) | ⟨e, _⟩) | ⟨e, _⟩
          · exact Or.inl e
          · exact Or.inr e
          · exact Or.inl e
          · exact Or.inr e
        have hyy : y = yy ∨ y = (h - 2 * r) + yy := by
          rcases hpos with ((⟨_, e⟩ | ⟨_, e⟩) | ⟨_, e⟩) | ⟨_, e⟩
          · exact Or.inl e
          · exact Or.inl e
          · exact Or.inr e
          · exact Or.inr e
        have k1 := own_corner_le r w x xx hw hz.1 hxx
        have k2 := own_corner_le r h y yy hh hz.2 hyy
        exact le_trans (add_le_add k1 k2) hdisk
  · rw [if_neg (fun hc => hz hc.1)]
    apply hp.1 _ hin
    left
    refine ⟨y, hy.1, hy.2, x, hx.1, hx.2, ?_, rfl, rfl⟩
    omega

/-- C13. For `0 ≤ 2r ≤ min w h` and a pixel `(x, y)` of the `w x h` stamp, the pixel of
`rectangle col w h r` is transparent when it lies in a corner zone
(`(x < r ∨ x > w-r) ∧ (y < r ∨ y > h-r)`) and fails the disk test for the centre of that
corner, and is exactly `col` otherwise; with `r = 0` every pixel of the stamp is `col`. -/
theorem rectangle_pixels (col : RGBA) (w h r x y : Int) (hr : 0 ≤ 2 * r)
    (hwh : 2 * r ≤ min w h) (hx : 0 ≤ x ∧ x < w) (hy : 0 ≤ y ∧ y < h) :
    (rectangle col w h r).At x y =
        (if ((x < r ∨ x > w - r) ∧ (y < r ∨ y > h - r)) ∧
            ¬ ((x - (if x < r then r else w - r)) * (x - (if x < r then r else w - r)) +
              (y - (if y < r then r else h - r)) * (y - (if y < r then r else h - r)) ≤ r * r)
        then RGBA.zero else col) ∧
      (r = 0 → (rectangle col w h r).At x y = col) := by
  have hr0 : 0 ≤ r := by omega
  have hw : 2 * r ≤ w := le_trans hwh (min_le_left w h)
  have hh : 2 * r ≤ h := le_trans hwh (min_le_right w h)
  have key := rectangle_At col w h r x y hr0 hw hh hx hy
  refine ⟨key, ?_⟩
  intro h0
  rw [key, if_neg]
  rintro ⟨hz, _⟩
  omega

/-- The statement of C13 at the corner pixel (0, 0) of a 6 x 6 stamp with radius 2. -/
theorem rectangle_pixels_witness :
    ((0 : Int) ≤ 2 * 2 ∧ (2 : Int) * 2 ≤ min 6 6 ∧ ((0 : Int) ≤ 0 ∧ (0 : Int) < 6)) ∧
      (rectangle ⟨0, 0, 0, 255⟩ 6 6 2).At 0 0 = RGBA.zero := by
  refine ⟨by decide, ?_⟩
  rw [(rectangle_pixels ⟨0, 0, 0, 255⟩ 6 6 2 0 0 (by decide) (by decide) (by decide)
    (by decide)).1]
  decide

/-! ## The sampling points of the foreground image -/

/-- The image stored by `ForeImage` is `size x size` when the source starts at the
origin and has pixels. -/
theorem ForeImage_Rect (E : Externals) (p : PersonaQrCode) (img : Image) (b : Bool)
    (W H : Int) (hS : 1 ≤ p.size) (hS64 : p.size < 2 ^ 63)
    (hrect : img.Rect = ⟨⟨0, 0⟩, ⟨W, H⟩⟩) (hW : 0 < W) (hH : 0 < H) :
    ∃ f, (ForeImage E p img b).foreImage = some f ∧
      f.Rect = ⟨⟨0, 0⟩, ⟨p.size, p.size⟩⟩ := by
  have hu : ((toUint p.size : Nat) : Int) = p.size := by
    unfold toUint
    rw [Int.toNat_of_nonneg (Int.emod_nonneg _ (by norm_num))]
    exact Int.emod_eq_of_lt (by omega) (by omega)
  have hu0 : toUint p.size ≠ 0 := by
    intro h0
    rw [h0] at hu
    simp only [Nat.cast_zero] at hu
    omega
  have hdx : img.Bounds.Dx = W := by
    simp only [Image.Bounds, Rectangle.Dx, hrect]; omega
  have hdy : img.Bounds.Dy = H := by
    simp only [Image.Bounds, Rectangle.Dy, hrect]; omega
  have hmx : img.Bounds.Max.X = W := by simp only [Image.Bounds, hrect]
  have hmy : img.Bounds.Max.Y = H := by simp only [Image.Bounds, hrect]
  unfold ForeImage
  by_cases hc : p.size ≠ img.Bounds.Max.X ∨ p.size ≠ img.Bounds.Max.Y
  · refine ⟨Resize E (toUint p.size) (toUint p.size) img .Bilinear, ?_, ?_⟩
    · simp only [if_pos hc]
    · rw [Resize_Rect E _ _ img _ hu0 hu0 (by omega) (by omega)
        (by rw [hu, hdx, hdy]; rw [hmx, hmy] at hc; omega), hu]
  · refine ⟨img, ?_, ?_⟩
    · simp only [if_neg hc]
    · rw [hmx, hmy] at hc
      have h1 : p.size = W := by omega
      have h2 : p.size = H := by omega
      rw [hrect, ← h2, ← h1]

/-- The numeric core of the sampling bound: module `x` of `N` starts before `S`. -/
theorem mul_pitch_lt (S N x : Int) (hS : 1 ≤ S) (hN : 1 ≤ N) (hx : 0 ≤ x ∧ x < N) :
    0 ≤ x * pitch S N ∧ x * pitch S N < S := by
  rw [pitch_eq_tdiv, Int.tdiv_eq_ediv (by omega) (by omega)]
  have hT : 0 ≤ S / N := Int.ediv_nonneg (by omega) (by omega)
  have h1 : N * (S / N) ≤ S := Int.mul_ediv_self_le (by omega)
  have h2 : x * (S / N) ≤ (N - 1) * (S / N) :=
    Int.mul_le_mul_of_nonneg_right (by omega) hT
  have h3 : (N - 1) * (S / N) = N * (S / N) - S / N := by ring
  constructor
  · exact mul_nonneg hx.1 hT
  · by_cases h0 : S / N = 0
    · rw [h0, mul_zero]; omega
    · omega

/-- C18. For `S ≥ 1`, `N ≥ 1` and a module `(x, y)` with `0 ≤ x, y < N`, the point
`(x*T, y*T)` with `T = pitch S N` satisfies `0 ≤ x*T < S` and `0 ≤ y*T < S`; so in
every `S x S` image at the origin the lookup that `drawModule` makes reads a pixel of
the image, not the value for a point outside it. -/
theorem sample_point_inside (S N x y : Int) (hS : 1 ≤ S) (hN : 1 ≤ N)
    (hx : 0 ≤ x ∧ x < N) (hy : 0 ≤ y ∧ y < N) :
    (0 ≤ x * pitch S N ∧ x * pitch S N < S) ∧ (0 ≤ y * pitch S N ∧ y * pitch S N < S) ∧
      ∀ f : Image, f.Rect = ⟨⟨0, 0⟩, ⟨S, S⟩⟩ →
        (Pt (x * pitch S N) (y * pitch S N)).In f.Bounds = true ∧
          f.At (x * pitch S N) (y * pitch S N) = f.px (x * pitch S N) (y * pitch S N) := by
  have kx := mul_pitch_lt S N x hS hN hx
  have ky := mul_pitch_lt S N y hS hN hy
  refine ⟨kx, ky, ?_⟩
  intro f hf
  have hin : (Pt (x * pitch S N) (y * pitch S N)).In f.Rect = true := by
    rw [hf, In_iff]
    exact ⟨kx.1, kx.2, ky.1, ky.2⟩
  refine ⟨hin, ?_⟩
  unfold Image.At
  rw [if_pos hin]

/-- The statement of C18 at module (20, 20) of a 21-module code on a 200-pixel
canvas (pitch 9). -/
theorem sample_point_inside_witness :
    ((1 : Int) ≤ 200 ∧ (1 : Int) ≤ 21 ∧ ((0 : Int) ≤ 20 ∧ (20 : Int) < 21)) ∧
      (0 ≤ 20 * pitch 200 21 ∧ 20 * pitch 200 21 < 200) :=
  ⟨by decide, (sample_point_inside 200 21 20 20 (by decide) (by decide) (by decide)
    (by decide)).1⟩

/-! ## The footprints inside a bull's-eye patch -/

/-- The patch of `bullEyePatch` is composited at the offsets and sizes named `oSize`,
`oOffset`, `iSize` and `iOffset`. -/
theorem bullEyePatch_footprints (E : Externals) (size : Int) (foreground pBackground : RGBA)
    (os is : BullEyeStyle) :
    bullEyePatch E size foreground pBackground os is =
      Draw
        (if pBackground.A = 0 then
          clearWhite (Draw
            (Draw (NewRGBA (Rect 0 0 size size)) (NewRGBA (Rect 0 0 size size)).Bounds
              (Resize E (toUint size) (toUint size) (bullEyeShape os foreground size) .Bilinear)
              (Pt 0 0))
            ((NewRGBA (Rect 0 0 size size)).Bounds.Add (Pt (oOffset size) (oOffset size)))
            (Resize E (toUint (oSize size)) (toUint (oSize size))
              (bullEyeShape os (if pBackground.A = 0 then ⟨255, 255, 255, 255⟩ else pBackground)
                size) .Bilinear)
            (Pt 0 0))
        else
          Draw
            (Draw (NewRGBA (Rect 0 0 size size)) (NewRGBA (Rect 0 0 size size)).Bounds
              (Resize E (toUint size) (toUint size) (bullEyeShape os foreground size) .Bilinear)
              (Pt 0 0))
            ((NewRGBA (Rect 0 0 size size)).Bounds.Add (Pt (oOffset size) (oOffset size)))
            (Resize E (toUint (oSize size)) (toUint (oSize size))
              (bullEyeShape os (if pBackground.A = 0 then ⟨255, 255, 255, 255⟩ else pBackground)
                size) .Bilinear)
            (Pt 0 0))
        ((NewRGBA (Rect 0 0 size size)).Bounds.Add (Pt (iOffset size) (iOffset size)))
        (Resize E (toUint (iSize size)) (toUint (iSize size)) (bullEyeShape is foreground size)
          .Lanczos3)
        (Pt 0 0) := by
  unfold bullEyePatch
  by_cases hA : pBackground.A = 0
  · simp only [hA, if_true, Image.Bounds, Draw_Rect, clearWhite_Rect]
    rfl
  · simp only [hA, if_false, Image.Bounds, Draw_Rect]
    rfl

/-- C19. For `S ≥ 7` with `u = floor(S/7)`: the inner blob (side `3u`, offset
`floor((S-3u)/2)`) is inset by exactly `u` on all four sides from the cover (side `5u`,
offset `floor((S-5u)/2)`), and the cover lies inside the `S x S` patch with margins on
opposite sides that are at least `u` and differ by at most one pixel. -/
theorem bullEye_footprints_nested (S : Int) (hS : 7 ≤ S) :
    (uniform S = S / 7 ∧ oSize S = 5 * (S / 7) ∧ oOffset S = (S - 5 * (S / 7)) / 2 ∧
        iSize S = 3 * (S / 7) ∧ iOffset S = (S - 3 * (S / 7)) / 2) ∧
      (iOffset S - oOffset S = uniform S ∧
        (oOffset S + oSize S) - (iOffset S + iSize S) = uniform S) ∧
      (0 ≤ oOffset S ∧ oOffset S + oSize S ≤ S) ∧
      (uniform S ≤ oOffset S ∧ uniform S ≤ S - (oOffset S + oSize S)) ∧
      (oOffset S ≤ S - (oOffset S + oSize S) ∧ S - (oOffset S + oSize S) - oOffset S ≤ 1) := by
  have hu : uniform S = S / 7 := by
    unfold uniform
    exact Int.tdiv_eq_ediv (by omega) (by decide)
  have ho : oSize S = 5 * (S / 7) := by
    unfold oSize; rw [hu]; ring
  have hi : iSize S = 3 * (S / 7) := by
    unfold iSize; rw [hu]; ring
  have hoo : oOffset S = (S - 5 * (S / 7)) / 2 := by
    unfold oOffset
    rw [ho]
    exact Int.tdiv_eq_ediv (by omega) (by decide)
  have hio : iOffset S = (S - 3 * (S / 7)) / 2 := by
    unfold iOffset
    rw [hi]
    exact Int.tdiv_eq_ediv (by omega) (by decide)
  refine ⟨⟨hu, ho, hoo, hi, hio⟩, ?_⟩
  rw [hu, ho, hoo, hi, hio]
  omega

/-- The statement of C19 at the patch of side 30 (`u = 4`, cover 20 at 5, inner 12
at 9). -/
theorem bullEye_footprints_nested_witness :
    (7 : Int) ≤ 30 ∧ (iOffset 30 - oOffset 30 = uniform 30 ∧
      (oOffset 30 + oSize 30) - (iOffset 30 + iSize 30) = uniform 30) :=
  ⟨by decide, (bullEye_footprints_nested 30 (by decide)).2.1⟩

/-! ## The border of Result -/

/-- Lines 86-97 of `Result` on a canvas of side `size` with `1 ≤ thick` and
`2 * thick < size`: the result has side `size`, every pixel outside
`[thick, size - thick) x [thick, size - thick)` is the background colour, and every pixel
inside is the pixel of the canvas resampled to side `size - 2 * thick`, over the
background colour. -/
theorem resultBorder_frame (E : Externals) (size thick : Int) (bg : RGBA) (canvas : Image)
    (hS2 : size < 2 ^ 63) (hT : 1 ≤ thick) (hTS : 2 * thick < size)
    (hrect : canvas.Rect = ⟨⟨0, 0⟩, ⟨size, size⟩⟩) :
    ∃ d, resultBorder E size thick (some bg) canvas = some d ∧
      d.Rect = ⟨⟨0, 0⟩, ⟨size, size⟩⟩ ∧
      (∀ u v, 0 ≤ u → u < size → 0 ≤ v → v < size →
        (u < thick ∨ size - thick ≤ u ∨ v < thick ∨ size - thick ≤ v) → d.At u v = bg) ∧
      (∀ u v, thick ≤ u → u < size - thick → thick ≤ v → v < size - thick →
        d.At u v = over ((Resize E (size - thick * 2).toNat (size - thick * 2).toNat canvas
          .Lanczos3).At (u - thick) (v - thick)) bg) := by
  have hfresh : (NewRGBA (Rect 0 0 size size)).Rect = ⟨⟨0, 0⟩, ⟨size, size⟩⟩ := by
    show Rect 0 0 size size = _
    rw [Rect_of_nonneg (by omega) (by omega)]
  obtain ⟨f1, f2⟩ := fillRows_px (NewRGBA (Rect 0 0 size size)) bg size size
  have hu : toUint (canvas.Bounds.Max.X - thick * 2) = (size - thick * 2).toNat := by
    simp only [Image.Bounds, hrect]
    rw [toUint_of_nonneg_lt (by omega) (by omega)]
  have hv : toUint (canvas.Bounds.Max.Y - thick * 2) = (size - thick * 2).toNat := by
    simp only [Image.Bounds, hrect]
    rw [toUint_of_nonneg_lt (by omega) (by omega)]
  have hc : (((size - thick * 2).toNat : Nat) : Int) = size - thick * 2 :=
    Int.toNat_of_nonneg (by omega)
  have hn0 : (size - thick * 2).toNat ≠ 0 := by omega
  have hdx : canvas.Bounds.Dx = size := by
    simp only [Image.Bounds, Rectangle.Dx, hrect]; omega
  have hdy : canvas.Bounds.Dy = size := by
    simp only [Image.Bounds, Rectangle.Dy, hrect]; omega
  have hsrc : (Resize E (size - thick * 2).toNat (size - thick * 2).toNat canvas
      .Lanczos3).Rect = ⟨⟨0, 0⟩, ⟨size - thick * 2, size - thick * 2⟩⟩ := by
    rw [Resize_Rect E _ _ canvas _ hn0 hn0 (by omega) (by omega) (by omega), hc]
  have hrb : resultBorder E size thick (some bg) canvas =
      some (Draw (loopN size (fun y img => loopN size (fun x img => img.Set x y bg) img)
          (NewRGBA (Rect 0 0 size size)))
        ((loopN size (fun y img => loopN size (fun x img => img.Set x y bg) img)
          (NewRGBA (Rect 0 0 size size))).Bounds.Add (Pt thick thick))
        (Resize E (size - thick * 2).toNat (size - thick * 2).toNat canvas .Lanczos3)
        (Pt 0 0)) := by
    unfold resultBorder fillLoop
    simp only [Option.bind_eq_bind, Option.some_bind]
    rw [hu, hv]
  have hfill : ∀ u v, 0 ≤ u → u < size → 0 ≤ v → v < size →
      (loopN size (fun y img => loopN size (fun x img => img.Set x y bg) img)
        (NewRGBA (Rect 0 0 size size))).At u v = bg := by
    intro u v hu0 hu1 hv0 hv1
    have hinF : (Pt u v).In ⟨⟨0, 0⟩, ⟨size, size⟩⟩ = true := by
      rw [In_iff]; exact ⟨hu0, hu1, hv0, hv1⟩
    unfold Image.At
    rw [f1, hfresh, if_pos hinF, f2, hfresh, if_pos ⟨hv0, hv1, hu0, hu1, hinF⟩]
  have e1 : ∀ u : Int, u - ((loopN size (fun y img => loopN size (fun x img =>
      img.Set x y bg) img) (NewRGBA (Rect 0 0 size size))).Bounds.Add
        (Pt thick thick)).Min.X + (Pt 0 0).X = u - thick := by
    intro u
    simp only [Image.Bounds, f1, hfresh, Rectangle.Add, Pt]; omega
  have e2 : ∀ v : Int, v - ((loopN size (fun y img => loopN size (fun x img =>
      img.Set x y bg) img) (NewRGBA (Rect 0 0 size size))).Bounds.Add
        (Pt thick thick)).Min.Y + (Pt 0 0).Y = v - thick := by
    intro v
    simp only [Image.Bounds, f1, hfresh, Rectangle.Add, Pt]; omega
  refine ⟨_, hrb, ?_, ?_, ?_⟩
  · rw [Draw_Rect, f1, hfresh]
  · intro u v hu0 hu1 hv0 hv1 hedge
    rw [Draw_At_of_not_src, hfill u v hu0 hu1 hv0 hv1]
    rw [e1, e2, hsrc]
    cases hin : (Pt (u - thick) (v - thick)).In
        ⟨⟨0, 0⟩, ⟨size - thick * 2, size - thick * 2⟩⟩ with
    | false => rfl
    | true =>
      rw [In_iff] at hin
      have hin2 : 0 ≤ u - thick ∧ u - thick < size - thick * 2 ∧ 0 ≤ v - thick ∧
          v - thick < size - thick * 2 := hin
      omega
  · intro u v hu0 hu1 hv0 hv1
    rw [Draw_At, hfill u v (by omega) (by omega) (by omega) (by omega), e1, e2, if_pos]
    rw [In_clip, e1, e2, f1, hfresh, hsrc]
    refine ⟨?_, ?_, ?_⟩
    · rw [In_iff]
      simp only [Image.Bounds, f1, hfresh, Rectangle.Add, Pt]
      omega
    · rw [In_iff]
      show 0 ≤ u ∧ u < size ∧ 0 ≤ v ∧ v < size
      omega
    · rw [In_iff]
      show 0 ≤ u - thick ∧ u - thick < size - thick * 2 ∧ 0 ≤ v - thick ∧
        v - thick < size - thick * 2
      omega

/-- C11. For a session without failure whose symbol has `N ≥ 3` modules a side and
whose size `S` is at least `N`, `CodePoint` returns a session with pitch
`T = pitch S N`, and `Result` with `border = true` on that session returns the encoder
output for a canvas `d` of side `S` in which every pixel within `T` of an edge is
exactly the background colour; inside `[T, S-T) x [T, S-T)` the pixel is the content,
resampled to side `S - 2T`, over the background colour. -/
theorem Result_border_is_background (E : Externals) (p : PersonaQrCode) (s : CodePointStyle)
    (r : ℚ) (qr : QRCode) (hqr : p.qr = some qr) (he : p.Error = none)
    (hN : 3 ≤ (qr.modules.length : Int)) (hSN : (qr.modules.length : Int) ≤ p.size)
    (hS2 : p.size < 2 ^ 63) :
    ∃ q c d, CodePoint E p s r = some q ∧ q.thick = pitch p.size qr.modules.length ∧
      q.img = some c ∧
      Result E q true =
        some ({ q with img := some d, Error := (E.pngEncode d).2 }, E.pngEncode d) ∧
      d.Rect = ⟨⟨0, 0⟩, ⟨p.size, p.size⟩⟩ ∧
      (∀ u v, 0 ≤ u → u < p.size → 0 ≤ v → v < p.size →
        (u < q.thick ∨ p.size - q.thick ≤ u ∨ v < q.thick ∨ p.size - q.thick ≤ v) →
          d.At u v = (p.background.getD ⟨⟨255, 255, 255, 255⟩, true⟩).rgba) ∧
      (∀ u v, q.thick ≤ u → u < p.size - q.thick → q.thick ≤ v → v < p.size - q.thick →
        d.At u v =
          over ((Resize E (p.size - q.thick * 2).toNat (p.size - q.thick * 2).toNat
            (resultScale E p.size c) .Lanczos3).At (u - q.thick) (v - q.thick))
            ((p.background.getD ⟨⟨255, 255, 255, 255⟩, true⟩).rgba)) := by
  have hmod : qr.modules ≠ [] := by
    intro h0
    rw [h0] at hN
    simp only [List.length_nil, Nat.cast_zero] at hN
    omega
  obtain ⟨c, hcp, _⟩ := CodePoint_some E p s r qr hqr hmod
  have hT : pitch p.size qr.modules.length = p.size / qr.modules.length := by
    rw [pitch_eq_tdiv, Int.tdiv_eq_ediv (by omega) (by omega)]
  have hT1 : 1 ≤ p.size / (qr.modules.length : Int) :=
    (Int.le_ediv_iff_mul_le (by omega)).mpr (by omega)
  have hNT : (qr.modules.length : Int) * (p.size / qr.modules.length) ≤ p.size :=
    Int.mul_ediv_self_le (by omega)
  have h3T : 3 * (p.size / (qr.modules.length : Int)) ≤
      (qr.modules.length : Int) * (p.size / qr.modules.length) :=
    Int.mul_le_mul_of_nonneg_right hN (by omega)
  generalize hq : ({ hasDefault p with
      qr := some { qr with DisableBorder := true }
      thick := pitch p.size qr.modules.length
      img := some c } : PersonaQrCode) = q at hcp
  have hqe : q.Error = none := by rw [← hq]; exact he
  have hqs : q.size = p.size := by rw [← hq]; rfl
  have hqt : q.thick = pitch p.size qr.modules.length := by rw [← hq]
  have hqi : q.img = some c := by rw [← hq]
  have hqq : q.qr = some { qr with DisableBorder := true } := by rw [← hq]
  have hqb : q.background.map Color.rgba =
      some (p.background.getD ⟨⟨255, 255, 255, 255⟩, true⟩).rgba := by
    rw [← hq]; rfl
  have hbm : ({ qr with DisableBorder := true } : QRCode).Bitmap = qr.modules := by
    simp only [QRCode.Bitmap, if_true]
  have hne : q.size ≠ (({ qr with DisableBorder := true } : QRCode).Bitmap.length : Int) *
      q.thick - 1 := by
    rw [hbm, hqs, hqt, hT]
    omega
  have hsc : (resultScale E p.size c).Rect = ⟨⟨0, 0⟩, ⟨p.size, p.size⟩⟩ := by
    rw [resultScale_Rect, Rect_of_nonneg (by omega) (by omega)]
  obtain ⟨d, hd, hdr, hedge, hin⟩ := resultBorder_frame E p.size (p.size / qr.modules.length)
    (p.background.getD ⟨⟨255, 255, 255, 255⟩, true⟩).rgba (resultScale E p.size c) hS2 hT1
    (by omega) hsc
  refine ⟨q, c, d, hcp, hqt, hqi, ?_, hdr, ?_, ?_⟩
  · rw [Result_with_canvas E q true c _ hqe hqi hqq, if_pos rfl, if_pos hne, hqs, hqt, hT,
      hqb, hd]
    rfl
  · rw [hqt, hT]; exact hedge
  · rw [hqt, hT]; exact hin

/-- The statement of C11 at a fresh session of size 200 over the 21-module sample
symbol (pitch 9): the corner pixel of the canvas of `Result` is the default background,
solid white. -/
theorem Result_border_is_background_witness :
    ((sampleSession 200 .High).qr = some ⟨sampleBitmap, .High, false⟩ ∧
        (sampleSession 200 .High).Error = none ∧ (3 : Int) ≤ (sampleBitmap.length : Int) ∧
        (sampleBitmap.length : Int) ≤ (sampleSession 200 .High).size ∧
        (sampleSession 200 .High).size < 2 ^ 63) ∧
      ∃ q c d, CodePoint sampleExternals (sampleSession 200 .High) .CpsRectangle (1 / 2) =
          some q ∧ q.img = some c ∧
        Result sampleExternals q true =
          some ({ q with img := some d, Error := (sampleExternals.pngEncode d).2 },
            sampleExternals.pngEncode d) ∧
        d.Rect = ⟨⟨0, 0⟩, ⟨200, 200⟩⟩ ∧ d.At 0 0 = ⟨255, 255, 255, 255⟩ := by
  have h3 : (3 : Int) ≤ (sampleBitmap.length : Int) := by decide
  have h4 : (sampleBitmap.length : Int) ≤ (sampleSession 200 .High).size := by decide
  have h5 : (sampleSession 200 .High).size < 2 ^ 63 := by decide
  refine ⟨⟨rfl, rfl, h3, h4, h5⟩, ?_⟩
  obtain ⟨q, c, d, k1, k2, k3, k4, k5, k6, _⟩ :=
    Result_border_is_background sampleExternals (sampleSession 200 .High) .CpsRectangle (1 / 2)
      ⟨sampleBitmap, .High, false⟩ rfl rfl h3 h4 h5
  refine ⟨q, c, d, k1, k3, k4, k5, ?_⟩
  have hT : (0 : Int) < q.thick := by
    rw [k2, pitch_eq_tdiv]
    decide
  exact k6 0 0 (by decide) (by decide) (by decide) (by decide) (Or.inl hT)

/-! ## The padded logo canvas -/

/-- The padded canvas of `Logo` with `border = true`, for a logo `W` wide and `H` high at
the origin: it is `W x H`, and a pixel whose aligned point lies outside the resampled
logo is the background colour when `u < H` and `v < W`, the bounds of the fill loops, and
is left transparent otherwise. -/
theorem logoCanvas_border_At (E : Externals) (bg : RGBA) (img : Image) (W H : Int)
    (hrect : img.Rect = ⟨⟨0, 0⟩, ⟨W, H⟩⟩) (hW : 0 ≤ W) (hH : 0 ≤ H) :
    ∃ c, logoCanvas E (some bg) img true = some c ∧ c.Rect = ⟨⟨0, 0⟩, ⟨W, H⟩⟩ ∧
      ∀ u v, 0 ≤ u → u < W → 0 ≤ v → v < H →
        (Pt (u - (W - truncToInt ((W : ℚ) * (4 / 5))).tdiv 2)
            (v - (H - truncToInt ((H : ℚ) * (4 / 5))).tdiv 2)).In
          (Resize E (truncToUint ((W : ℚ) * (4 / 5))) (truncToUint ((H : ℚ) * (4 / 5))) img
            .Lanczos3).Rect = false →
        c.At u v = if u < H ∧ v < W then bg else RGBA.zero := by
  have hfresh : (NewRGBA (Rect 0 0 W H)).Rect = ⟨⟨0, 0⟩, ⟨W, H⟩⟩ := by
    show Rect 0 0 W H = _
    rw [Rect_of_nonneg hW hH]
  obtain ⟨f1, f2⟩ := fillRows_px (NewRGBA (Rect 0 0 W H)) bg W H
  have hmx : img.Bounds.Max.X = W := by simp only [Image.Bounds, hrect]
  have hmy : img.Bounds.Max.Y = H := by simp only [Image.Bounds, hrect]
  have hlc : logoCanvas E (some bg) img true =
      some (Draw (loopN W (fun y img => loopN H (fun x img => img.Set x y bg) img)
          (NewRGBA (Rect 0 0 W H)))
        ((loopN W (fun y img => loopN H (fun x img => img.Set x y bg) img)
          (NewRGBA (Rect 0 0 W H))).Bounds.Add (Pt
            ((W - truncToInt ((W : ℚ) * (4 / 5))).tdiv 2)
            ((H - truncToInt ((H : ℚ) * (4 / 5))).tdiv 2)))
        (Resize E (truncToUint ((W : ℚ) * (4 / 5))) (truncToUint ((H : ℚ) * (4 / 5))) img
          .Lanczos3) (Pt 0 0)) := by
    unfold logoCanvas fillLoop
    simp only [if_true, Option.bind_eq_bind, Option.some_bind, hmx, hmy]
  refine ⟨_, hlc, ?_, ?_⟩
  · rw [Draw_Rect, f1, hfresh]
  · intro u v hu0 hu1 hv0 hv1 hout
    have hinF : (Pt u v).In ⟨⟨0, 0⟩, ⟨W, H⟩⟩ = true := by
      rw [In_iff]; exact ⟨hu0, hu1, hv0, hv1⟩
    have e1 : u - ((loopN W (fun y img => loopN H (fun x img => img.Set x y bg) img)
        (NewRGBA (Rect 0 0 W H))).Bounds.Add (Pt
          ((W - truncToInt ((W : ℚ) * (4 / 5))).tdiv 2)
          ((H - truncToInt ((H : ℚ) * (4 / 5))).tdiv 2))).Min.X + (Pt 0 0).X =
        u - (W - truncToInt ((W : ℚ) * (4 / 5))).tdiv 2 := by
      simp only [Image.Bounds, f1, hfresh, Rectangle.Add, Pt]; omega
    have e2 : v - ((loopN W (fun y img => loopN H (fun x img => img.Set x y bg) img)
        (NewRGBA (Rect 0 0 W H))).Bounds.Add (Pt
          ((W - truncToInt ((W : ℚ) * (4 / 5))).tdiv 2)
          ((H - truncToInt ((H : ℚ) * (4 / 5))).tdiv 2))).Min.Y + (Pt 0 0).Y =
        v - (H - truncToInt ((H : ℚ) * (4 / 5))).tdiv 2 := by
      simp only [Image.Bounds, f1, hfresh, Rectangle.Add, Pt]; omega
    rw [Draw_At_of_not_src _ _ _ _ _ _ (by rw [e1, e2]; exact hout)]
    unfold Image.At
    rw [f1, hfresh, if_pos hinF, f2, hfresh]
    by_cases hc : u < H ∧ v < W
    · rw [if_pos hc, if_pos ⟨hv0, hc.2, hu0, hc.1, hinF⟩]
    · rw [if_neg hc, if_neg]
      · rfl
      · rintro ⟨_, h2, _, h4, _⟩
        exact hc ⟨h4, h2⟩

/-- C12 (the code departs from the claim). For a logo 10 wide and 5 high and a white
background, `Logo` with `border = true` builds a 10 x 5 padded canvas whose fill loops
run `y` below the width and `x` below the height; the logo is resampled to 8 x 4 and
composited at offset (1, 0), so pixel (9, 0) lies outside the footprint
`[1, 9) x [0, 4)`, and it is left transparent, not white. -/
theorem logoCanvas_wide_unfilled (E : Externals) :
    ∃ c, logoCanvas E (some ⟨255, 255, 255, 255⟩) wideLogo true = some c ∧
      c.Rect = ⟨⟨0, 0⟩, ⟨10, 5⟩⟩ ∧
      (truncToUint (((10 : Int) : ℚ) * (4 / 5)) = 8 ∧
        truncToUint (((5 : Int) : ℚ) * (4 / 5)) = 4 ∧
        ((10 : Int) - truncToInt (((10 : Int) : ℚ) * (4 / 5))).tdiv 2 = 1 ∧
        ((5 : Int) - truncToInt (((5 : Int) : ℚ) * (4 / 5))).tdiv 2 = 0) ∧
      (Resize E 8 4 wideLogo .Lanczos3).Rect = ⟨⟨0, 0⟩, ⟨8, 4⟩⟩ ∧
      (Pt 9 0).In c.Rect = true ∧ c.At 9 0 = RGBA.zero ∧
      c.At 9 0 ≠ ⟨255, 255, 255, 255⟩ := by
  have t10 : truncToInt (((10 : Int) : ℚ) * (4 / 5)) = 8 := by
    have e : ((10 : Int) : ℚ) * (4 / 5) = ((8 : Int) : ℚ) := by norm_num
    rw [e, truncToInt_intCast]
  have t5 : truncToInt (((5 : Int) : ℚ) * (4 / 5)) = 4 := by
    have e : ((5 : Int) : ℚ) * (4 / 5) = ((4 : Int) : ℚ) := by norm_num
    rw [e, truncToInt_intCast]
  have u10 : truncToUint (((10 : Int) : ℚ) * (4 / 5)) = 8 := by
    unfold truncToUint
    rw [t10]
    decide
  have u5 : truncToUint (((5 : Int) : ℚ) * (4 / 5)) = 4 := by
    unfold truncToUint
    rw [t5]
    decide
  have hrect : wideLogo.Rect = ⟨⟨0, 0⟩, ⟨10, 5⟩⟩ := rfl
  have hres : (Resize E 8 4 wideLogo .Lanczos3).Rect = ⟨⟨0, 0⟩, ⟨8, 4⟩⟩ := by
    have hdx : wideLogo.Bounds.Dx = 10 := by
      simp only [Image.Bounds, Rectangle.Dx, hrect]; decide
    have hdy : wideLogo.Bounds.Dy = 5 := by
      simp only [Image.Bounds, Rectangle.Dy, hrect]; decide
    rw [Resize_Rect E 8 4 wideLogo _ (by decide) (by decide) (by rw [hdx]; decide)
      (by rw [hdy]; decide) (by rw [hdx]; decide)]
    rfl
  obtain ⟨c, hc, hcr, hpx⟩ := logoCanvas_border_At E ⟨255, 255, 255, 255⟩ wideLogo 10 5 hrect
    (by decide) (by decide)
  have h90 : c.At 9 0 = RGBA.zero := by
    rw [hpx 9 0 (by decide) (by decide) (by decide) (by decide)
      (by rw [t10, t5, u10, u5, hres]; decide)]
    exact if_neg (by decide)
  refine ⟨c, hc, hcr, ⟨u10, u5, ?_, ?_⟩, hres, ?_, h90, ?_⟩
  · rw [t10]; decide
  · rw [t5]; decide
  · rw [hcr]; decide
  · rw [h90]; decide

/-- For a square logo the fill loops cover the canvas: every pixel of the padded canvas
whose aligned point lies outside the resampled logo is the background colour. -/
theorem logoCanvas_square_filled (E : Externals) (bg : RGBA) (img : Image) (W : Int)
    (hrect : img.Rect = ⟨⟨0, 0⟩, ⟨W, W⟩⟩) (hW : 0 ≤ W) :
    ∃ c, logoCanvas E (some bg) img true = some c ∧ c.Rect = ⟨⟨0, 0⟩, ⟨W, W⟩⟩ ∧
      ∀ u v, 0 ≤ u → u < W → 0 ≤ v → v < W →
        (Pt (u - (W - truncToInt ((W : ℚ) * (4 / 5))).tdiv 2)
            (v - (W - truncToInt ((W : ℚ) * (4 / 5))).tdiv 2)).In
          (Resize E (truncToUint ((W : ℚ) * (4 / 5))) (truncToUint ((W : ℚ) * (4 / 5))) img
            .Lanczos3).Rect = false →
        c.At u v = bg := by
  obtain ⟨c, hc, hcr, hpx⟩ := logoCanvas_border_At E bg img W W hrect hW hW
  refine ⟨c, hc, hcr, ?_⟩
  intro u v hu0 hu1 hv0 hv1 hout
  rw [hpx u v hu0 hu1 hv0 hv1 hout, if_pos ⟨hu1, hv1⟩]

/-! ## BullEye at the top-left pixel -/

/-- The nearest-neighbour resampler keeps the top-left pixel of a source at the
origin. -/
theorem nearest_resized_origin (n : Nat) (img : Image) (i : InterpolationFunction)
    (W H : Int) (hW : 0 < W) (hH : 0 < H) (hrect : img.Rect = ⟨⟨0, 0⟩, ⟨W, H⟩⟩) (hn : 1 ≤ n) :
    (Resize nearestExternals n n img i).At 0 0 = img.At 0 0 := by
  have hdx : img.Bounds.Dx = W := by simp only [Image.Bounds, Rectangle.Dx, hrect]; omega
  have hdy : img.Bounds.Dy = H := by simp only [Image.Bounds, Rectangle.Dy, hrect]; omega
  by_cases hsame : (n : Int) = W ∧ (n : Int) = H
  · rw [Resize_same nearestExternals _ _ _ _ (by rw [hdx]; exact hsame.1)
      (by rw [hdy]; exact hsame.2) (by omega) (by omega)]
  · have hn0 : n ≠ 0 := by omega
    have hres : Resize nearestExternals n n img i =
        ⟨Rect 0 0 n n, nearestExternals.resample i n n img⟩ := by
      unfold Resize
      simp only [hn0, if_false]
      rw [if_neg (by rw [hdx, hdy]; exact hsame), if_neg (by rw [hdx, hdy]; omega)]
    rw [hres]
    have hin : (Pt 0 0).In (Rect 0 0 (n : Int) (n : Int)) = true := by
      rw [Rect_of_nonneg (by omega) (by omega), In_iff]
      show (0 : Int) ≤ 0 ∧ (0 : Int) < n ∧ (0 : Int) ≤ 0 ∧ (0 : Int) < n
      omega
    have hat : (⟨Rect 0 0 n n, nearestExternals.resample i n n img⟩ : Image).At 0 0 =
        nearestExternals.resample i n n img 0 0 := by
      show (if (Pt 0 0).In (Rect 0 0 (n : Int) (n : Int)) = true then _ else _) = _
      rw [if_pos hin]
    rw [hat]
    show img.At (img.Rect.Min.X + (0 * img.Bounds.Dx).tdiv n)
      (img.Rect.Min.Y + (0 * img.Bounds.Dy).tdiv n) = _
    have e1 : img.Rect.Min.X + (0 * img.Bounds.Dx).tdiv n = 0 := by
      rw [hrect]; simp only [zero_mul, Int.zero_tdiv, add_zero]
    have e2 : img.Rect.Min.Y + (0 * img.Bounds.Dy).tdiv n = 0 := by
      rw [hrect]; simp only [zero_mul, Int.zero_tdiv, add_zero]
    rw [e1, e2]

/-- For a size of at least 7 the cover and the inner blob start at least one pixel
inside the patch and have at least one pixel. -/
theorem footprints_inside (S : Int) (hS : 7 ≤ S) :
    1 ≤ oOffset S ∧ 1 ≤ iOffset S ∧ 1 ≤ oSize S ∧ oSize S ≤ S ∧ 1 ≤ iSize S ∧ iSize S ≤ S := by
  have hu : uniform S = S / 7 := by
    unfold uniform
    exact Int.tdiv_eq_ediv (by omega) (by decide)
  have ho : oSize S = 5 * (S / 7) := by
    unfold oSize; rw [hu]; ring
  have hi : iSize S = 3 * (S / 7) := by
    unfold iSize; rw [hu]; ring
  have hoo : oOffset S = (S - 5 * (S / 7)) / 2 := by
    unfold oOffset
    rw [ho]
    exact Int.tdiv_eq_ediv (by omega) (by decide)
  have hio : iOffset S = (S - 3 * (S / 7)) / 2 := by
    unfold iOffset
    rw [hi]
    exact Int.tdiv_eq_ediv (by omega) (by decide)
  rw [ho, hi, hoo, hio]
  omega

/-- The top-left pixel of a patch with rectangular outside and inner shapes and a
background that is not transparent: the foreground colour over a transparent pixel,
since the cover and the inner blob start further inside. -/
theorem bullEyePatch_origin (E : Externals) (S : Int) (fg bg : RGBA) (hS : 7 ≤ S)
    (hS2 : S < 2 ^ 63) (hA : bg.A ≠ 0) :
    (bullEyePatch E S fg bg .BesRectangle .BesRectangle).At 0 0 = over fg RGBA.zero := by
  obtain ⟨ho1, hi1, hos1, hos2, his1, his2⟩ := footprints_inside S hS
  have hS0 : (0 : Int) ≤ S := by omega
  have hnew : (NewRGBA (Rect 0 0 S S)).Rect = ⟨⟨0, 0⟩, ⟨S, S⟩⟩ := by
    show Rect 0 0 S S = _
    rw [Rect_of_nonneg hS0 hS0]
  have hshape : ∀ col, (bullEyeShape .BesRectangle col S).Rect = ⟨⟨0, 0⟩, ⟨S, S⟩⟩ := by
    intro col
    show (rectangle col S S 0).Rect = _
    rw [rectangle_Rect, Rect_of_nonneg hS0 hS0]
  have hout : ∀ (n : Nat) (col : RGBA) (i : InterpolationFunction) (off : Int), 1 ≤ n →
      1 ≤ off → ∀ r : Rectangle, r.Min = ⟨0 + off, 0 + off⟩ →
      (Pt (0 - r.Min.X + (Pt 0 0).X) (0 - r.Min.Y + (Pt 0 0).Y)).In
        (Resize E n n (bullEyeShape .BesRectangle col S) i).Rect = false := by
    intro n col i off hn hoff r hr
    cases hin : (Pt (0 - r.Min.X + (Pt 0 0).X) (0 - r.Min.Y + (Pt 0 0).Y)).In
        (Resize E n n (bullEyeShape .BesRectangle col S) i).Rect with
    | false => rfl
    | true =>
      exfalso
      have h := resized_In E n _ i S S hS0 hS0 (hshape col) hn _ _ hin
      rw [hr] at h
      simp only [Pt] at h
      omega
  have hui : toUint (iSize S) = (iSize S).toNat := toUint_of_nonneg_lt (by omega) (by omega)
  have huo : toUint (oSize S) = (oSize S).toNat := toUint_of_nonneg_lt (by omega) (by omega)
  have hus : toUint S = S.toNat := toUint_of_nonneg_lt (by omega) (by omega)
  rw [bullEyePatch_footprints, if_neg hA, hui, huo, hus]
  rw [Draw_At_of_not_src _ _ _ _ _ _ (hout _ fg _ (iOffset S) (by omega) hi1 _
    (by simp only [Image.Bounds, hnew, Rectangle.Add, Pt]))]
  rw [Draw_At_of_not_src _ _ _ _ _ _ (hout _ _ _ (oOffset S) (by omega) ho1 _
    (by simp only [Image.Bounds, hnew, Rectangle.Add, Pt]))]
  rw [Resize_same E _ _ _ _
    (by simp only [Image.Bounds, Rectangle.Dx, hshape]; omega)
    (by simp only [Image.Bounds, Rectangle.Dy, hshape]; omega) (by omega) (by omega)]
  rw [Draw_At, if_pos]
  · have e0 : (0 : Int) - (NewRGBA (Rect 0 0 S S)).Bounds.Min.X + (Pt 0 0).X = 0 := by
      simp only [Image.Bounds, hnew, Pt]; omega
    have e1 : (0 : Int) - (NewRGBA (Rect 0 0 S S)).Bounds.Min.Y + (Pt 0 0).Y = 0 := by
      simp only [Image.Bounds, hnew, Pt]; omega
    rw [e0, e1]
    have hrect : (bullEyeShape .BesRectangle fg S).At 0 0 = fg := by
      show (rectangle fg S S 0).At 0 0 = fg
      rw [rectangle_At fg S S 0 0 0 (le_refl 0) (by omega) (by omega) ⟨le_refl 0, by omega⟩
        ⟨le_refl 0, by omega⟩, if_neg]
      rintro ⟨⟨h1, _⟩, _⟩
      omega
    have hz : (NewRGBA (Rect 0 0 S S)).At 0 0 = RGBA.zero := by
      unfold Image.At NewRGBA
      split <;> rfl
    rw [hrect, hz]
  · rw [In_clip]
    have e0 : (0 : Int) - (NewRGBA (Rect 0 0 S S)).Bounds.Min.X + (Pt 0 0).X = 0 := by
      simp only [Image.Bounds, hnew, Pt]; omega
    have e1 : (0 : Int) - (NewRGBA (Rect 0 0 S S)).Bounds.Min.Y + (Pt 0 0).Y = 0 := by
      simp only [Image.Bounds, hnew, Pt]; omega
    rw [e0, e1]
    simp only [Image.Bounds, hnew, hshape]
    have hin : (Pt 0 0).In ⟨⟨0, 0⟩, ⟨S, S⟩⟩ = true := by
      rw [In_iff]
      show (0 : Int) ≤ 0 ∧ (0 : Int) < S ∧ (0 : Int) ≤ 0 ∧ (0 : Int) < S
      omega
    exact ⟨hin, hin, hin⟩

/-- Three compositing steps of stamps at the origin, the first at (0, 0) and the other
two at (0, m) and (m, 0) with `m > 0`: the top-left pixel of the canvas is pixel (0, 0)
of the first stamp over the old pixel. -/
theorem Composited_origin (s1 s2 s3 c d1 d2 d3 : Image) (m n : Int) (hm : 0 < m)
    (hn : 0 < n) (hin : (Pt 0 0).In c.Rect = true)
    (h1 : s1.Rect = ⟨⟨0, 0⟩, ⟨n, n⟩⟩) (h2 : s2.Rect = ⟨⟨0, 0⟩, ⟨n, n⟩⟩)
    (h3 : s3.Rect = ⟨⟨0, 0⟩, ⟨n, n⟩⟩) (k1 : Composited s1 0 0 c d1)
    (k2 : Composited s2 0 m d1 d2) (k3 : Composited s3 m 0 d2 d3) :
    d3.At 0 0 = over (s1.At 0 0) (c.At 0 0) := by
  have hs1 : (Pt ((0 : Int) - 0) ((0 : Int) - 0)).In s1.Rect = true := by
    rw [h1, In_iff]
    show (0 : Int) ≤ 0 - 0 ∧ (0 : Int) - 0 < n ∧ (0 : Int) ≤ 0 - 0 ∧ (0 : Int) - 0 < n
    omega
  have hs2 : ¬ (Pt ((0 : Int) - 0) ((0 : Int) - m)).In s2.Rect = true := by
    rw [h2, In_iff]
    show ¬ ((0 : Int) ≤ 0 - 0 ∧ (0 : Int) - 0 < n ∧ (0 : Int) ≤ 0 - m ∧ (0 : Int) - m < n)
    omega
  have hs3 : ¬ (Pt ((0 : Int) - m) ((0 : Int) - 0)).In s3.Rect = true := by
    rw [h3, In_iff]
    show ¬ ((0 : Int) ≤ 0 - m ∧ (0 : Int) - m < n ∧ (0 : Int) ≤ 0 - 0 ∧ (0 : Int) - 0 < n)
    omega
  rw [k3.2 0 0, if_neg (fun h => hs3 h.2), k2.2 0 0, if_neg (fun h => hs2 h.2), k1.2 0 0,
    if_pos ⟨hin, hs1⟩, sub_zero]

/-- With the nearest-neighbour resampler, rectangular shapes, an opaque background and
no foreground image, on a canvas at the origin that is more than `7 * thick` high:
`BullEye` leaves in the top-left pixel the foreground colour over a transparent pixel,
over the old pixel. -/
theorem BullEye_paints_origin (p : PersonaQrCode) (c d1 d2 d3 : Image) (fg bg : RGBA)
    (hS : 7 ≤ p.size) (hS2 : p.size < 2 ^ 60) (hT : 1 ≤ p.thick) (hT2 : p.thick < 2 ^ 60)
    (hfi : p.foreImage = none) (hA : bg.A ≠ 0) (hin : (Pt 0 0).In c.Rect = true)
    (hH : 7 * p.thick < c.Bounds.Max.Y)
    (k1 : Composited (Resize nearestExternals (toUint (7 * p.thick)) (toUint (7 * p.thick))
        (bullEyePatch nearestExternals p.size (bullEyeForeground p fg (0, 0)) bg
          .BesRectangle .BesRectangle) .Bilinear) 0 0 c d1)
    (k2 : Composited (Resize nearestExternals (toUint (7 * p.thick)) (toUint (7 * p.thick))
        (bullEyePatch nearestExternals p.size
          (bullEyeForeground p fg (0, c.Bounds.Max.Y - 7 * p.thick)) bg
          .BesRectangle .BesRectangle) .Bilinear) 0 (c.Bounds.Max.Y - 7 * p.thick) d1 d2)
    (k3 : Composited (Resize nearestExternals (toUint (7 * p.thick)) (toUint (7 * p.thick))
        (bullEyePatch nearestExternals p.size
          (bullEyeForeground p fg (c.Bounds.Max.Y - 7 * p.thick, 0)) bg
          .BesRectangle .BesRectangle) .Bilinear) (c.Bounds.Max.Y - 7 * p.thick) 0 d2 d3) :
    d3.At 0 0 = over (over fg RGBA.zero) (c.At 0 0) := by
  have hu : toUint (7 * p.thick) = (7 * p.thick).toNat :=
    toUint_of_nonneg_lt (by omega) (by omega)
  have hfg : ∀ xy, bullEyeForeground p fg xy = fg := by
    intro xy
    unfold bullEyeForeground
    rw [hfi]
  have hr : ∀ xy, (Resize nearestExternals (toUint (7 * p.thick)) (toUint (7 * p.thick))
      (bullEyePatch nearestExternals p.size (bullEyeForeground p fg xy) bg
        .BesRectangle .BesRectangle) .Bilinear).Rect =
        ⟨⟨0, 0⟩, ⟨7 * p.thick, 7 * p.thick⟩⟩ := fun xy =>
    patch_resized_Rect nearestExternals p.size p.thick _ bg _ _ (by omega) hT hT2
  rw [Composited_origin _ _ _ c d1 d2 d3 (c.Bounds.Max.Y - 7 * p.thick) (7 * p.thick)
    (by omega) (by omega) hin (hr _) (hr _) (hr _) k1 k2 k3]
  rw [hu, nearest_resized_origin _ _ _ p.size p.size (by omega) (by omega)
    (by rw [bullEyePatch_Rect, Rect_of_nonneg (by omega) (by omega)]) (by omega),
    bullEyePatch_origin nearestExternals p.size _ bg hS (by omega) hA, hfg]

/-- The statement of C6 (amended) at a session that carries the decodability-risk
failure and has a white canvas of side 42 and pitch 2, with the nearest-neighbour
resampler: `BullEye` returns, the failure is still there, and the top-left pixel of the
canvas has turned from white to black. -/
theorem failure_stays_set_witness :
    ({ sampleSession 42 .Medium with
        img := some (whiteCanvas 42), thick := 2,
        Error := some Failure.lowFaultTolerance } : PersonaQrCode).Error =
        some Failure.lowFaultTolerance ∧
      ∃ q d, BullEye nearestExternals
          { sampleSession 42 .Medium with
            img := some (whiteCanvas 42), thick := 2,
            Error := some Failure.lowFaultTolerance } .BesRectangle .BesRectangle = some q ∧
        q.Error = some Failure.lowFaultTolerance ∧ q.img = some d ∧
        (whiteCanvas 42).At 0 0 = ⟨255, 255, 255, 255⟩ ∧ d.At 0 0 = ⟨0, 0, 0, 255⟩ := by
  refine ⟨rfl, ?_⟩
  have hwc : (whiteCanvas 42).Rect = ⟨⟨0, 0⟩, ⟨42, 42⟩⟩ := by
    show Rect 0 0 42 42 = _
    rw [Rect_of_nonneg (by decide) (by decide)]
  have hin : (Pt 0 0).In (whiteCanvas 42).Rect = true := by rw [hwc]; decide
  have hw : (whiteCanvas 42).At 0 0 = ⟨255, 255, 255, 255⟩ := by
    unfold Image.At
    rw [if_pos hin]
    rfl
  obtain ⟨q, d1, d2, d3, k1, k2, k3, c1, c2, c3⟩ :=
    (failure_stays_set nearestExternals
      { sampleSession 42 .Medium with
        img := some (whiteCanvas 42), thick := 2,
        Error := some Failure.lowFaultTolerance }
      Failure.lowFaultTolerance rfl).2.2.2.1 .BesRectangle .BesRectangle (whiteCanvas 42) rfl
      (by rw [hwc]) (by intro col h; cases h)
  refine ⟨q, d3, k1, k2, k3, hw, ?_⟩
  rw [BullEye_paints_origin
    { sampleSession 42 .Medium with
      img := some (whiteCanvas 42), thick := 2,
      Error := some Failure.lowFaultTolerance } (whiteCanvas 42) d1 d2 d3 ⟨0, 0, 0, 255⟩
    ⟨255, 255, 255, 255⟩ (by decide) (by decide) (by decide) (by decide) rfl (by decide) hin
    (by simp only [Image.Bounds, hwc]; decide) c1 c2 c3, hw]
  decide

/-- The statement of C9 (amended) at size 42 over the 21-module bitmap (pitch 2), with
the nearest-neighbour resampler: the three points are (0, 0), (0, 28) and (28, 0), the
top-left pixel of the canvas of `CodePoint` is white, and `BullEye` with rectangular
shapes turns it black. -/
theorem bullEye_origins_witness :
    ((sampleSession 42 .High).qr = some ⟨sampleBitmap, .High, false⟩ ∧
      (∀ c0, (sampleSession 42 .High).img = some c0 → c0.Rect = Rect 0 0 42 42) ∧
      1 ≤ sampleBitmap.length ∧
      (sampleBitmap.length : Int) ≤ (sampleSession 42 .High).size ∧
      (sampleSession 42 .High).size < 2 ^ 60) ∧
    ∃ q c, CodePoint nearestExternals (sampleSession 42 .High) .CpsRectangle 1 = some q ∧
      q.img = some c ∧ q.thick = 2 ∧
      bullEyeOrigins c q.thick = [(0, 0), (0, 28), (28, 0)] ∧
      c.At 0 0 = ⟨255, 255, 255, 255⟩ ∧
      ∃ q2 d, BullEye nearestExternals q .BesRectangle .BesRectangle = some q2 ∧
        q2.img = some d ∧ d.At 0 0 = ⟨0, 0, 0, 255⟩ := by
  refine ⟨⟨rfl, (by intro c0 h; cases h), by decide, by decide, by decide⟩, ?_⟩
  have hp : pitch 42 21 = 2 := by rw [pitch_eq_tdiv]; decide
  have hcl : clampRatio 1 = 1 := by unfold clampRatio; norm_num
  have hr : (1 : ℚ) ≤ clampRatio 1 * ((pitch 42 21 : Int) : ℚ) := by
    rw [hcl, hp]; norm_num
  obtain ⟨q, c, h1, h2, _, _, _, _, h7, _, h9⟩ :=
    bullEye_origins nearestExternals (sampleSession 42 .High) .CpsRectangle 1
      ⟨sampleBitmap, .High, false⟩ rfl (by intro c0 h; cases h) (by decide) (by decide)
      (by decide)
  obtain ⟨q0, c0, g1, g2, _, _, _, _, g7, g8⟩ :=
    CodePoint_origin_pixel nearestExternals (sampleSession 42 .High) .CpsRectangle 1
      ⟨sampleBitmap, .High, false⟩ rfl (by decide) (by decide) (by decide)
      (by intro c0 h; cases h) hr
  have hq0 : q0 = q := by
    rw [h1] at g1
    simp only [Option.some.injEq] at g1
    exact g1.symm
  have hc0 : c0 = c := by
    rw [hq0, h2] at g2
    simp only [Option.some.injEq] at g2
    exact g2.symm
  rw [hc0] at g7 g8
  have heq := CodePoint_eq nearestExternals (sampleSession 42 .High) .CpsRectangle 1
    ⟨sampleBitmap, .High, false⟩ rfl (by decide)
  rw [h1] at heq
  simp only [Option.some.injEq] at heq
  have hthick : q.thick = 2 := by rw [heq]; exact hp
  have hsize : q.size = 42 := by rw [heq]; rfl
  have hfi : q.foreImage = none := by rw [heq]; rfl
  have hfg : q.foreground = some ⟨⟨0, 0, 0, 255⟩, true⟩ := by rw [heq]; rfl
  have hbg : q.background = some ⟨⟨255, 255, 255, 255⟩, true⟩ := by rw [heq]; rfl
  have hrect : c.Rect = ⟨⟨0, 0⟩, ⟨42, 42⟩⟩ := by
    rw [g7 (by decide)]
    exact Rect_of_nonneg (by decide) (by decide)
  have hin : (Pt 0 0).In c.Rect = true := by rw [hrect]; decide
  have hwhite : c.At 0 0 = ⟨255, 255, 255, 255⟩ := by rw [g8]; rfl
  have horig : bullEyeOrigins c q.thick = [(0, 0), (0, 28), (28, 0)] := by
    rw [h7 (by decide), hthick]
    decide
  obtain ⟨q2, d1, d2, d3, b1, b2, _, b4, b5, b6, _⟩ :=
    h9 .BesRectangle .BesRectangle (by intro col h; cases h)
  refine ⟨q, c, h1, h2, hthick, horig, hwhite, q2, d3, b1, b2, ?_⟩
  rw [BullEye_paints_origin q c d1 d2 d3 _ _ (by rw [hsize]; decide) (by rw [hsize]; decide)
    (by rw [hthick]; decide) (by rw [hthick]; decide) hfi
    (by rw [hbg]; decide) hin (by simp only [Image.Bounds, hrect, hthick]; decide) b4 b5 b6,
    hwhite, hfg]
  decide

end Selfqr
